import Mathlib

/-!
Shallow embedding of the `orderbook` matching engine
(`orderbook/models.py` and `orderbook/core.py`).

Modelling conventions:
* Python floats used as prices are embedded as `Int` (the engine only ever
  compares, negates and stores prices; on the tick grid these operations
  agree with the integer embedding).
* Python unbounded `int` quantities are embedded as `Int`; the engine's
  sequence counter (always non-negative) as `Nat`.
* A Python `dict` keyed by price (insertion ordered, unique keys) is
  embedded as an association list; `aset` writes in place (as a `dict`
  assignment does) and `aerase` removes the entry (as `dict.pop` does).
* A `heapq` heap is used by the engine only through `heappush`,
  `heappop` and peeking at `heap[0]`; through this interface a binary
  min-heap is observationally a sorted list, so the heaps are embedded
  as ascending sorted lists (`hpush` inserts in order, popping takes the
  tail, peeking takes the head).  The bid heap stores negated prices,
  exactly as in the source.
* Mutation of `self` and of `Order` objects becomes explicit state
  passing: `add` returns the mutated taker order, the trades and the new
  book; `cancel`/`replace` likewise return the new book.
* The matching loops of `_take_from_asks` / `_take_from_bids` are while
  loops; they are embedded with an explicit fuel argument.  The callers
  supply fuel `asks.length + ask_heap.length + 1` which is shown to be
  sufficient on every state satisfying the book invariants (on states
  violating positive-remaining the Python loop does not terminate, and
  the embedding returns after exhausting its fuel).
* The constructor flag `check_invariants` defaults to `False`; the
  optional `assert_invariants` call inside `add`/`cancel` only raises on
  states that the invariants proved below rule out, so the embedded
  operations omit the re-check (the repository's production construction
  `OrderBook()` also does).
-/

namespace OrderBookSpec

/-- Python `Side` enumeration (`orderbook/models.py`). -/
inductive Side where
  | buy
  | sell
deriving DecidableEq, Repr

/-- Python `OrderType` enumeration (`orderbook/models.py`). -/
inductive OrderType where
  | limit
  | market
deriving DecidableEq, Repr

/-- Python `TimeInForce` enumeration (`orderbook/models.py`). -/
inductive TimeInForce where
  | gtc
  | ioc
  | fok
deriving DecidableEq, Repr

/-- Python `Order` dataclass (`orderbook/models.py`).  `remaining` is
`Optional[int]` in the source but `__post_init__` replaces `None` by
`qty`, so every order the engine ever sees carries a concrete value. -/
structure Order where
  id : Int
  side : Side
  qty : Int
  price : Option Int
  order_type : OrderType
  tif : TimeInForce
  ts : Nat
  remaining : Int
deriving DecidableEq, Repr

/-- Python `Order.__post_init__` validation together with the default
`remaining = qty`: the orders a caller can hand to the engine. -/
def validNewOrder (o : Order) : Prop :=
  0 < o.qty ∧ (o.order_type = OrderType.limit ↔ o.price.isSome) ∧ o.remaining = o.qty

instance (o : Order) : Decidable (validNewOrder o) := by
  unfold validNewOrder; infer_instance

/-- Python `Order.is_active` property: `remaining > 0`. -/
def Order.is_active (o : Order) : Prop := 0 < o.remaining

/-- Python `Trade` dataclass (`orderbook/models.py`). -/
structure Trade where
  maker_id : Int
  taker_id : Int
  price : Int
  qty : Int
  ts : Nat
deriving DecidableEq, Repr

/-- Association list lookup, embedding Python `dict.get` /
`dict.__getitem__`. -/
def alookup {β : Type} (m : List (Int × β)) (k : Int) : Option β :=
  match m with
  | [] => none
  | e :: rest => if e.1 = k then some e.2 else alookup rest k

/-- Association list write, embedding Python `dict.__setitem__`: updates
the entry in place when the key is present, appends otherwise (Python
dicts preserve insertion order). -/
def aset {β : Type} (m : List (Int × β)) (k : Int) (v : β) : List (Int × β) :=
  match m with
  | [] => [(k, v)]
  | e :: rest => if e.1 = k then (k, v) :: rest else e :: aset rest k v

/-- Association list removal, embedding Python `dict.pop(k, None)`. -/
def aerase {β : Type} (m : List (Int × β)) (k : Int) : List (Int × β) :=
  m.filter (fun e => e.1 ≠ k)

/-- Sorted insertion: the observable effect of `heapq.heappush` on the
sorted-list model of a binary heap. -/
def hpush (h : List Int) (x : Int) : List Int :=
  match h with
  | [] => [x]
  | y :: t => if x ≤ y then x :: y :: t else y :: hpush t x

/-- Sum of `remaining` over a level (`sum(o.remaining or 0 for o in q)`). -/
def levelRemSum (q : List Order) : Int :=
  (q.map Order.remaining).sum

/-- Python truthiness `p in book and book[p]` used by the lazy heap
cleanup: the key is present and its level non-empty. -/
def liveLevel (m : List (Int × List Order)) (p : Int) : Bool :=
  match alookup m p with
  | some q => !q.isEmpty
  | none => false

/-- Lazy stale-entry cleanup loop of `OrderBook._best_ask_price`: drop
heap entries whose level is absent or empty until the top is live. -/
def cleanAskHeap (asks : List (Int × List Order)) : List Int → List Int
  | [] => []
  | p :: rest => if liveLevel asks p then p :: rest else cleanAskHeap asks rest

/-- Lazy stale-entry cleanup loop of `OrderBook._best_bid_price`; the
heap stores negated prices. -/
def cleanBidHeap (bids : List (Int × List Order)) : List Int → List Int
  | [] => []
  | np :: rest => if liveLevel bids (-np) then np :: rest else cleanBidHeap bids rest

/-- The `OrderBook` state (`orderbook/core.py`): the two side books, the
two lazy best-price heaps, the id index, the sequence counter and the
cumulative trade log. -/
structure Book where
  bids : List (Int × List Order)
  asks : List (Int × List Order)
  bid_heap : List Int
  ask_heap : List Int
  id_index : List (Int × (Side × Int))
  seq : Nat
  trades : List Trade
deriving DecidableEq, Repr

/-- `OrderBook.__init__`: the empty book. -/
def emptyBook : Book :=
  { bids := [], asks := [], bid_heap := [], ask_heap := [], id_index := [],
    seq := 0, trades := [] }

/-- The side book selected by a `Side` (`self._bids` / `self._asks`). -/
def sideBook (b : Book) : Side → List (Int × List Order)
  | Side.buy => b.bids
  | Side.sell => b.asks

/-- `OrderBook._best_ask_price` (value part; the cleaned heap replaces
`self._ask_heap` wherever the source keeps the mutation). -/
def best_ask (b : Book) : Option Int :=
  (cleanAskHeap b.asks b.ask_heap).head?

/-- `OrderBook._best_bid_price` (value part). -/
def best_bid (b : Book) : Option Int :=
  ((cleanBidHeap b.bids b.bid_heap).head?).map (fun np => -np)

/-- Result of the inner per-level fill loop of
`_take_from_asks`/`_take_from_bids`. -/
structure LevelTake where
  rem : Int
  seq : Nat
  level : List Order
  index : List (Int × (Side × Int))
  trs : List Trade
deriving Repr

/-- Inner loop `while order.is_active and level:` of
`OrderBook._take_from_asks` / `_take_from_bids`: fill against the front
of one price level.  When the maker at the front is only partially
consumed, `take = rem` so the taker is exhausted and the Python loop
exits on its next guard check; the embedding returns directly. -/
def takeLevel (takerId : Int) (best : Int) (rem : Int) (seq : Nat)
    (level : List Order) (index : List (Int × (Side × Int))) : LevelTake :=
  match level with
  | [] => ⟨rem, seq, [], index, []⟩
  | maker :: rest =>
    if rem ≤ 0 then ⟨rem, seq, maker :: rest, index, []⟩
    else
      let mrem := maker.remaining
      let take := min rem mrem
      if take ≤ 0 then ⟨rem, seq, maker :: rest, index, []⟩
      else
        let tr : Trade := ⟨maker.id, takerId, best, take, seq + 1⟩
        if mrem - take = 0 then
          let r := takeLevel takerId best (rem - take) (seq + 1) rest (aerase index maker.id)
          ⟨r.rem, r.seq, r.level, r.index, tr :: r.trs⟩
        else
          ⟨rem - take, seq + 1, { maker with remaining := mrem - take } :: rest, index, [tr]⟩

/-- Result of a whole matching walk. -/
structure WalkRes where
  rem : Int
  book : Book
  trs : List Trade
deriving Repr

/-- Price-limit stop test of `_take_from_asks`:
`limit_price is not None and best > limit_price`. -/
def askLimitStop (limitPrice : Option Int) (best : Int) : Bool :=
  match limitPrice with
  | some l => decide (l < best)
  | none => false

/-- Price-limit stop test of `_take_from_bids`:
`limit_price is not None and best < limit_price`. -/
def bidLimitStop (limitPrice : Option Int) (best : Int) : Bool :=
  match limitPrice with
  | some l => decide (best < l)
  | none => false

/-- Outer `while order.is_active:` loop of `OrderBook._take_from_asks`,
with explicit fuel (see the module comment).  Each iteration re-queries
the best ask (committing the lazily cleaned heap), stops on price-limit
violation, fills against the best level, removes the level's key when it
empties, and repeats. -/
def takeFromAsksGo (takerId : Int) (limitPrice : Option Int) :
    Nat → Int → Book → WalkRes
  | 0, rem, b => ⟨rem, b, []⟩
  | fuel + 1, rem, b =>
    if rem ≤ 0 then ⟨rem, b, []⟩
    else
      let h := cleanAskHeap b.asks b.ask_heap
      let b1 := { b with ask_heap := h }
      match h.head? with
      | none => ⟨rem, b1, []⟩
      | some best =>
        if askLimitStop limitPrice best then ⟨rem, b1, []⟩
        else
          match alookup b1.asks best with
          | none =>
            takeFromAsksGo takerId limitPrice fuel rem { b1 with ask_heap := h.tail }
          | some level =>
            if level.isEmpty then
              takeFromAsksGo takerId limitPrice fuel rem { b1 with ask_heap := h.tail }
            else
              let r := takeLevel takerId best rem b1.seq level b1.id_index
              let asks' := if r.level.isEmpty then aerase b1.asks best
                           else aset b1.asks best r.level
              let b2 := { b1 with asks := asks', seq := r.seq, id_index := r.index,
                                  trades := b1.trades ++ r.trs }
              let w := takeFromAsksGo takerId limitPrice fuel r.rem b2
              ⟨w.rem, w.book, r.trs ++ w.trs⟩

/-- Outer loop of `OrderBook._take_from_bids` (mirror image: max-heap of
negated prices, stop when `best < limit_price`). -/
def takeFromBidsGo (takerId : Int) (limitPrice : Option Int) :
    Nat → Int → Book → WalkRes
  | 0, rem, b => ⟨rem, b, []⟩
  | fuel + 1, rem, b =>
    if rem ≤ 0 then ⟨rem, b, []⟩
    else
      let h := cleanBidHeap b.bids b.bid_heap
      let b1 := { b with bid_heap := h }
      match h.head? with
      | none => ⟨rem, b1, []⟩
      | some np =>
        let best := -np
        if bidLimitStop limitPrice best then ⟨rem, b1, []⟩
        else
          match alookup b1.bids best with
          | none =>
            takeFromBidsGo takerId limitPrice fuel rem { b1 with bid_heap := h.tail }
          | some level =>
            if level.isEmpty then
              takeFromBidsGo takerId limitPrice fuel rem { b1 with bid_heap := h.tail }
            else
              let r := takeLevel takerId best rem b1.seq level b1.id_index
              let bids' := if r.level.isEmpty then aerase b1.bids best
                           else aset b1.bids best r.level
              let b2 := { b1 with bids := bids', seq := r.seq, id_index := r.index,
                                  trades := b1.trades ++ r.trs }
              let w := takeFromBidsGo takerId limitPrice fuel r.rem b2
              ⟨w.rem, w.book, r.trs ++ w.trs⟩

/-- `OrderBook._take_from_asks`: run the walk, then discard the residual
for IOC (`if tif is TimeInForce.IOC: order.remaining = 0`). -/
def take_from_asks (b : Book) (o : Order) (limitPrice : Option Int)
    (tif : TimeInForce) : Order × Book × List Trade :=
  let fuel := b.asks.length + b.ask_heap.length + 1
  let w := takeFromAsksGo o.id limitPrice fuel o.remaining b
  let rem := if tif = TimeInForce.ioc then 0 else w.rem
  ({ o with remaining := rem }, w.book, w.trs)

/-- `OrderBook._take_from_bids`. -/
def take_from_bids (b : Book) (o : Order) (limitPrice : Option Int)
    (tif : TimeInForce) : Order × Book × List Trade :=
  let fuel := b.bids.length + b.bid_heap.length + 1
  let w := takeFromBidsGo o.id limitPrice fuel o.remaining b
  let rem := if tif = TimeInForce.ioc then 0 else w.rem
  ({ o with remaining := rem }, w.book, w.trs)

/-- Accumulating loop of `OrderBook._executable_available`: walk the
price keys in priority order, summing level depth while the limit
allows, returning early once the sum reaches the taker's remaining. -/
def availLoop (m : List (Int × List Order)) (stop : Int → Bool)
    (remaining : Int) : List Int → Int → Int
  | [], total => total
  | p :: ps, total =>
    if stop p then total
    else
      let total' := total + levelRemSum ((alookup m p).getD [])
      if remaining ≤ total' then total' else availLoop m stop remaining ps total'

/-- `OrderBook._executable_available`.  For a BUY the asks are walked in
ascending price order with bound `order.price` (no bound for MARKET,
`float("inf")` in the source); for a SELL the bids are walked in
descending order with bound `order.price` (`0.0` for MARKET).  The
function is only ever called on LIMIT FOK orders, whose `price` is
present; `float(None)` would raise in the source, and the embedding's
`getD 0` is likewise never exercised. -/
def executable_available (b : Book) (o : Order) : Int :=
  match o.side with
  | Side.buy =>
    let keys := (b.asks.map Prod.fst).insertionSort (· ≤ ·)
    let stop : Int → Bool :=
      match o.order_type with
      | OrderType.limit => fun p => decide (o.price.getD 0 < p)
      | OrderType.market => fun _ => false
    availLoop b.asks stop o.remaining keys 0
  | Side.sell =>
    let keys := ((b.bids.map Prod.fst).insertionSort (· ≤ ·)).reverse
    let stop : Int → Bool :=
      match o.order_type with
      | OrderType.limit => fun p => decide (p < o.price.getD 0)
      | OrderType.market => fun p => decide (p < 0)
    availLoop b.bids stop o.remaining keys 0

/-- `OrderBook._rest_limit`: append the order to its level's queue, push
the price on the side's heap iff the level was empty or missing, record
the location in the id index. -/
def rest_limit (b : Book) (o : Order) : Book :=
  let price := o.price.getD 0
  match o.side with
  | Side.buy =>
    let heap := if liveLevel b.bids price then b.bid_heap else hpush b.bid_heap (-price)
    let q := (alookup b.bids price).getD []
    { b with bids := aset b.bids price (q ++ [o]), bid_heap := heap,
             id_index := aset b.id_index o.id (Side.buy, price) }
  | Side.sell =>
    let heap := if liveLevel b.asks price then b.ask_heap else hpush b.ask_heap price
    let q := (alookup b.asks price).getD []
    { b with asks := aset b.asks price (q ++ [o]), ask_heap := heap,
             id_index := aset b.id_index o.id (Side.sell, price) }

/-- `OrderBook._execute_market`. -/
def execute_market (b : Book) (o : Order) : Order × Book × List Trade :=
  match o.side with
  | Side.buy => take_from_asks b o none o.tif
  | Side.sell => take_from_bids b o none o.tif

/-- `OrderBook._execute_limit_against_opposite`: FOK gate, then the
matching walk bounded by the order's own price. -/
def execute_limit_against_opposite (b : Book) (o : Order) :
    Order × Book × List Trade :=
  if o.tif = TimeInForce.fok ∧ executable_available b o < o.remaining then
    ({ o with remaining := 0 }, b, [])
  else
    match o.side with
    | Side.buy => take_from_asks b o (some (o.price.getD 0)) o.tif
    | Side.sell => take_from_bids b o (some (o.price.getD 0)) o.tif

/-- `OrderBook.add`: assign the next sequence number, dispatch on the
order type, rest a still-active GTC limit, zero a still-active FOK. -/
def add (b : Book) (o : Order) : Order × Book × List Trade :=
  let seq := b.seq + 1
  let o1 : Order := { o with ts := seq }
  let b1 : Book := { b with seq := seq }
  if o1.order_type = OrderType.market then
    execute_market b1 o1
  else
    let r := execute_limit_against_opposite b1 o1
    let o2 := r.1
    let b2 := r.2.1
    let trs := r.2.2
    if 0 < o2.remaining ∧ o2.tif ≠ TimeInForce.ioc ∧ o2.tif ≠ TimeInForce.fok then
      (o2, rest_limit b2 o2, trs)
    else if o2.tif = TimeInForce.fok ∧ 0 < o2.remaining then
      ({ o2 with remaining := 0 }, b2, trs)
    else
      (o2, b2, trs)

/-- Drain-and-rebuild loop of `OrderBook.cancel`: remove the first
occurrence of the id, remembering its `remaining`. -/
def cancelDrain (oid : Int) : List Order → Bool → Int → List Order → Int × List Order
  | [], _, canceled, acc => (canceled, acc)
  | o :: rest, found, canceled, acc =>
    if o.id = oid ∧ ¬ found then cancelDrain oid rest true o.remaining acc
    else cancelDrain oid rest found canceled (acc ++ [o])

/-- `OrderBook.cancel`. -/
def cancel (b : Book) (oid : Int) : Int × Book :=
  match alookup b.id_index oid with
  | none => (0, b)
  | some (side, price) =>
    let book := sideBook b side
    let dead : Int × Book := (0, { b with id_index := aerase b.id_index oid })
    match alookup book price with
    | none => dead
    | some q =>
      if q.isEmpty then dead
      else
        let r := cancelDrain oid q false 0 []
        let book' := if r.2.isEmpty then aerase book price else aset book price r.2
        match side with
        | Side.buy => (r.1, { b with bids := book', id_index := aerase b.id_index oid })
        | Side.sell => (r.1, { b with asks := book', id_index := aerase b.id_index oid })

/-- Drain-and-rebuild loop of `OrderBook._extract_order`. -/
def extractDrain (oid : Int) : List Order → Option Order → List Order →
    Option Order × List Order
  | [], target, acc => (target, acc)
  | o :: rest, target, acc =>
    if o.id = oid ∧ target = none then extractDrain oid rest (some o) acc
    else extractDrain oid rest target (acc ++ [o])

/-- `OrderBook._extract_order`. -/
def extract_order (b : Book) (oid : Int) : Option Order × Book :=
  match alookup b.id_index oid with
  | none => (none, b)
  | some (side, price) =>
    let book := sideBook b side
    let dead : Option Order × Book := (none, { b with id_index := aerase b.id_index oid })
    match alookup book price with
    | none => dead
    | some q =>
      if q.isEmpty then dead
      else
        let r := extractDrain oid q none []
        let book' := if r.2.isEmpty then aerase book price else aset book price r.2
        match side with
        | Side.buy => (r.1, { b with bids := book', id_index := aerase b.id_index oid })
        | Side.sell => (r.1, { b with asks := book', id_index := aerase b.id_index oid })

/-- Tail of `OrderBook.replace`: build the successor order (the
dataclass constructor; its validation cannot fire here because
`qty > 0` was already enforced) and `add` it. -/
def replaceFinish (b : Book) (oid : Int) (side : Side) (price : Option Int)
    (qty remaining : Int) (tif : TimeInForce) : (Bool × List Trade) × Book :=
  let newOrder : Order :=
    { id := oid, side := side, qty := qty, price := price,
      order_type := match price with
        | some _ => OrderType.limit
        | none => OrderType.market,
      tif := tif, ts := 0, remaining := remaining }
  let r := add b newOrder
  ((true, r.2.2), r.2.1)

/-- `OrderBook.replace`.  Note that the source extracts the resting
order before validating `new_qty`, so a rejected replace has already
removed the order. -/
def replace (b : Book) (oid : Int) (newPrice : Option Int) (newQty : Option Int)
    (newTif : Option TimeInForce) : (Bool × List Trade) × Book :=
  match alookup b.id_index oid with
  | none => ((false, []), b)
  | some (side, _) =>
    let er := extract_order b oid
    match er.1 with
    | none => ((false, []), er.2)
    | some removed =>
      let price := match newPrice with
        | none => removed.price
        | some p => some p
      let tif := match newTif with
        | none => removed.tif
        | some t => t
      match newQty with
      | none => replaceFinish er.2 oid side price removed.qty removed.remaining tif
      | some nq =>
        if nq ≤ 0 then ((false, []), er.2)
        else
          let alreadyFilled := removed.qty - removed.remaining
          let remaining := if nq < alreadyFilled then 0 else nq - alreadyFilled
          replaceFinish er.2 oid side price nq remaining tif

/-- `OrderBook.depth_at_price`. -/
def depth_at_price (b : Book) (side : Side) (price : Int) : Int :=
  levelRemSum ((alookup (sideBook b side) price).getD [])

/-- `OrderBook.total_depth`. -/
def total_depth (b : Book) (side : Side) : Int :=
  ((sideBook b side).map (fun pq => levelRemSum pq.2)).sum

/-- Per-level scan of `OrderBook.assert_invariants`: `last_ts = -1`,
then `assert o.ts >= last_ts` along the queue (a non-strict check). -/
def tsNonDecrFrom : Int → List Order → Bool
  | _, [] => true
  | last, o :: rest => decide (last ≤ (o.ts : Int)) && tsNonDecrFrom (o.ts : Int) rest

/-- `OrderBook.assert_invariants`, as the predicate "no assertion
raises": the crossed-book check on the lazily cleaned best prices, and
the non-strict FIFO scan of every level on both sides. -/
def assert_invariants (b : Book) : Bool :=
  (match best_bid b, best_ask b with
   | some bb, some ba => decide (bb < ba)
   | _, _ => true)
  && b.bids.all (fun pq => tsNonDecrFrom (-1) pq.2)
  && b.asks.all (fun pq => tsNonDecrFrom (-1) pq.2)

/-! ### Concrete fixtures used by the claim-level evaluations -/

/-- A fresh LIMIT order as the dataclass constructor builds it. -/
def mkLimit (i : Int) (s : Side) (q p : Int) (t : TimeInForce) : Order :=
  { id := i, side := s, qty := q, price := some p,
    order_type := OrderType.limit, tif := t, ts := 0, remaining := q }

/-- A fresh MARKET order as the dataclass constructor builds it. -/
def mkMarket (i : Int) (s : Side) (q : Int) (t : TimeInForce) : Order :=
  { id := i, side := s, qty := q, price := none,
    order_type := OrderType.market, tif := t, ts := 0, remaining := q }

/-- Book with asks 10@1000 (id 1), 10@1100 (id 2) and a bid 10@990 (id 3). -/
def c4book : Book :=
  (add (add (add emptyBook (mkLimit 1 Side.sell 10 1000 TimeInForce.gtc)).2.1
        (mkLimit 2 Side.sell 10 1100 TimeInForce.gtc)).2.1
    (mkLimit 3 Side.buy 10 990 TimeInForce.gtc)).2.1

/-- A deep buy that sweeps the 1000 level and part of the 1100 level. -/
def c4taker : Order := mkLimit 4 Side.buy 15 1100 TimeInForce.gtc

/-- Book where the resting buy id 1 (10@1000) is partially filled down
to remaining 6 and an ask 5@1100 rests: replacing id 1 to the crossing
price 1100 hands `add` a successor order with `remaining < qty` and
emits a trade. -/
def c4rbook : Book :=
  (add (add (add emptyBook (mkLimit 1 Side.buy 10 1000 TimeInForce.gtc)).2.1
        (mkLimit 2 Side.sell 4 1000 TimeInForce.gtc)).2.1
    (mkLimit 3 Side.sell 5 1100 TimeInForce.gtc)).2.1

/-- Book with one resting bid 50@995 (id 1). -/
def c7book : Book := (add emptyBook (mkLimit 1 Side.buy 50 995 TimeInForce.gtc)).2.1

/-- The order resting in `c7book` (the input stamped with `ts = 1`). -/
def c7order : Order :=
  { id := 1, side := Side.buy, qty := 50, price := some 995,
    order_type := OrderType.limit, tif := TimeInForce.gtc, ts := 1, remaining := 50 }

/-- First of two same-`ts` orders of the crafted state below. -/
def c9o1 : Order :=
  { id := 1, side := Side.buy, qty := 1, price := some 100,
    order_type := OrderType.limit, tif := TimeInForce.gtc, ts := 3, remaining := 1 }

/-- Second of two same-`ts` orders of the crafted state below. -/
def c9o2 : Order :=
  { id := 2, side := Side.buy, qty := 1, price := some 100,
    order_type := OrderType.limit, tif := TimeInForce.gtc, ts := 3, remaining := 1 }

/-- A crafted state with two equal-`ts` resting bids, an empty ask level
and an empty id index: it violates strict FIFO, level non-emptiness,
index consistency — everything except the two checks the code performs. -/
def c9book : Book :=
  { bids := [(100, [c9o1, c9o2])],
    asks := [(1000, [])], bid_heap := [-100], ask_heap := [1000],
    id_index := [], seq := 5, trades := [] }

/-! ### Association-list lemmas -/

theorem alookup_mem {β : Type} {m : List (Int × β)} {k : Int} {v : β}
    (h : alookup m k = some v) : (k, v) ∈ m := by
  induction m with
  | nil => simp [alookup] at h
  | cons e rest ih =>
    by_cases he : e.1 = k
    · rw [alookup, if_pos he] at h
      obtain ⟨a, bv⟩ := e
      have ha : a = k := he
      injection h with h2
      subst ha
      subst h2
      exact List.mem_cons_self _ _
    · rw [alookup, if_neg he] at h
      exact List.mem_cons_of_mem _ (ih h)

theorem alookup_eq_none_iff {β : Type} {m : List (Int × β)} {k : Int} :
    alookup m k = none ↔ k ∉ m.map Prod.fst := by
  induction m with
  | nil => simp [alookup]
  | cons e rest ih =>
    by_cases he : e.1 = k
    · simp [alookup, he]
    · simp [alookup, he, ih, Ne.symm he]

theorem alookup_isSome_iff {β : Type} {m : List (Int × β)} {k : Int} :
    (alookup m k).isSome ↔ k ∈ m.map Prod.fst := by
  rw [← Decidable.not_iff_not, Option.not_isSome_iff_eq_none, alookup_eq_none_iff]

theorem alookup_of_mem {β : Type} {m : List (Int × β)} {k : Int} {v : β}
    (hnd : (m.map Prod.fst).Nodup) (h : (k, v) ∈ m) : alookup m k = some v := by
  induction m with
  | nil => simp at h
  | cons e rest ih =>
    simp only [List.map_cons, List.nodup_cons] at hnd
    rcases List.mem_cons.1 h with h | h
    · subst h; simp [alookup]
    · have hk : e.1 ≠ k := by
        intro he
        exact hnd.1 (he ▸ (List.mem_map.2 ⟨(k, v), h, rfl⟩))
      rw [alookup, if_neg hk]
      exact ih hnd.2 h

theorem mem_aerase {β : Type} {m : List (Int × β)} {k : Int} {e : Int × β} :
    e ∈ aerase m k ↔ e ∈ m ∧ e.1 ≠ k := by
  simp [aerase, List.mem_filter]

theorem aerase_keys_sublist {β : Type} (m : List (Int × β)) (k : Int) :
    ((aerase m k).map Prod.fst).Sublist (m.map Prod.fst) :=
  List.Sublist.map _ (List.filter_sublist m)

theorem aerase_sublist {β : Type} (m : List (Int × β)) (k : Int) :
    (aerase m k).Sublist m :=
  List.filter_sublist m

theorem alookup_aerase_self {β : Type} (m : List (Int × β)) (k : Int) :
    alookup (aerase m k) k = none := by
  rw [alookup_eq_none_iff]
  intro hmem
  rcases List.mem_map.1 hmem with ⟨e, he, hk⟩
  exact (mem_aerase.1 he).2 hk

theorem alookup_aerase_ne {β : Type} (m : List (Int × β)) (k k' : Int)
    (h : k' ≠ k) : alookup (aerase m k) k' = alookup m k' := by
  induction m with
  | nil => simp [aerase, alookup]
  | cons e rest ih =>
    by_cases he : e.1 = k
    · have : ¬ (e.1 ≠ k) := by simpa using he
      simp only [aerase, List.filter_cons, decide_eq_true_eq]
      rw [if_neg this]
      have hek : e.1 ≠ k' := fun hh => h (hh ▸ he ▸ rfl)
      rw [alookup, if_neg hek] at *
      exact ih
    · simp only [aerase, List.filter_cons, decide_eq_true_eq]
      rw [if_pos he]
      by_cases hk' : e.1 = k'
      · rw [alookup, if_pos hk', alookup, if_pos hk']
      · rw [alookup, if_neg hk', alookup, if_neg hk']
        exact ih

theorem mem_aset {β : Type} {m : List (Int × β)} {k : Int} {v : β} {e : Int × β}
    (h : e ∈ aset m k v) : e = (k, v) ∨ e ∈ m := by
  induction m with
  | nil => simpa [aset] using h
  | cons f rest ih =>
    by_cases hf : f.1 = k
    · rw [aset, if_pos hf] at h
      rcases List.mem_cons.1 h with h | h
      · exact Or.inl h
      · exact Or.inr (List.mem_cons_of_mem _ h)
    · rw [aset, if_neg hf] at h
      rcases List.mem_cons.1 h with h | h
      · exact Or.inr (h ▸ List.mem_cons_self _ _)
      · rcases ih h with h | h
        · exact Or.inl h
        · exact Or.inr (List.mem_cons_of_mem _ h)

theorem mem_aset_of_ne {β : Type} {m : List (Int × β)} {k : Int} {v : β} {e : Int × β}
    (hk : e.1 ≠ k) : e ∈ aset m k v ↔ e ∈ m := by
  induction m with
  | nil =>
    simp only [aset, List.mem_singleton, List.not_mem_nil, iff_false]
    intro he
    exact hk (by rw [he])
  | cons f rest ih =>
    by_cases hf : f.1 = k
    · rw [aset, if_pos hf]
      constructor
      · intro h
        rcases List.mem_cons.1 h with h | h
        · exact absurd (by rw [h]) hk
        · exact List.mem_cons_of_mem _ h
      · intro h
        rcases List.mem_cons.1 h with h | h
        · exact absurd (by rw [h, hf]) hk
        · exact List.mem_cons_of_mem _ h
    · rw [aset, if_neg hf]
      simp [ih]

theorem alookup_aset_self {β : Type} (m : List (Int × β)) (k : Int) (v : β) :
    alookup (aset m k v) k = some v := by
  induction m with
  | nil => simp [aset, alookup]
  | cons e rest ih =>
    by_cases he : e.1 = k
    · rw [aset, if_pos he, alookup, if_pos rfl]
    · rw [aset, if_neg he, alookup, if_neg he]
      exact ih

theorem alookup_aset_ne {β : Type} (m : List (Int × β)) (k k' : Int) (v : β)
    (h : k' ≠ k) : alookup (aset m k v) k' = alookup m k' := by
  induction m with
  | nil => simp [aset, alookup, Ne.symm h]
  | cons e rest ih =>
    by_cases he : e.1 = k
    · rw [aset, if_pos he]
      have hek : ¬ ((k, v).1 = k') := fun hh => h (by simpa using hh.symm)
      rw [alookup, if_neg hek, alookup, if_neg (he ▸ hek)]
    · rw [aset, if_neg he]
      by_cases hk' : e.1 = k'
      · rw [alookup, if_pos hk', alookup, if_pos hk']
      · rw [alookup, if_neg hk', alookup, if_neg hk']
        exact ih

theorem aset_keys_of_mem {β : Type} {m : List (Int × β)} {k : Int} (v : β)
    (h : k ∈ m.map Prod.fst) : (aset m k v).map Prod.fst = m.map Prod.fst := by
  induction m with
  | nil => simp at h
  | cons e rest ih =>
    by_cases he : e.1 = k
    · rw [aset, if_pos he]
      simp [he]
    · rw [aset, if_neg he]
      have hk : k ∈ rest.map Prod.fst := by
        rw [List.map_cons] at h
        rcases List.mem_cons.1 h with h1 | h1
        · exact absurd h1.symm he
        · exact h1
      simp only [List.map_cons, List.cons.injEq, true_and]
      exact ih hk

theorem aset_keys_of_not_mem {β : Type} {m : List (Int × β)} {k : Int} (v : β)
    (h : k ∉ m.map Prod.fst) : (aset m k v).map Prod.fst = m.map Prod.fst ++ [k] := by
  induction m with
  | nil => simp [aset]
  | cons e rest ih =>
    simp only [List.map_cons, List.mem_cons, not_or] at h
    rw [aset, if_neg (fun hh => h.1 hh.symm)]
    simp only [List.map_cons, List.cons_append, List.cons.injEq, true_and]
    exact ih h.2

theorem aset_keys_nodup {β : Type} {m : List (Int × β)} {k : Int} (v : β)
    (h : (m.map Prod.fst).Nodup) : ((aset m k v).map Prod.fst).Nodup := by
  by_cases hk : k ∈ m.map Prod.fst
  · rw [aset_keys_of_mem v hk]; exact h
  · rw [aset_keys_of_not_mem v hk, List.nodup_append]
    exact ⟨h, List.nodup_singleton k,
      fun a ha hb => hk ((List.mem_singleton.1 hb) ▸ ha)⟩

theorem aerase_keys_nodup {β : Type} {m : List (Int × β)} {k : Int}
    (h : (m.map Prod.fst).Nodup) : ((aerase m k).map Prod.fst).Nodup :=
  (aerase_keys_sublist m k).nodup h

/-! ### Heap-model lemmas -/

theorem mem_hpush {h : List Int} {x y : Int} :
    y ∈ hpush h x ↔ y = x ∨ y ∈ h := by
  induction h with
  | nil => simp [hpush]
  | cons z t ih =>
    by_cases hz : x ≤ z
    · simp [hpush, hz]
    · simp only [hpush, if_neg hz, List.mem_cons, ih]
      tauto

theorem sorted_hpush {h : List Int} {x : Int} (hs : List.Sorted (· ≤ ·) h) :
    List.Sorted (· ≤ ·) (hpush h x) := by
  induction h with
  | nil => simp [hpush]
  | cons z t ih =>
    rw [List.sorted_cons] at hs
    by_cases hz : x ≤ z
    · rw [hpush, if_pos hz, List.sorted_cons]
      refine ⟨fun b hb => ?_, List.sorted_cons.2 hs⟩
      rcases List.mem_cons.1 hb with hb | hb
      · exact hb ▸ hz
      · exact le_trans hz (hs.1 b hb)
    · rw [hpush, if_neg hz, List.sorted_cons]
      refine ⟨fun b hb => ?_, ih hs.2⟩
      rcases mem_hpush.1 hb with hb | hb
      · exact hb ▸ le_of_not_le hz
      · exact hs.1 b hb

theorem cleanAskHeap_suffix (asks : List (Int × List Order)) (h : List Int) :
    (cleanAskHeap asks h).IsSuffix h := by
  induction h with
  | nil => simp [cleanAskHeap]
  | cons p rest ih =>
    by_cases hp : liveLevel asks p
    · rw [cleanAskHeap, if_pos hp]
    · rw [cleanAskHeap, if_neg hp]
      exact ih.trans (List.suffix_cons p rest)

theorem cleanAskHeap_head_live {asks : List (Int × List Order)} {h : List Int} {p : Int}
    (hh : (cleanAskHeap asks h).head? = some p) : liveLevel asks p = true := by
  induction h with
  | nil => simp [cleanAskHeap] at hh
  | cons q rest ih =>
    by_cases hq : liveLevel asks q
    · rw [cleanAskHeap, if_pos hq] at hh
      simp only [List.head?_cons, Option.some.injEq] at hh
      exact hh ▸ hq
    · rw [cleanAskHeap, if_neg hq] at hh
      exact ih hh

theorem mem_cleanAskHeap_of_live {asks : List (Int × List Order)} {h : List Int} {p : Int}
    (hp : p ∈ h) (hl : liveLevel asks p = true) : p ∈ cleanAskHeap asks h := by
  induction h with
  | nil => simp at hp
  | cons q rest ih =>
    by_cases hq : liveLevel asks q
    · rw [cleanAskHeap, if_pos hq]; exact hp
    · rw [cleanAskHeap, if_neg hq]
      rcases List.mem_cons.1 hp with hp | hp
      · exact absurd (hp ▸ hl) (by simpa using hq)
      · exact ih hp

theorem cleanAskHeap_nil_no_live {asks : List (Int × List Order)} {h : List Int}
    (hn : cleanAskHeap asks h = []) : ∀ p ∈ h, liveLevel asks p = false := by
  intro p hp
  by_contra hc
  have hl : liveLevel asks p = true := by
    cases hll : liveLevel asks p
    · exact absurd hll hc
    · rfl
  have := mem_cleanAskHeap_of_live hp hl
  rw [hn] at this
  simp at this

theorem cleanBidHeap_suffix (bids : List (Int × List Order)) (h : List Int) :
    (cleanBidHeap bids h).IsSuffix h := by
  induction h with
  | nil => simp [cleanBidHeap]
  | cons p rest ih =>
    by_cases hp : liveLevel bids (-p)
    · rw [cleanBidHeap, if_pos hp]
    · rw [cleanBidHeap, if_neg hp]
      exact ih.trans (List.suffix_cons p rest)

theorem cleanBidHeap_head_live {bids : List (Int × List Order)} {h : List Int} {np : Int}
    (hh : (cleanBidHeap bids h).head? = some np) : liveLevel bids (-np) = true := by
  induction h with
  | nil => simp [cleanBidHeap] at hh
  | cons q rest ih =>
    by_cases hq : liveLevel bids (-q)
    · rw [cleanBidHeap, if_pos hq] at hh
      simp only [List.head?_cons, Option.some.injEq] at hh
      exact hh ▸ hq
    · rw [cleanBidHeap, if_neg hq] at hh
      exact ih hh

theorem mem_cleanBidHeap_of_live {bids : List (Int × List Order)} {h : List Int} {np : Int}
    (hp : np ∈ h) (hl : liveLevel bids (-np) = true) : np ∈ cleanBidHeap bids h := by
  induction h with
  | nil => simp at hp
  | cons q rest ih =>
    by_cases hq : liveLevel bids (-q)
    · rw [cleanBidHeap, if_pos hq]; exact hp
    · rw [cleanBidHeap, if_neg hq]
      rcases List.mem_cons.1 hp with hp | hp
      · exact absurd (hp ▸ hl) (by simpa using hq)
      · exact ih hp

theorem cleanBidHeap_nil_no_live {bids : List (Int × List Order)} {h : List Int}
    (hn : cleanBidHeap bids h = []) : ∀ np ∈ h, liveLevel bids (-np) = false := by
  intro np hp
  by_contra hc
  have hl : liveLevel bids (-np) = true := by
    cases hll : liveLevel bids (-np)
    · exact absurd hll hc
    · rfl
  have := mem_cleanBidHeap_of_live hp hl
  rw [hn] at this
  simp at this

/-! ### Resting orders, assigned sequence numbers, book invariant -/

/-- All orders resting in a side book, in key-then-queue order. -/
def levelsOrders (m : List (Int × List Order)) : List Order :=
  m.foldr (fun pq acc => pq.2 ++ acc) []

theorem levelsOrders_cons (e : Int × List Order) (rest : List (Int × List Order)) :
    levelsOrders (e :: rest) = e.2 ++ levelsOrders rest := rfl

theorem mem_levelsOrders {m : List (Int × List Order)} {o : Order} :
    o ∈ levelsOrders m ↔ ∃ pq ∈ m, o ∈ pq.2 := by
  induction m with
  | nil => simp [levelsOrders]
  | cons e rest ih =>
    rw [levelsOrders_cons, List.mem_append, ih]
    constructor
    · rintro (h | ⟨pq, hm, ho⟩)
      · exact ⟨e, List.mem_cons_self _ _, h⟩
      · exact ⟨pq, List.mem_cons_of_mem _ hm, ho⟩
    · rintro ⟨pq, hm, ho⟩
      rcases List.mem_cons.1 hm with rfl | hm
      · exact Or.inl ho
      · exact Or.inr ⟨pq, hm, ho⟩

/-- All orders resting anywhere in the book. -/
def restingOrders (b : Book) : List Order :=
  levelsOrders b.bids ++ levelsOrders b.asks

/-- Ids of all resting orders. -/
def restingIds (b : Book) : List Int :=
  (restingOrders b).map Order.id

/-- Every sequence number currently recorded in the book: the `ts` of
each resting order followed by the `ts` of each logged trade. -/
def assignedTs (b : Book) : List Nat :=
  (restingOrders b).map Order.ts ++ b.trades.map Trade.ts

/-- Strict FIFO within a level: `ts` strictly increases front to back. -/
def strictFifoLevel (q : List Order) : Prop :=
  List.Chain' (fun x y => x.ts < y.ts) q

instance (q : List Order) : Decidable (strictFifoLevel q) :=
  inferInstanceAs (Decidable (List.Chain' (fun x y : Order => x.ts < y.ts) q))

/-- The composite invariant maintained by every reachable book state. -/
structure Inv (b : Book) : Prop where
  bidsKeysNodup : (b.bids.map Prod.fst).Nodup
  asksKeysNodup : (b.asks.map Prod.fst).Nodup
  bidsNonEmpty : ∀ pq ∈ b.bids, pq.2 ≠ []
  asksNonEmpty : ∀ pq ∈ b.asks, pq.2 ≠ []
  bidsOrders : ∀ pq ∈ b.bids, ∀ o ∈ pq.2, o.side = Side.buy ∧ o.price = some pq.1 ∧
    o.order_type = OrderType.limit ∧ 0 < o.remaining ∧ o.remaining ≤ o.qty ∧ 0 < o.qty
  asksOrders : ∀ pq ∈ b.asks, ∀ o ∈ pq.2, o.side = Side.sell ∧ o.price = some pq.1 ∧
    o.order_type = OrderType.limit ∧ 0 < o.remaining ∧ o.remaining ≤ o.qty ∧ 0 < o.qty
  bidsFifo : ∀ pq ∈ b.bids, strictFifoLevel pq.2
  asksFifo : ∀ pq ∈ b.asks, strictFifoLevel pq.2
  noncross : ∀ pq ∈ b.bids, ∀ pq' ∈ b.asks, pq.1 < pq'.1
  bidHeapSorted : List.Sorted (· ≤ ·) b.bid_heap
  askHeapSorted : List.Sorted (· ≤ ·) b.ask_heap
  bidHeapCover : ∀ pq ∈ b.bids, -pq.1 ∈ b.bid_heap
  askHeapCover : ∀ pq ∈ b.asks, pq.1 ∈ b.ask_heap
  idxKeysNodup : (b.id_index.map Prod.fst).Nodup
  idxSound : ∀ e ∈ b.id_index, ∃ q, alookup (sideBook b e.2.1) e.2.2 = some q ∧
    e.1 ∈ q.map Order.id
  idxCompleteBids : ∀ pq ∈ b.bids, ∀ o ∈ pq.2, (o.id, (Side.buy, pq.1)) ∈ b.id_index
  idxCompleteAsks : ∀ pq ∈ b.asks, ∀ o ∈ pq.2, (o.id, (Side.sell, pq.1)) ∈ b.id_index
  idsNodup : (restingIds b).Nodup
  tsNodup : (assignedTs b).Nodup
  tsBound : ∀ t ∈ assignedTs b, t ≤ b.seq
  tradesChrono : List.Chain' (· < ·) (b.trades.map Trade.ts)

theorem inv_emptyBook : Inv emptyBook := by
  constructor <;> simp [emptyBook, restingIds, restingOrders, assignedTs, levelsOrders]

/-! ### Best-price characterisation under the invariant -/

theorem liveLevel_iff {m : List (Int × List Order)} {p : Int} :
    liveLevel m p = true ↔ ∃ q, alookup m p = some q ∧ q ≠ [] := by
  unfold liveLevel
  cases h : alookup m p with
  | none => simp
  | some q => simp [List.isEmpty_iff]

theorem liveLevel_of_mem {b : Book} (hinv : Inv b) {pq : Int × List Order} :
    (pq ∈ b.asks → liveLevel b.asks pq.1 = true) ∧
    (pq ∈ b.bids → liveLevel b.bids pq.1 = true) := by
  constructor
  · intro hm
    exact liveLevel_iff.2 ⟨pq.2, alookup_of_mem hinv.asksKeysNodup (by cases pq; exact hm),
      hinv.asksNonEmpty pq hm⟩
  · intro hm
    exact liveLevel_iff.2 ⟨pq.2, alookup_of_mem hinv.bidsKeysNodup (by cases pq; exact hm),
      hinv.bidsNonEmpty pq hm⟩

theorem best_ask_key {b : Book} {p : Int} (h : best_ask b = some p) :
    ∃ q, (p, q) ∈ b.asks ∧ q ≠ [] := by
  have hl := cleanAskHeap_head_live h
  rcases liveLevel_iff.1 hl with ⟨q, hq, hne⟩
  exact ⟨q, alookup_mem hq, hne⟩

theorem best_bid_key {b : Book} {p : Int} (h : best_bid b = some p) :
    ∃ q, (p, q) ∈ b.bids ∧ q ≠ [] := by
  unfold best_bid at h
  cases hh : (cleanBidHeap b.bids b.bid_heap).head? with
  | none => rw [hh] at h; simp at h
  | some np =>
    rw [hh] at h
    simp only [Option.map_some', Option.some.injEq] at h
    have hl := cleanBidHeap_head_live hh
    rcases liveLevel_iff.1 hl with ⟨q, hq, hne⟩
    exact ⟨q, h ▸ alookup_mem hq, hne⟩

theorem best_ask_min {b : Book} (hinv : Inv b) {p : Int} (h : best_ask b = some p) :
    ∀ pq ∈ b.asks, p ≤ pq.1 := by
  intro pq hm
  have hclean : List.Sorted (· ≤ ·) (cleanAskHeap b.asks b.ask_heap) :=
    hinv.askHeapSorted.sublist (cleanAskHeap_suffix b.asks b.ask_heap).sublist
  have hmem : pq.1 ∈ cleanAskHeap b.asks b.ask_heap :=
    mem_cleanAskHeap_of_live (hinv.askHeapCover pq hm) ((liveLevel_of_mem hinv).1 hm)
  unfold best_ask at h
  cases hc : cleanAskHeap b.asks b.ask_heap with
  | nil => rw [hc] at h; simp at h
  | cons a t =>
    rw [hc] at h hmem hclean
    simp only [List.head?_cons, Option.some.injEq] at h
    subst h
    rcases List.mem_cons.1 hmem with hh | hh
    · exact le_of_eq hh.symm
    · exact (List.sorted_cons.1 hclean).1 _ hh

theorem best_bid_max {b : Book} (hinv : Inv b) {p : Int} (h : best_bid b = some p) :
    ∀ pq ∈ b.bids, pq.1 ≤ p := by
  intro pq hm
  have hclean : List.Sorted (· ≤ ·) (cleanBidHeap b.bids b.bid_heap) :=
    hinv.bidHeapSorted.sublist (cleanBidHeap_suffix b.bids b.bid_heap).sublist
  have hmem : -pq.1 ∈ cleanBidHeap b.bids b.bid_heap :=
    mem_cleanBidHeap_of_live (hinv.bidHeapCover pq hm)
      (by rw [neg_neg]; exact (liveLevel_of_mem hinv).2 hm)
  unfold best_bid at h
  cases hc : cleanBidHeap b.bids b.bid_heap with
  | nil => rw [hc] at h; simp at h
  | cons a t =>
    rw [hc] at h hmem hclean
    simp only [List.head?_cons, Option.map_some', Option.some.injEq] at h
    rcases List.mem_cons.1 hmem with hh | hh
    · rw [← h, ← hh, neg_neg]
    · have : a ≤ -pq.1 := (List.sorted_cons.1 hclean).1 _ hh
      omega

theorem best_ask_none_iff {b : Book} (hinv : Inv b) :
    best_ask b = none ↔ b.asks = [] := by
  constructor
  · intro h
    cases hc : b.asks with
    | nil => rfl
    | cons e rest =>
      exfalso
      unfold best_ask at h
      rw [List.head?_eq_none_iff] at h
      have hlive : liveLevel b.asks e.1 = true := (liveLevel_of_mem hinv).1 (hc ▸ List.mem_cons_self _ _)
      have hcov : e.1 ∈ b.ask_heap := hinv.askHeapCover e (hc ▸ List.mem_cons_self _ _)
      have := cleanAskHeap_nil_no_live h e.1 hcov
      rw [hlive] at this
      cases this
  · intro h
    unfold best_ask
    rw [List.head?_eq_none_iff]
    cases hh : b.ask_heap with
    | nil => rw [h]; rfl
    | cons a t =>
      rw [h]
      have : ∀ (l : List Int), cleanAskHeap [] l = [] := by
        intro l
        induction l with
        | nil => rfl
        | cons x xs ih => rw [cleanAskHeap, if_neg (by simp [liveLevel, alookup])]; exact ih
      exact this _

theorem best_bid_none_iff {b : Book} (hinv : Inv b) :
    best_bid b = none ↔ b.bids = [] := by
  constructor
  · intro h
    cases hc : b.bids with
    | nil => rfl
    | cons e rest =>
      exfalso
      unfold best_bid at h
      rw [Option.map_eq_none', List.head?_eq_none_iff] at h
      have hlive : liveLevel b.bids e.1 = true := (liveLevel_of_mem hinv).2 (hc ▸ List.mem_cons_self _ _)
      have hcov : -e.1 ∈ b.bid_heap := hinv.bidHeapCover e (hc ▸ List.mem_cons_self _ _)
      have := cleanBidHeap_nil_no_live h (-e.1) hcov
      rw [neg_neg, hlive] at this
      cases this
  · intro h
    unfold best_bid
    rw [Option.map_eq_none', List.head?_eq_none_iff]
    cases hh : b.bid_heap with
    | nil => rw [h]; rfl
    | cons a t =>
      rw [h]
      have : ∀ (l : List Int), cleanBidHeap [] l = [] := by
        intro l
        induction l with
        | nil => rfl
        | cons x xs ih => rw [cleanBidHeap, if_neg (by simp [liveLevel, alookup])]; exact ih
      exact this _

/-! ### Specification of the inner per-level fill loop -/

/-- Total quantity of a list of trades. -/
def sumQty (trs : List Trade) : Int :=
  (trs.map Trade.qty).sum

theorem sumQty_nil : sumQty [] = 0 := rfl

theorem sumQty_cons (t : Trade) (trs : List Trade) :
    sumQty (t :: trs) = t.qty + sumQty trs := by
  simp [sumQty]

theorem sumQty_append (a c : List Trade) :
    sumQty (a ++ c) = sumQty a + sumQty c := by
  simp [sumQty]

theorem foldl_aerase_lookup {β : Type} (ids : List Int) (m : List (Int × β)) (i : Int) :
    alookup (List.foldl aerase m ids) i = if i ∈ ids then none else alookup m i := by
  induction ids generalizing m with
  | nil => simp
  | cons j t ih =>
    rw [List.foldl_cons, ih]
    by_cases hij : i = j
    · subst hij
      by_cases hit : i ∈ t <;> simp [hit, alookup_aerase_self]
    · by_cases hit : i ∈ t <;> simp [hit, hij, alookup_aerase_ne m j i hij]

theorem foldl_aerase_mem {β : Type} {ids : List Int} {m : List (Int × β)} {e : Int × β} :
    e ∈ List.foldl aerase m ids ↔ e ∈ m ∧ e.1 ∉ ids := by
  induction ids generalizing m with
  | nil => simp
  | cons j t ih =>
    rw [List.foldl_cons, ih, mem_aerase]
    constructor
    · rintro ⟨⟨h1, h2⟩, h3⟩
      exact ⟨h1, by simp [h2, h3]⟩
    · rintro ⟨h1, h2⟩
      simp only [List.mem_cons, not_or] at h2
      exact ⟨⟨h1, h2.1⟩, h2.2⟩

theorem foldl_aerase_sublist {β : Type} (ids : List Int) (m : List (Int × β)) :
    (List.foldl aerase m ids).Sublist m := by
  induction ids generalizing m with
  | nil => simp
  | cons j t ih => exact (ih (aerase m j)).trans (aerase_sublist m j)

theorem takeLevel_nil (takerId best : Int) (rem : Int) (seq : Nat)
    (index : List (Int × (Side × Int))) :
    takeLevel takerId best rem seq [] index = ⟨rem, seq, [], index, []⟩ := rfl

theorem takeLevel_done {rem : Int} (takerId best : Int) (seq : Nat)
    (maker : Order) (rest : List Order) (index : List (Int × (Side × Int)))
    (h : rem ≤ 0) :
    takeLevel takerId best rem seq (maker :: rest) index
      = ⟨rem, seq, maker :: rest, index, []⟩ := by
  rw [takeLevel, if_pos h]

theorem takeLevel_break {rem : Int} {maker : Order} (takerId best : Int) (seq : Nat)
    (rest : List Order) (index : List (Int × (Side × Int)))
    (h1 : ¬ rem ≤ 0) (h2 : min rem maker.remaining ≤ 0) :
    takeLevel takerId best rem seq (maker :: rest) index
      = ⟨rem, seq, maker :: rest, index, []⟩ := by
  rw [takeLevel]
  simp only [if_neg h1, if_pos h2]

theorem takeLevel_full {rem : Int} {maker : Order} (takerId best : Int) (seq : Nat)
    (rest : List Order) (index : List (Int × (Side × Int)))
    (h1 : ¬ rem ≤ 0) (h2 : ¬ min rem maker.remaining ≤ 0)
    (h3 : maker.remaining - min rem maker.remaining = 0) :
    takeLevel takerId best rem seq (maker :: rest) index
      = (let r := takeLevel takerId best (rem - min rem maker.remaining) (seq + 1) rest
           (aerase index maker.id)
         ⟨r.rem, r.seq, r.level, r.index,
           (⟨maker.id, takerId, best, min rem maker.remaining, seq + 1⟩ : Trade) :: r.trs⟩) := by
  rw [takeLevel]
  simp only [if_neg h1, if_neg h2, if_pos h3]

theorem takeLevel_part {rem : Int} {maker : Order} (takerId best : Int) (seq : Nat)
    (rest : List Order) (index : List (Int × (Side × Int)))
    (h1 : ¬ rem ≤ 0) (h2 : ¬ min rem maker.remaining ≤ 0)
    (h3 : ¬ maker.remaining - min rem maker.remaining = 0) :
    takeLevel takerId best rem seq (maker :: rest) index
      = ⟨rem - min rem maker.remaining, seq + 1,
          { maker with remaining := maker.remaining - min rem maker.remaining } :: rest,
          index, [⟨maker.id, takerId, best, min rem maker.remaining, seq + 1⟩]⟩ := by
  rw [takeLevel]
  simp only [if_neg h1, if_neg h2, if_neg h3]

/-- Everything the outer walk needs to know about one inner-loop run,
relative to the number `k` of makers fully consumed and popped. -/
structure TLSpec (takerId best : Int) (rem : Int) (seq : Nat) (level : List Order)
    (index : List (Int × (Side × Int))) (r : LevelTake) (k : Nat) : Prop where
  kLe : k ≤ level.length
  tsDrop : r.level.map Order.ts = (level.map Order.ts).drop k
  idDrop : r.level.map Order.id = (level.map Order.id).drop k
  idx : r.index = List.foldl aerase index ((level.map Order.id).take k)
  remEq : r.rem = rem - sumQty r.trs
  seqEq : r.seq = seq + r.trs.length
  tsRange : r.trs.map Trade.ts = List.range' (seq + 1) r.trs.length
  conserve : levelRemSum r.level = levelRemSum level - sumQty r.trs
  remNonneg : 0 ≤ rem → 0 ≤ r.rem
  remLe : r.rem ≤ rem
  survivors : ∀ o' ∈ r.level, ∃ o ∈ level,
    o' = { o with remaining := o'.remaining } ∧ o'.remaining ≤ o.remaining
  tradeFacts : ∀ t ∈ r.trs, t.price = best ∧ t.taker_id = takerId ∧ 0 < t.qty ∧
    ∃ o ∈ level, o.id = t.maker_id ∧ t.qty ≤ o.remaining

theorem TLSpec_id (takerId best : Int) (rem : Int) (seq : Nat) (level : List Order)
    (index : List (Int × (Side × Int))) :
    TLSpec takerId best rem seq level index ⟨rem, seq, level, index, []⟩ 0 := by
  constructor
  · simp
  · simp
  · simp
  · simp
  · simp [sumQty]
  · simp
  · rfl
  · simp [sumQty]
  · exact fun h => h
  · exact le_refl _
  · exact fun o' ho' => ⟨o', ho', rfl, le_refl _⟩
  · simp

theorem takeLevel_spec {takerId best : Int} {rem : Int} {seq : Nat}
    {level : List Order} {index : List (Int × (Side × Int))} {r : LevelTake}
    (hr : takeLevel takerId best rem seq level index = r) :
    ∃ k, TLSpec takerId best rem seq level index r k := by
  induction level generalizing rem seq index r with
  | nil =>
    rw [takeLevel_nil] at hr
    subst hr
    exact ⟨0, TLSpec_id _ _ _ _ _ _⟩
  | cons maker rest ih =>
    by_cases h1 : rem ≤ 0
    · rw [takeLevel_done _ _ _ _ _ _ h1] at hr
      subst hr
      exact ⟨0, TLSpec_id _ _ _ _ _ _⟩
    · by_cases h2 : min rem maker.remaining ≤ 0
      · rw [takeLevel_break _ _ _ _ _ h1 h2] at hr
        subst hr
        exact ⟨0, TLSpec_id _ _ _ _ _ _⟩
      · by_cases h3 : maker.remaining - min rem maker.remaining = 0
        · rw [takeLevel_full _ _ _ _ _ h1 h2 h3] at hr
          simp only at hr
          obtain ⟨k', s'⟩ := ih rfl
          subst hr
          refine ⟨k' + 1, ?_⟩
          constructor
          · simpa using Nat.succ_le_succ s'.kLe
          · simpa using s'.tsDrop
          · simpa using s'.idDrop
          · simpa using s'.idx
          · simp only [sumQty_cons]
            have := s'.remEq
            omega
          · simp only [List.length_cons]
            have := s'.seqEq
            omega
          · simp only [List.map_cons, List.length_cons]
            rw [s'.tsRange]
            rfl
          · simp only [sumQty_cons]
            have hc := s'.conserve
            have hm : min rem maker.remaining = maker.remaining := by omega
            simp only [levelRemSum, List.map_cons, List.sum_cons] at *
            omega
          · intro h0
            exact s'.remNonneg (by omega)
          · exact le_trans s'.remLe (by omega)
          · intro o' ho'
            obtain ⟨o, hmem, hf⟩ := s'.survivors o' ho'
            exact ⟨o, List.mem_cons_of_mem _ hmem, hf⟩
          · intro t ht
            rcases List.mem_cons.1 ht with rfl | ht
            · exact ⟨rfl, rfl, by dsimp only; omega, maker, List.mem_cons_self _ _, rfl,
                by dsimp only; omega⟩
            · obtain ⟨hp, htk, hq, o, hmem, hid, hle⟩ := s'.tradeFacts t ht
              exact ⟨hp, htk, hq, o, List.mem_cons_of_mem _ hmem, hid, hle⟩
        · rw [takeLevel_part _ _ _ _ _ h1 h2 h3] at hr
          subst hr
          refine ⟨0, ?_⟩
          constructor
          · simp
          · simp
          · simp
          · simp
          · simp [sumQty]
          · simp
          · rfl
          · simp only [sumQty_cons, sumQty_nil, levelRemSum, List.map_cons, List.sum_cons]
            omega
          · intro h0
            show (0:Int) ≤ rem - min rem maker.remaining
            omega
          · show rem - min rem maker.remaining ≤ rem
            omega
          · intro o' ho'
            rcases List.mem_cons.1 ho' with rfl | ho'
            · exact ⟨maker, List.mem_cons_self _ _, rfl, by dsimp only; omega⟩
            · exact ⟨o', List.mem_cons_of_mem _ ho', rfl, le_refl _⟩
          · intro t ht
            rcases List.mem_cons.1 ht with rfl | ht
            · exact ⟨rfl, rfl, by dsimp only; omega, maker, List.mem_cons_self _ _, rfl,
                by dsimp only; omega⟩
            · simp at ht

theorem takeLevel_pos {takerId best : Int} {rem : Int} {seq : Nat}
    {level : List Order} {index : List (Int × (Side × Int))} {r : LevelTake}
    (hpos : ∀ o ∈ level, 0 < o.remaining)
    (hr : takeLevel takerId best rem seq level index = r) :
    (∀ o' ∈ r.level, 0 < o'.remaining) ∧ (r.rem ≤ 0 ∨ r.level = []) := by
  induction level generalizing rem seq index r with
  | nil =>
    rw [takeLevel_nil] at hr
    subst hr
    exact ⟨by simp, Or.inr rfl⟩
  | cons maker rest ih =>
    have hmaker : 0 < maker.remaining := hpos maker (List.mem_cons_self _ _)
    by_cases h1 : rem ≤ 0
    · rw [takeLevel_done _ _ _ _ _ _ h1] at hr
      subst hr
      exact ⟨hpos, Or.inl h1⟩
    · by_cases h2 : min rem maker.remaining ≤ 0
      · exact absurd h2 (by omega)
      · by_cases h3 : maker.remaining - min rem maker.remaining = 0
        · rw [takeLevel_full _ _ _ _ _ h1 h2 h3] at hr
          simp only at hr
          have hres := ih (fun o ho => hpos o (List.mem_cons_of_mem _ ho))
            (rfl : takeLevel takerId best (rem - min rem maker.remaining) (seq + 1) rest
              (aerase index maker.id) = _)
          subst hr
          exact hres
        · rw [takeLevel_part _ _ _ _ _ h1 h2 h3] at hr
          subst hr
          refine ⟨?_, Or.inl (show rem - min rem maker.remaining ≤ 0 by omega)⟩
          intro o' ho'
          rcases List.mem_cons.1 ho' with rfl | ho'
          · simpa using by omega
          · exact hpos o' (List.mem_cons_of_mem _ ho')

/-! ### Helper lemmas for the outer matching walk -/

theorem range'_chain (s n : Nat) : List.Chain' (· < ·) (List.range' s n) := by
  induction n generalizing s with
  | zero => simp
  | succ n ih =>
    rw [List.range'_succ]
    cases n with
    | zero => simp
    | succ n =>
      rw [List.range'_succ]
      exact List.Chain'.cons (by omega) (List.range'_succ (s + 1) n 1 ▸ ih (s + 1))

theorem range'_consec (s m n : Nat) :
    List.range' s m ++ List.range' (s + m) n = List.range' s (m + n) := by
  induction m generalizing s with
  | zero => simp
  | succ m ih =>
    rw [List.range'_succ]
    have h1 : m + 1 + n = (m + n) + 1 := by omega
    rw [h1, List.range'_succ, List.cons_append]
    congr 1
    have hs : s + (m + 1) = (s + 1) + m := by omega
    rw [hs]
    exact ih (s + 1)

theorem block_map_sublist {γ : Type} {m : List (Int × List Order)} {pq : Int × List Order}
    (f : Order → γ) (hm : pq ∈ m) :
    (pq.2.map f).Sublist ((levelsOrders m).map f) := by
  induction m with
  | nil => simp at hm
  | cons e rest ih =>
    rw [levelsOrders_cons, List.map_append]
    rcases List.mem_cons.1 hm with rfl | hm
    · exact List.sublist_append_left _ _
    · exact (ih hm).trans (List.sublist_append_right _ _)

theorem levelsOrders_aerase_sublist (m : List (Int × List Order)) (p : Int) :
    (levelsOrders (aerase m p)).Sublist (levelsOrders m) := by
  induction m with
  | nil => simp [aerase]
  | cons e rest ih =>
    by_cases he : e.1 = p
    · have : aerase (e :: rest) p = aerase rest p := by
        simp [aerase, List.filter_cons, he]
      rw [this, levelsOrders_cons]
      exact ih.trans (List.sublist_append_right _ _)
    · have : aerase (e :: rest) p = e :: aerase rest p := by
        simp [aerase, List.filter_cons, he]
      rw [this, levelsOrders_cons, levelsOrders_cons]
      exact List.Sublist.append (List.Sublist.refl _) ih

theorem levelsOrders_aset_map_sublist {γ : Type} {m : List (Int × List Order)}
    {p : Int} {level q' : List Order} (f : Order → γ)
    (hnd : (m.map Prod.fst).Nodup) (hm : (p, level) ∈ m)
    (hsub : (q'.map f).Sublist (level.map f)) :
    ((levelsOrders (aset m p q')).map f).Sublist ((levelsOrders m).map f) := by
  induction m with
  | nil => simp at hm
  | cons e rest ih =>
    simp only [List.map_cons, List.nodup_cons] at hnd
    by_cases he : e.1 = p
    · have heq : e = (p, level) := by
        rcases List.mem_cons.1 hm with h | h
        · exact h.symm
        · exact absurd (he ▸ List.mem_map.2 ⟨(p, level), h, rfl⟩) hnd.1
      rw [aset, if_pos he, levelsOrders_cons, levelsOrders_cons, heq,
        List.map_append, List.map_append]
      exact List.Sublist.append hsub (List.Sublist.refl _)
    · have hm' : (p, level) ∈ rest := by
        rcases List.mem_cons.1 hm with h | h
        · exact absurd (by rw [← h]) he
        · exact h
      rw [aset, if_neg he, levelsOrders_cons, levelsOrders_cons,
        List.map_append, List.map_append]
      exact List.Sublist.append (List.Sublist.refl _) (ih hnd.2 hm')

theorem mem_levelsOrders_aset {m : List (Int × List Order)} {p : Int}
    {q' : List Order} {o : Order} (h : o ∈ levelsOrders (aset m p q')) :
    o ∈ q' ∨ o ∈ levelsOrders m := by
  rcases mem_levelsOrders.1 h with ⟨pq, hpq, ho⟩
  rcases mem_aset hpq with rfl | hpq
  · exact Or.inl ho
  · exact Or.inr (mem_levelsOrders.2 ⟨pq, hpq, ho⟩)

theorem mem_aset_eq_of_nodup {β : Type} {m : List (Int × β)} {k : Int} {v : β}
    {e : Int × β} (hnd : (m.map Prod.fst).Nodup) (he : e ∈ aset m k v)
    (hk : e.1 = k) : e = (k, v) := by
  induction m with
  | nil =>
    rcases List.mem_singleton.1 (by simpa [aset] using he) with h
    exact h
  | cons f rest ih =>
    simp only [List.map_cons, List.nodup_cons] at hnd
    by_cases hf : f.1 = k
    · rw [aset, if_pos hf] at he
      rcases List.mem_cons.1 he with h | h
      · exact h
      · exact absurd (by rw [hf, ← hk]; exact List.mem_map.2 ⟨e, h, rfl⟩) hnd.1
    · rw [aset, if_neg hf] at he
      rcases List.mem_cons.1 he with h | h
      · exact absurd (h ▸ hk) hf
      · exact ih hnd.2 h

theorem level_map_nodup {γ : Type} {m : List (Int × List Order)} {pq : Int × List Order}
    {f : Order → γ} (hnd : ((levelsOrders m).map f).Nodup) (hm : pq ∈ m) :
    (pq.2.map f).Nodup :=
  ((block_map_sublist f hm).nodup) hnd

theorem levels_disjoint {γ : Type} [DecidableEq γ] {m : List (Int × List Order)}
    {f : Order → γ} (hnd : ((levelsOrders m).map f).Nodup) :
    ∀ pq1 ∈ m, ∀ pq2 ∈ m, pq1.1 ≠ pq2.1 →
      ∀ i ∈ pq1.2.map f, i ∉ pq2.2.map f := by
  induction m with
  | nil => simp
  | cons e rest ih =>
    rw [levelsOrders_cons, List.map_append, List.nodup_append] at hnd
    intro pq1 h1 pq2 h2 hne i hi1 hi2
    rcases List.mem_cons.1 h1 with h1e | h1r
    · rcases List.mem_cons.1 h2 with h2e | h2r
      · exact hne (by rw [h1e, h2e])
      · rw [h1e] at hi1
        exact hnd.2.2 hi1 ((block_map_sublist f h2r).subset hi2)
    · rcases List.mem_cons.1 h2 with h2e | h2r
      · rw [h2e] at hi2
        exact hnd.2.2 hi2 ((block_map_sublist f h1r).subset hi1)
      · exact ih hnd.2.1 pq1 h1r pq2 h2r hne i hi1 hi2

/-- Total remaining over the levels whose key satisfies `P`. -/
def depthWithinP (P : Int → Bool) (m : List (Int × List Order)) : Int :=
  ((m.filter (fun pq => P pq.1)).map (fun pq => levelRemSum pq.2)).sum

/-- Key filter used by a taker walking the asks: price at or below the
limit (everything when there is no limit). -/
def askWithin (lp : Option Int) (p : Int) : Bool :=
  match lp with
  | some l => decide (p ≤ l)
  | none => true

/-- Key filter used by a taker walking the bids: price at or above the
limit (everything when there is no limit). -/
def bidWithin (lp : Option Int) (p : Int) : Bool :=
  match lp with
  | some l => decide (l ≤ p)
  | none => true

/-- Total remaining on ask levels within the taker's limit. -/
def depthWithinAsks (lp : Option Int) (asks : List (Int × List Order)) : Int :=
  depthWithinP (askWithin lp) asks

/-- Total remaining on bid levels within the taker's limit. -/
def depthWithinBids (lp : Option Int) (bids : List (Int × List Order)) : Int :=
  depthWithinP (bidWithin lp) bids

theorem depthWithinP_nil (P : Int → Bool) : depthWithinP P [] = 0 := rfl

theorem depthWithinP_cons (P : Int → Bool) (e : Int × List Order)
    (rest : List (Int × List Order)) :
    depthWithinP P (e :: rest)
      = (if P e.1 then levelRemSum e.2 else 0) + depthWithinP P rest := by
  simp only [depthWithinP, List.filter_cons]
  cases hc : P e.1 <;> simp [hc]

theorem depthWithinP_aerase {P : Int → Bool} {m : List (Int × List Order)}
    {p : Int} {level : List Order} (hnd : (m.map Prod.fst).Nodup)
    (hm : (p, level) ∈ m) (hin : P p = true) :
    depthWithinP P (aerase m p) = depthWithinP P m - levelRemSum level := by
  induction m with
  | nil => simp at hm
  | cons e rest ih =>
    simp only [List.map_cons, List.nodup_cons] at hnd
    by_cases he : e.1 = p
    · have heq : e = (p, level) := by
        rcases List.mem_cons.1 hm with h | h
        · exact h.symm
        · exact absurd (he ▸ List.mem_map.2 ⟨(p, level), h, rfl⟩) hnd.1
      have her : aerase (e :: rest) p = aerase rest p := by
        simp [aerase, List.filter_cons, he]
      have hrest : aerase rest p = rest := by
        apply List.filter_eq_self.2
        intro a ha
        simp only [ne_eq, decide_eq_true_eq]
        intro hap
        exact hnd.1 (by rw [he, ← hap]; exact List.mem_map.2 ⟨a, ha, rfl⟩)
      rw [her, hrest, heq, depthWithinP_cons]
      simp only [hin]
      simp
    · have hm' : (p, level) ∈ rest := by
        rcases List.mem_cons.1 hm with h | h
        · exact absurd (by rw [← h]) he
        · exact h
      have her : aerase (e :: rest) p = e :: aerase rest p := by
        simp [aerase, List.filter_cons, he]
      rw [her, depthWithinP_cons, depthWithinP_cons, ih hnd.2 hm']
      ring

theorem depthWithinP_aset {P : Int → Bool} {m : List (Int × List Order)}
    {p : Int} {level q' : List Order} (hnd : (m.map Prod.fst).Nodup)
    (hm : (p, level) ∈ m) (hin : P p = true) :
    depthWithinP P (aset m p q')
      = depthWithinP P m - levelRemSum level + levelRemSum q' := by
  induction m with
  | nil => simp at hm
  | cons e rest ih =>
    simp only [List.map_cons, List.nodup_cons] at hnd
    by_cases he : e.1 = p
    · have heq : e = (p, level) := by
        rcases List.mem_cons.1 hm with h | h
        · exact h.symm
        · exact absurd (he ▸ List.mem_map.2 ⟨(p, level), h, rfl⟩) hnd.1
      rw [aset, if_pos he, heq, depthWithinP_cons, depthWithinP_cons]
      simp only [hin, if_true]
      ring
    · have hm' : (p, level) ∈ rest := by
        rcases List.mem_cons.1 hm with h | h
        · exact absurd (by rw [← h]) he
        · exact h
      rw [aset, if_neg he, depthWithinP_cons, depthWithinP_cons, ih hnd.2 hm']
      ring

theorem depthWithinP_nonneg {P : Int → Bool} {m : List (Int × List Order)}
    (hpos : ∀ pq ∈ m, ∀ o ∈ pq.2, 0 < o.remaining) :
    0 ≤ depthWithinP P m := by
  apply List.sum_nonneg
  intro x hx
  rcases List.mem_map.1 hx with ⟨pq, hpq, rfl⟩
  have hpq' := List.mem_of_mem_filter hpq
  apply List.sum_nonneg
  intro y hy
  rcases List.mem_map.1 hy with ⟨o, ho, rfl⟩
  exact le_of_lt (hpos pq hpq' o ho)

theorem depthWithinP_zero {P : Int → Bool} {m : List (Int × List Order)}
    (h : ∀ pq ∈ m, P pq.1 = false) : depthWithinP P m = 0 := by
  have : m.filter (fun pq => P pq.1) = [] := by
    apply List.filter_eq_nil.2
    intro pq hpq
    simp [h pq hpq]
  simp [depthWithinP, this]

theorem sideBook_congr {b b' : Book} (hb : b'.bids = b.bids) (ha : b'.asks = b.asks)
    (s : Side) : sideBook b' s = sideBook b s := by
  cases s <;> simp [sideBook, hb, ha]

theorem restingIds_eq (b : Book) : restingIds b
    = (levelsOrders b.bids).map Order.id ++ (levelsOrders b.asks).map Order.id := by
  simp [restingIds, restingOrders]

theorem assignedTs_eq (b : Book) : assignedTs b
    = ((levelsOrders b.bids).map Order.ts ++ (levelsOrders b.asks).map Order.ts)
      ++ b.trades.map Trade.ts := by
  simp [assignedTs, restingOrders]

theorem strictFifo_iff_chain (q : List Order) :
    strictFifoLevel q ↔ List.Chain' (· < ·) (q.map Order.ts) := by
  rw [strictFifoLevel, List.chain'_map]

theorem strictFifo_of_ts_sublist {q q' : List Order} (h : strictFifoLevel q)
    (hs : (q'.map Order.ts).Sublist (q.map Order.ts)) : strictFifoLevel q' := by
  rw [strictFifo_iff_chain] at *
  exact h.sublist hs

theorem nodup_range' (s n : Nat) : (List.range' s n).Nodup := by
  have := List.chain'_iff_pairwise.1 (range'_chain s n)
  exact this.imp (fun h => Nat.ne_of_lt h)

/-- How updating / deleting the level at `best` (the source's
`if not level: book.pop(best) else book[best] = level`) relates the new
side book to the old.  `rlevel` is the post-fill queue. -/
structure LevelsUpd (m : List (Int × List Order)) (best : Int)
    (level rlevel : List Order) (m' : List (Int × List Order)) : Prop where
  keysNodup : (m'.map Prod.fst).Nodup
  memCases : ∀ pq ∈ m', (pq ∈ m ∧ pq.1 ≠ best) ∨ (pq = (best, rlevel) ∧ rlevel ≠ [])
  memExact : ∀ pq ∈ m', pq.1 = best → pq = (best, rlevel)
  lookOther : ∀ p, p ≠ best → alookup m' p = alookup m p
  lookBest : rlevel ≠ [] → alookup m' best = some rlevel
  lookBestNil : rlevel = [] → alookup m' best = none
  keysSub : ∀ p ∈ m'.map Prod.fst, p ∈ m.map Prod.fst
  idsSub : ((levelsOrders m').map Order.id).Sublist ((levelsOrders m).map Order.id)
  tssSub : ((levelsOrders m').map Order.ts).Sublist ((levelsOrders m).map Order.ts)
  ordersCases : ∀ o ∈ levelsOrders m', o ∈ rlevel ∨ o ∈ levelsOrders m
  depth : ∀ P : Int → Bool, P best = true →
    depthWithinP P m' = depthWithinP P m - levelRemSum level + levelRemSum rlevel

theorem levelsUpd_spec {m : List (Int × List Order)} {best : Int}
    {level rlevel : List Order} (hnd : (m.map Prod.fst).Nodup)
    (hmem : (best, level) ∈ m)
    (hids : (rlevel.map Order.id).Sublist (level.map Order.id))
    (htss : (rlevel.map Order.ts).Sublist (level.map Order.ts)) :
    LevelsUpd m best level rlevel
      (if rlevel.isEmpty then aerase m best else aset m best rlevel) := by
  by_cases hre : rlevel.isEmpty
  · have hrnil : rlevel = [] := List.isEmpty_iff.1 hre
    rw [if_pos hre]
    constructor
    · exact aerase_keys_nodup hnd
    · exact fun pq hpq => Or.inl (mem_aerase.1 hpq)
    · intro pq hpq hbest
      exact absurd hbest (mem_aerase.1 hpq).2
    · exact fun p hp => alookup_aerase_ne m best p hp
    · intro hc
      exact absurd hrnil hc
    · intro _
      exact alookup_aerase_self m best
    · intro p hp
      rcases List.mem_map.1 hp with ⟨pq, hpq, rfl⟩
      exact List.mem_map.2 ⟨pq, (mem_aerase.1 hpq).1, rfl⟩
    · exact (levelsOrders_aerase_sublist m best).map _
    · exact (levelsOrders_aerase_sublist m best).map _
    · exact fun o ho => Or.inr ((levelsOrders_aerase_sublist m best).subset ho)
    · intro P hP
      rw [depthWithinP_aerase hnd hmem hP, hrnil]
      simp [levelRemSum]
  · have hrne : rlevel ≠ [] := fun hc => hre (by simp [hc])
    rw [if_neg hre]
    constructor
    · exact aset_keys_nodup _ hnd
    · intro pq hpq
      by_cases hb : pq.1 = best
      · exact Or.inr ⟨mem_aset_eq_of_nodup hnd hpq hb, hrne⟩
      · exact Or.inl ⟨(mem_aset_of_ne hb).1 hpq, hb⟩
    · exact fun pq hpq hb => mem_aset_eq_of_nodup hnd hpq hb
    · exact fun p hp => alookup_aset_ne m best p rlevel hp
    · intro _
      exact alookup_aset_self m best rlevel
    · intro hc
      exact absurd hc hrne
    · intro p hp
      rw [aset_keys_of_mem rlevel (List.mem_map.2 ⟨(best, level), hmem, rfl⟩)] at hp
      exact hp
    · exact levelsOrders_aset_map_sublist Order.id hnd hmem hids
    · exact levelsOrders_aset_map_sublist Order.ts hnd hmem htss
    · exact fun o ho => mem_levelsOrders_aset ho
    · intro P hP
      exact depthWithinP_aset hnd hmem hP

theorem inv_cleanAskHeap {b : Book} (hinv : Inv b) :
    Inv { b with ask_heap := cleanAskHeap b.asks b.ask_heap } := by
  refine { hinv with askHeapSorted := ?_, askHeapCover := ?_, idxSound := ?_ }
  · exact hinv.askHeapSorted.sublist (cleanAskHeap_suffix b.asks b.ask_heap).sublist
  · exact fun pq hpq =>
      mem_cleanAskHeap_of_live (hinv.askHeapCover pq hpq) ((liveLevel_of_mem hinv).1 hpq)
  · intro e he
    obtain ⟨q, hq, hiq⟩ := hinv.idxSound e he
    refine ⟨q, ?_, hiq⟩
    rw [sideBook_congr rfl rfl]
    exact hq

theorem inv_cleanBidHeap {b : Book} (hinv : Inv b) :
    Inv { b with bid_heap := cleanBidHeap b.bids b.bid_heap } := by
  refine { hinv with bidHeapSorted := ?_, bidHeapCover := ?_, idxSound := ?_ }
  · exact hinv.bidHeapSorted.sublist (cleanBidHeap_suffix b.bids b.bid_heap).sublist
  · exact fun pq hpq =>
      mem_cleanBidHeap_of_live (hinv.bidHeapCover pq hpq)
        (by rw [neg_neg]; exact (liveLevel_of_mem hinv).2 hpq)
  · intro e he
    obtain ⟨q, hq, hiq⟩ := hinv.idxSound e he
    refine ⟨q, ?_, hiq⟩
    rw [sideBook_congr rfl rfl]
    exact hq

theorem askStepInv {b : Book} {takerId best rem : Int} {level : List Order} {r : LevelTake}
    (hinv : Inv b)
    (hlook : alookup b.asks best = some level)
    (hr : takeLevel takerId best rem b.seq level b.id_index = r) :
    Inv { b with
      asks := if r.level.isEmpty then aerase b.asks best else aset b.asks best r.level,
      seq := r.seq, id_index := r.index, trades := b.trades ++ r.trs } := by
  obtain ⟨k, s⟩ := takeLevel_spec hr
  have hmem : (best, level) ∈ b.asks := alookup_mem hlook
  have hposlv : ∀ o ∈ level, 0 < o.remaining :=
    fun o ho => (hinv.asksOrders _ hmem o ho).2.2.2.1
  have hposr := takeLevel_pos hposlv hr
  have hids : (r.level.map Order.id).Sublist (level.map Order.id) := by
    rw [s.idDrop]; exact List.drop_sublist _ _
  have htss : (r.level.map Order.ts).Sublist (level.map Order.ts) := by
    rw [s.tsDrop]; exact List.drop_sublist _ _
  have hu := levelsUpd_spec hinv.asksKeysNodup hmem hids htss
  have hconsSub : ∀ i ∈ (level.map Order.id).take k, i ∈ level.map Order.id :=
    fun i hi => List.take_subset _ _ hi
  have hconsAsk : ∀ i ∈ (level.map Order.id).take k,
      i ∈ (levelsOrders b.asks).map Order.id :=
    fun i hi => (block_map_sublist Order.id hmem).subset (hconsSub i hi)
  have hidx : r.index = List.foldl aerase b.id_index ((level.map Order.id).take k) := s.idx
  have hndAskIds : ((levelsOrders b.asks).map Order.id).Nodup := by
    have h0 := hinv.idsNodup
    rw [restingIds_eq] at h0
    exact (List.nodup_append.1 h0).2.1
  have hdisjBA : ∀ i ∈ (levelsOrders b.bids).map Order.id,
      i ∉ (levelsOrders b.asks).map Order.id := by
    have h0 := hinv.idsNodup
    rw [restingIds_eq] at h0
    exact fun i hi hj => (List.nodup_append.1 h0).2.2 hi hj
  have hlvnd : (level.map Order.id).Nodup := level_map_nodup hndAskIds hmem
  have hsplitnd : ((level.map Order.id).take k ++ (level.map Order.id).drop k).Nodup := by
    rw [List.take_append_drop]
    exact hlvnd
  have htdDisj : ∀ i ∈ (level.map Order.id).take k, i ∉ (level.map Order.id).drop k :=
    fun i hi hj => (List.nodup_append.1 hsplitnd).2.2 hi hj
  have htsRange := s.tsRange
  have hseqEq := s.seqEq
  refine { bidsKeysNodup := hinv.bidsKeysNodup, asksKeysNodup := hu.keysNodup,
           bidsNonEmpty := hinv.bidsNonEmpty, asksNonEmpty := ?_,
           bidsOrders := hinv.bidsOrders, asksOrders := ?_,
           bidsFifo := hinv.bidsFifo, asksFifo := ?_, noncross := ?_,
           bidHeapSorted := hinv.bidHeapSorted, askHeapSorted := hinv.askHeapSorted,
           bidHeapCover := hinv.bidHeapCover, askHeapCover := ?_,
           idxKeysNodup := ?_, idxSound := ?_, idxCompleteBids := ?_,
           idxCompleteAsks := ?_, idsNodup := ?_, tsNodup := ?_, tsBound := ?_,
           tradesChrono := ?_ }
  · intro pq hpq
    rcases hu.memCases pq hpq with h | ⟨rfl, hne'⟩
    · exact hinv.asksNonEmpty pq h.1
    · exact hne'
  · intro pq hpq o ho
    rcases hu.memCases pq hpq with h | ⟨heq, -⟩
    · exact hinv.asksOrders pq h.1 o ho
    · subst heq
      obtain ⟨o0, ho0, hoeq, hle⟩ := s.survivors o ho
      have base := hinv.asksOrders _ hmem o0 ho0
      refine ⟨?_, ?_, ?_, hposr.1 o ho, ?_, ?_⟩
      · rw [hoeq]; exact base.1
      · rw [hoeq]; exact base.2.1
      · rw [hoeq]; exact base.2.2.1
      · rw [hoeq]
        exact le_trans hle base.2.2.2.2.1
      · rw [hoeq]; exact base.2.2.2.2.2
  · intro pq hpq
    rcases hu.memCases pq hpq with h | ⟨heq, -⟩
    · exact hinv.asksFifo pq h.1
    · subst heq
      exact strictFifo_of_ts_sublist (hinv.asksFifo _ hmem) htss
  · intro pq hpq pq' hpq'
    rcases hu.memCases pq' hpq' with h | ⟨heq, -⟩
    · exact hinv.noncross pq hpq pq' h.1
    · subst heq
      exact hinv.noncross pq hpq (best, level) hmem
  · intro pq hpq
    have hk : pq.1 ∈ b.asks.map Prod.fst := hu.keysSub _ (List.mem_map.2 ⟨pq, hpq, rfl⟩)
    rcases List.mem_map.1 hk with ⟨pq0, hpq0, hkey⟩
    rw [← hkey]
    exact hinv.askHeapCover pq0 hpq0
  · show ((r.index).map Prod.fst).Nodup
    rw [hidx]
    exact ((foldl_aerase_sublist _ _).map _).nodup hinv.idxKeysNodup
  · intro e he
    have he' : e ∈ b.id_index ∧ e.1 ∉ (level.map Order.id).take k := by
      rw [hidx] at he
      exact foldl_aerase_mem.1 he
    obtain ⟨q, hq, hiq⟩ := hinv.idxSound e he'.1
    cases hside : e.2.1 with
    | buy =>
      rw [hside] at hq
      exact ⟨q, hq, hiq⟩
    | sell =>
      rw [hside] at hq
      by_cases hb : e.2.2 = best
      · rw [hb] at hq
        have hqlv : q = level := Option.some.inj (hq.symm.trans hlook)
        have hiq' : e.1 ∈ level.map Order.id := by rw [← hqlv]; exact hiq
        have hdrop : e.1 ∈ (level.map Order.id).drop k := by
          have hsp : e.1 ∈ (level.map Order.id).take k ++ (level.map Order.id).drop k := by
            rw [List.take_append_drop]
            exact hiq'
          rcases List.mem_append.1 hsp with h | h
          · exact absurd h he'.2
          · exact h
        have hrl : e.1 ∈ r.level.map Order.id := by rw [s.idDrop]; exact hdrop
        have hrne : r.level ≠ [] := by
          intro hc
          rw [hc] at hrl
          simp at hrl
        refine ⟨r.level, ?_, hrl⟩
        show alookup (if r.level.isEmpty then aerase b.asks best
          else aset b.asks best r.level) e.2.2 = some r.level
        rw [hb]
        exact hu.lookBest hrne
      · refine ⟨q, ?_, hiq⟩
        show alookup (if r.level.isEmpty then aerase b.asks best
          else aset b.asks best r.level) e.2.2 = some q
        rw [hu.lookOther _ hb]
        exact hq
  · intro pq hpq o ho
    show (o.id, (Side.buy, pq.1)) ∈ r.index
    rw [hidx]
    refine foldl_aerase_mem.2 ⟨hinv.idxCompleteBids pq hpq o ho, ?_⟩
    intro hc
    exact hdisjBA o.id (List.mem_map.2 ⟨o, mem_levelsOrders.2 ⟨pq, hpq, ho⟩, rfl⟩)
      (hconsAsk o.id hc)
  · intro pq' hpq' o ho
    show (o.id, (Side.sell, pq'.1)) ∈ r.index
    rw [hidx]
    rcases hu.memCases pq' hpq' with hold | ⟨heq, -⟩
    · refine foldl_aerase_mem.2 ⟨hinv.idxCompleteAsks pq' hold.1 o ho, ?_⟩
      intro hc
      exact levels_disjoint hndAskIds pq' hold.1 (best, level) hmem hold.2 o.id
        (List.mem_map.2 ⟨o, ho, rfl⟩) (hconsSub _ hc)
    · subst heq
      obtain ⟨o0, ho0, hoeq, -⟩ := s.survivors o ho
      have hid0 : o.id = o0.id := by rw [hoeq]
      refine foldl_aerase_mem.2 ⟨?_, ?_⟩
      · rw [hid0]
        exact hinv.idxCompleteAsks (best, level) hmem o0 ho0
      · intro hc
        have : o.id ∈ (level.map Order.id).drop k := by
          rw [← s.idDrop]
          exact List.mem_map.2 ⟨o, ho, rfl⟩
        exact htdDisj o.id hc this
  · rw [restingIds_eq]
    have hsub := List.Sublist.append (List.Sublist.refl ((levelsOrders b.bids).map Order.id))
      hu.idsSub
    exact hsub.nodup (by rw [← restingIds_eq]; exact hinv.idsNodup)
  · rw [assignedTs_eq]
    show (((levelsOrders b.bids).map Order.ts
        ++ (levelsOrders (if r.level.isEmpty then aerase b.asks best
              else aset b.asks best r.level)).map Order.ts)
      ++ (b.trades ++ r.trs).map Trade.ts).Nodup
    rw [List.map_append, ← List.append_assoc]
    have holdSub : (((levelsOrders b.bids).map Order.ts
        ++ (levelsOrders (if r.level.isEmpty then aerase b.asks best
              else aset b.asks best r.level)).map Order.ts)
      ++ b.trades.map Trade.ts).Sublist (assignedTs b) := by
      rw [assignedTs_eq]
      exact List.Sublist.append
        (List.Sublist.append (List.Sublist.refl _) hu.tssSub) (List.Sublist.refl _)
    rw [List.nodup_append]
    refine ⟨holdSub.nodup hinv.tsNodup, ?_, ?_⟩
    · rw [htsRange]
      exact nodup_range' _ _
    · intro x hx hxn
      have hxb : x ≤ b.seq := hinv.tsBound x (holdSub.subset hx)
      have : b.seq + 1 ≤ x := by
        rw [htsRange] at hxn
        exact (List.mem_range'_1.1 hxn).1
      omega
  · intro t ht
    rw [assignedTs_eq] at ht
    show t ≤ r.seq
    rcases List.mem_append.1 ht with h | h
    · rcases List.mem_append.1 h with h1 | h1
      · have : t ∈ assignedTs b := by
          rw [assignedTs_eq]
          exact List.mem_append_left _ (List.mem_append_left _ h1)
        have := hinv.tsBound t this
        omega
      · have : t ∈ assignedTs b := by
          rw [assignedTs_eq]
          exact List.mem_append_left _
            (List.mem_append_right _ (hu.tssSub.subset h1))
        have := hinv.tsBound t this
        omega
    · rw [List.map_append] at h
      rcases List.mem_append.1 h with h1 | h1
      · have : t ∈ assignedTs b := by
          rw [assignedTs_eq]
          exact List.mem_append_right _ h1
        have := hinv.tsBound t this
        omega
      · rw [htsRange] at h1
        have := (List.mem_range'_1.1 h1).2
        omega
  · show List.Chain' (· < ·) ((b.trades ++ r.trs).map Trade.ts)
    rw [List.map_append, List.chain'_append]
    refine ⟨hinv.tradesChrono, ?_, ?_⟩
    · rw [htsRange]
      exact range'_chain _ _
    · intro x hx y hy
      have hxm : x ∈ b.trades.map Trade.ts := by
        obtain ⟨hne, hxe⟩ := List.mem_getLast?_eq_getLast hx
        rw [hxe]
        exact List.getLast_mem hne
      have hxb : x ≤ b.seq := hinv.tsBound x (by
        rw [assignedTs_eq]
        exact List.mem_append_right _ hxm)
      have hym : y ∈ r.trs.map Trade.ts := List.mem_of_mem_head? hy
      rw [htsRange] at hym
      have := (List.mem_range'_1.1 hym).1
      omega

/-! ### Specification of the outer asks walk -/

theorem aerase_length_lt {β : Type} {m : List (Int × β)} {p : Int} {q : β}
    (hm : (p, q) ∈ m) : (aerase m p).length < m.length := by
  induction m with
  | nil => simp at hm
  | cons e rest ih =>
    by_cases he : e.1 = p
    · have : aerase (e :: rest) p = aerase rest p := by
        simp [aerase, List.filter_cons, he]
      rw [this]
      have := List.length_filter_le (fun e => decide (e.1 ≠ p)) rest
      simp only [List.length_cons]
      calc (aerase rest p).length ≤ rest.length := List.length_filter_le _ _
        _ < rest.length + 1 := by omega
    · have : aerase (e :: rest) p = e :: aerase rest p := by
        simp [aerase, List.filter_cons, he]
      rw [this]
      have hm' : (p, q) ∈ rest := by
        rcases List.mem_cons.1 hm with h | h
        · exact absurd (by rw [← h]) he
        · exact h
      simp only [List.length_cons]
      exact Nat.succ_lt_succ (ih hm')

/-- Everything the rest of the development needs to know about one run
of the `_take_from_asks` outer loop. -/
structure AskWalk (takerId : Int) (lp : Option Int) (rem : Int) (b : Book)
    (w : WalkRes) : Prop where
  inv : Inv w.book
  bidsEq : w.book.bids = b.bids
  bidHeapEq : w.book.bid_heap = b.bid_heap
  seqEq : w.book.seq = b.seq + w.trs.length
  tradesEq : w.book.trades = b.trades ++ w.trs
  remEq : w.rem = rem - sumQty w.trs
  remNonneg : 0 ≤ rem → 0 ≤ w.rem
  remLe : w.rem ≤ rem
  tsRange : w.trs.map Trade.ts = List.range' (b.seq + 1) w.trs.length
  keysSub : ∀ p ∈ w.book.asks.map Prod.fst, p ∈ b.asks.map Prod.fst
  survivors : ∀ o' ∈ levelsOrders w.book.asks, ∃ o ∈ levelsOrders b.asks,
    o' = { o with remaining := o'.remaining } ∧ o'.remaining ≤ o.remaining
  tradeFacts : ∀ t ∈ w.trs, t.taker_id = takerId ∧ 0 < t.qty ∧
    t.price ∈ b.asks.map Prod.fst ∧ (∀ l, lp = some l → t.price ≤ l) ∧
    ∃ o ∈ levelsOrders b.asks, o.id = t.maker_id ∧ o.price = some t.price
  conserve : depthWithinAsks lp w.book.asks = depthWithinAsks lp b.asks - sumQty w.trs
  idxSub : ∀ e ∈ w.book.id_index, e ∈ b.id_index
  stop : 0 < w.rem → ∀ pq ∈ w.book.asks, ∀ l, lp = some l → l < pq.1
  stopNone : 0 < w.rem → lp = none → w.book.asks = []

theorem askWalk_terminal {takerId : Int} {lp : Option Int} {rem : Int} {b : Book}
    (hinv : Inv b)
    (hstop : 0 < rem → (∀ pq ∈ b.asks, ∀ l, lp = some l → l < pq.1)
      ∧ (lp = none → b.asks = [])) :
    AskWalk takerId lp rem b ⟨rem, b, []⟩ := by
  constructor
  · exact hinv
  · rfl
  · rfl
  · simp
  · simp
  · simp [sumQty]
  · exact fun h => h
  · exact le_refl _
  · rfl
  · exact fun p hp => hp
  · exact fun o' ho' => ⟨o', ho', rfl, le_refl _⟩
  · simp
  · simp [sumQty]
  · exact fun e he => he
  · exact fun h0 => (hstop h0).1
  · exact fun h0 => (hstop h0).2

theorem takeFromAsksGo_nonpos {takerId : Int} {lp : Option Int} {fuel : Nat}
    {rem : Int} {b : Book} (h : rem ≤ 0) :
    takeFromAsksGo takerId lp fuel rem b = ⟨rem, b, []⟩ := by
  cases fuel with
  | zero => rfl
  | succ fuel =>
    rw [takeFromAsksGo, if_pos h]

theorem askWalk_terminal_clean {takerId : Int} {lp : Option Int} {rem : Int} {b : Book}
    (hinv : Inv b)
    (hstop : 0 < rem → (∀ pq ∈ b.asks, ∀ l, lp = some l → l < pq.1)
      ∧ (lp = none → b.asks = [])) :
    AskWalk takerId lp rem b
      ⟨rem, { b with ask_heap := cleanAskHeap b.asks b.ask_heap }, []⟩ := by
  constructor
  · exact inv_cleanAskHeap hinv
  · rfl
  · rfl
  · simp
  · simp
  · simp [sumQty]
  · exact fun h => h
  · exact le_refl _
  · rfl
  · exact fun p hp => hp
  · exact fun o' ho' => ⟨o', ho', rfl, le_refl _⟩
  · simp
  · simp [sumQty]
  · exact fun e he => he
  · exact fun h0 => (hstop h0).1
  · exact fun h0 => (hstop h0).2

theorem takeFromAsksGo_succ_none {takerId : Int} {lp : Option Int} {fuel : Nat}
    {rem : Int} {b : Book} (h1 : ¬ rem ≤ 0)
    (hh : (cleanAskHeap b.asks b.ask_heap).head? = none) :
    takeFromAsksGo takerId lp (fuel + 1) rem b
      = ⟨rem, { b with ask_heap := cleanAskHeap b.asks b.ask_heap }, []⟩ := by
  rw [takeFromAsksGo]
  simp only [if_neg h1, hh]

theorem takeFromAsksGo_succ_stop {takerId : Int} {lp : Option Int} {fuel : Nat}
    {rem : Int} {b : Book} {best : Int} (h1 : ¬ rem ≤ 0)
    (hh : (cleanAskHeap b.asks b.ask_heap).head? = some best)
    (hstop : askLimitStop lp best = true) :
    takeFromAsksGo takerId lp (fuel + 1) rem b
      = ⟨rem, { b with ask_heap := cleanAskHeap b.asks b.ask_heap }, []⟩ := by
  rw [takeFromAsksGo]
  simp only [if_neg h1, hh, hstop, if_true]

theorem takeFromAsksGo_succ_level {takerId : Int} {lp : Option Int} {fuel : Nat}
    {rem : Int} {b : Book} {best : Int} {level : List Order} (h1 : ¬ rem ≤ 0)
    (hh : (cleanAskHeap b.asks b.ask_heap).head? = some best)
    (hstop : askLimitStop lp best = false)
    (hlook : alookup b.asks best = some level)
    (hne : level.isEmpty = false) :
    takeFromAsksGo takerId lp (fuel + 1) rem b =
      (let r := takeLevel takerId best rem b.seq level b.id_index
       let b2 : Book :=
         { b with
           ask_heap := cleanAskHeap b.asks b.ask_heap,
           asks := if r.level.isEmpty then aerase b.asks best else aset b.asks best r.level,
           seq := r.seq, id_index := r.index, trades := b.trades ++ r.trs }
       let w := takeFromAsksGo takerId lp fuel r.rem b2
       ⟨w.rem, w.book, r.trs ++ w.trs⟩) := by
  rw [takeFromAsksGo]
  simp only [if_neg h1, hh, hstop, Bool.false_eq_true, if_false, hlook, hne]

theorem askWalk_level {takerId : Int} {lp : Option Int} {fuel : Nat} {rem : Int}
    {b : Book} {best : Int} {level : List Order}
    (hinv : Inv b) (h1 : ¬ rem ≤ 0)
    (hh : (cleanAskHeap b.asks b.ask_heap).head? = some best)
    (hstop : askLimitStop lp best = false)
    (hlook : alookup b.asks best = some level)
    (hfuel : b.asks.length < fuel + 1)
    (ih : ∀ {rem : Int} {b : Book} {w : WalkRes}, Inv b → b.asks.length < fuel →
      takeFromAsksGo takerId lp fuel rem b = w → AskWalk takerId lp rem b w)
    {r : LevelTake} {B2 : Book}
    (hr : takeLevel takerId best rem b.seq level b.id_index = r)
    (hB2 : B2 =
      { b with
        ask_heap := cleanAskHeap b.asks b.ask_heap,
        asks := if r.level.isEmpty then aerase b.asks best else aset b.asks best r.level,
        seq := r.seq, id_index := r.index, trades := b.trades ++ r.trs }) :
    AskWalk takerId lp rem b
      ⟨(takeFromAsksGo takerId lp fuel r.rem B2).rem,
       (takeFromAsksGo takerId lp fuel r.rem B2).book,
       r.trs ++ (takeFromAsksGo takerId lp fuel r.rem B2).trs⟩ := by
  obtain ⟨k, s⟩ := takeLevel_spec hr
  have hmem : (best, level) ∈ b.asks := alookup_mem hlook
  have hposlv : ∀ o ∈ level, 0 < o.remaining :=
    fun o ho => (hinv.asksOrders _ hmem o ho).2.2.2.1
  have hposr := takeLevel_pos hposlv hr
  have hids : (r.level.map Order.id).Sublist (level.map Order.id) := by
    rw [s.idDrop]; exact List.drop_sublist _ _
  have htss : (r.level.map Order.ts).Sublist (level.map Order.ts) := by
    rw [s.tsDrop]; exact List.drop_sublist _ _
  have hu := levelsUpd_spec hinv.asksKeysNodup hmem hids htss
  have hinv1 : Inv { b with ask_heap := cleanAskHeap b.asks b.ask_heap } :=
    inv_cleanAskHeap hinv
  have hinv2 : Inv B2 := by
    rw [hB2]
    exact askStepInv hinv1 hlook hr
  have hwithin : askWithin lp best = true := by
    cases lp with
    | none => rfl
    | some l =>
      simp only [askLimitStop, decide_eq_false_iff_not, not_lt] at hstop
      simpa [askWithin] using hstop
  have hB2asks : B2.asks
      = (if r.level.isEmpty then aerase b.asks best else aset b.asks best r.level) := by
    rw [hB2]
  have hB2seq : B2.seq = r.seq := by rw [hB2]
  have hB2idx : B2.id_index = r.index := by rw [hB2]
  have hB2bids : B2.bids = b.bids := by rw [hB2]
  have hB2bh : B2.bid_heap = b.bid_heap := by rw [hB2]
  have hB2tr : B2.trades = b.trades ++ r.trs := by rw [hB2]
  have hw' : AskWalk takerId lp r.rem B2 (takeFromAsksGo takerId lp fuel r.rem B2) := by
    cases hemp : r.level.isEmpty with
    | true =>
      apply ih hinv2 ?_ rfl
      rw [hB2asks, hemp, if_pos rfl]
      have := aerase_length_lt hmem
      omega
    | false =>
      have hrne : r.level ≠ [] := by
        intro hc
        rw [hc] at hemp
        simp at hemp
      have hrem0 : r.rem ≤ 0 := by
        rcases hposr.2 with h | h
        · exact h
        · exact absurd h hrne
      rw [takeFromAsksGo_nonpos hrem0]
      exact askWalk_terminal hinv2 (fun h0 => absurd hrem0 (not_le.2 h0))
  set w' := takeFromAsksGo takerId lp fuel r.rem B2 with hwdef
  constructor
  · exact hw'.inv
  · rw [hw'.bidsEq, hB2bids]
  · rw [hw'.bidHeapEq, hB2bh]
  · show w'.book.seq = b.seq + (r.trs ++ w'.trs).length
    rw [hw'.seqEq, hB2seq, s.seqEq]
    simp only [List.length_append]
    omega
  · show w'.book.trades = b.trades ++ (r.trs ++ w'.trs)
    rw [hw'.tradesEq, hB2tr]
    simp [List.append_assoc]
  · show w'.rem = rem - sumQty (r.trs ++ w'.trs)
    rw [hw'.remEq, s.remEq, sumQty_append]
    omega
  · intro h0
    exact hw'.remNonneg (s.remNonneg h0)
  · exact le_trans hw'.remLe s.remLe
  · show (r.trs ++ w'.trs).map Trade.ts = List.range' (b.seq + 1) (r.trs ++ w'.trs).length
    rw [List.map_append, s.tsRange, hw'.tsRange, hB2seq, s.seqEq]
    simp only [List.length_append]
    have hs : (b.seq + r.trs.length) + 1 = (b.seq + 1) + r.trs.length := by omega
    rw [hs, range'_consec]
  · intro p hp
    apply hu.keysSub
    have := hw'.keysSub p hp
    rw [hB2asks] at this
    exact this
  · intro o'' ho''
    obtain ⟨o', ho', ho''eq, hle''⟩ := hw'.survivors o'' ho''
    rw [hB2asks] at ho'
    rcases hu.ordersCases o' ho' with hins | hino
    · obtain ⟨o, ho, hoeq, hle⟩ := s.survivors o' hins
      refine ⟨o, mem_levelsOrders.2 ⟨(best, level), hmem, ho⟩, ?_, ?_⟩
      · rw [ho''eq, hoeq]
      · have h2 : o'.remaining ≤ o.remaining := hle
        omega
    · exact ⟨o', hino, ho''eq, hle''⟩
  · intro t ht
    rcases List.mem_append.1 ht with htr | htw
    · obtain ⟨hp, htk, hq, o, ho, hid, hqle⟩ := s.tradeFacts t htr
      refine ⟨htk, hq, ?_, ?_, o, mem_levelsOrders.2 ⟨(best, level), hmem, ho⟩, hid, ?_⟩
      · rw [hp]
        exact List.mem_map.2 ⟨(best, level), hmem, rfl⟩
      · intro l hl
        rw [hp]
        rw [hl] at hstop
        simp only [askLimitStop, decide_eq_false_iff_not, not_lt] at hstop
        exact hstop
      · rw [hp]
        exact (hinv.asksOrders _ hmem o ho).2.1
    · obtain ⟨htk, hq, hkey, hbound, o', ho', hid, hpr⟩ := hw'.tradeFacts t htw
      rw [hB2asks] at hkey ho'
      refine ⟨htk, hq, hu.keysSub _ hkey, hbound, ?_⟩
      rcases hu.ordersCases o' ho' with hins | hino
      · obtain ⟨o, ho, hoeq, -⟩ := s.survivors o' hins
        refine ⟨o, mem_levelsOrders.2 ⟨(best, level), hmem, ho⟩, ?_, ?_⟩
        · rw [← hid, hoeq]
        · rw [← hpr, hoeq]
      · exact ⟨o', hino, hid, hpr⟩
  · show depthWithinAsks lp w'.book.asks
      = depthWithinAsks lp b.asks - sumQty (r.trs ++ w'.trs)
    have h0 := hw'.conserve
    rw [hB2asks] at h0
    have hd := hu.depth (askWithin lp) hwithin
    have hc := s.conserve
    rw [sumQty_append]
    show depthWithinP (askWithin lp) w'.book.asks
      = depthWithinP (askWithin lp) b.asks - (sumQty r.trs + sumQty w'.trs)
    have h0' : depthWithinP (askWithin lp) w'.book.asks
        = depthWithinP (askWithin lp)
            (if r.level.isEmpty then aerase b.asks best else aset b.asks best r.level)
          - sumQty w'.trs := h0
    rw [h0', hd]
    omega
  · intro e he
    have h2 := hw'.idxSub e he
    rw [hB2idx, s.idx] at h2
    exact (foldl_aerase_mem.1 h2).1
  · exact hw'.stop
  · exact hw'.stopNone

theorem takeFromAsksGo_spec {takerId : Int} {lp : Option Int} :
    ∀ {fuel : Nat} {rem : Int} {b : Book} {w : WalkRes},
    Inv b → b.asks.length < fuel →
    takeFromAsksGo takerId lp fuel rem b = w →
    AskWalk takerId lp rem b w := by
  intro fuel
  induction fuel with
  | zero =>
    intro rem b w _ hfuel _
    exact absurd hfuel (Nat.not_lt_zero _)
  | succ fuel ih =>
    intro rem b w hinv hfuel hw
    by_cases h1 : rem ≤ 0
    · rw [takeFromAsksGo_nonpos h1] at hw
      subst hw
      exact askWalk_terminal hinv (fun h0 => absurd h1 (not_le.2 h0))
    · cases hh : (cleanAskHeap b.asks b.ask_heap).head? with
      | none =>
        rw [takeFromAsksGo_succ_none h1 hh] at hw
        subst hw
        refine askWalk_terminal_clean hinv (fun _ => ⟨?_, ?_⟩)
        · intro pq hpq l hl
          exfalso
          rw [List.head?_eq_none_iff] at hh
          have hlive : liveLevel b.asks pq.1 = true := (liveLevel_of_mem hinv).1 hpq
          have hcov : pq.1 ∈ b.ask_heap := hinv.askHeapCover pq hpq
          have := cleanAskHeap_nil_no_live hh pq.1 hcov
          rw [hlive] at this
          cases this
        · intro _
          cases hc : b.asks with
          | nil => rfl
          | cons e rest =>
            exfalso
            rw [List.head?_eq_none_iff] at hh
            have hlive : liveLevel b.asks e.1 = true :=
              (liveLevel_of_mem hinv).1 (hc ▸ List.mem_cons_self _ _)
            have hcov : e.1 ∈ b.ask_heap := hinv.askHeapCover e (hc ▸ List.mem_cons_self _ _)
            have := cleanAskHeap_nil_no_live hh e.1 hcov
            rw [hlive] at this
            cases this
      | some best =>
        have hbmin : ∀ pq ∈ b.asks, best ≤ pq.1 := best_ask_min hinv hh
        cases hstop : askLimitStop lp best with
        | true =>
          rw [takeFromAsksGo_succ_stop h1 hh hstop] at hw
          subst hw
          refine askWalk_terminal_clean hinv (fun _ => ⟨?_, ?_⟩)
          · intro pq hpq l hl
            have hd : decide (l < best) = true := by
              rw [hl] at hstop
              exact hstop
            have hlb : l < best := of_decide_eq_true hd
            exact lt_of_lt_of_le hlb (hbmin pq hpq)
          · intro hnone
            rw [hnone] at hstop
            simp [askLimitStop] at hstop
        | false =>
          have hlive := cleanAskHeap_head_live hh
          rcases liveLevel_iff.1 hlive with ⟨level, hlook, hlneq⟩
          have hne : level.isEmpty = false := by
            cases hc : level.isEmpty with
            | false => rfl
            | true => exact absurd (List.isEmpty_iff.1 hc) hlneq
          rw [takeFromAsksGo_succ_level h1 hh hstop hlook hne] at hw
          simp only at hw
          subst hw
          exact askWalk_level hinv h1 hh hstop hlook hfuel (fun h a b => ih h a b) rfl rfl

/-! ### Mirror: invariant preservation and specification of the bids walk -/

theorem bidStepInv {b : Book} {takerId best rem : Int} {level : List Order} {r : LevelTake}
    (hinv : Inv b)
    (hlook : alookup b.bids best = some level)
    (hr : takeLevel takerId best rem b.seq level b.id_index = r) :
    Inv { b with
      bids := if r.level.isEmpty then aerase b.bids best else aset b.bids best r.level,
      seq := r.seq, id_index := r.index, trades := b.trades ++ r.trs } := by
  obtain ⟨k, s⟩ := takeLevel_spec hr
  have hmem : (best, level) ∈ b.bids := alookup_mem hlook
  have hposlv : ∀ o ∈ level, 0 < o.remaining :=
    fun o ho => (hinv.bidsOrders _ hmem o ho).2.2.2.1
  have hposr := takeLevel_pos hposlv hr
  have hids : (r.level.map Order.id).Sublist (level.map Order.id) := by
    rw [s.idDrop]; exact List.drop_sublist _ _
  have htss : (r.level.map Order.ts).Sublist (level.map Order.ts) := by
    rw [s.tsDrop]; exact List.drop_sublist _ _
  have hu := levelsUpd_spec hinv.bidsKeysNodup hmem hids htss
  have hconsSub : ∀ i ∈ (level.map Order.id).take k, i ∈ level.map Order.id :=
    fun i hi => List.take_subset _ _ hi
  have hconsBid : ∀ i ∈ (level.map Order.id).take k,
      i ∈ (levelsOrders b.bids).map Order.id :=
    fun i hi => (block_map_sublist Order.id hmem).subset (hconsSub i hi)
  have hidx : r.index = List.foldl aerase b.id_index ((level.map Order.id).take k) := s.idx
  have hndBidIds : ((levelsOrders b.bids).map Order.id).Nodup := by
    have h0 := hinv.idsNodup
    rw [restingIds_eq] at h0
    exact (List.nodup_append.1 h0).1
  have hdisjBA : ∀ i ∈ (levelsOrders b.bids).map Order.id,
      i ∉ (levelsOrders b.asks).map Order.id := by
    have h0 := hinv.idsNodup
    rw [restingIds_eq] at h0
    exact fun i hi hj => (List.nodup_append.1 h0).2.2 hi hj
  have hlvnd : (level.map Order.id).Nodup := level_map_nodup hndBidIds hmem
  have hsplitnd : ((level.map Order.id).take k ++ (level.map Order.id).drop k).Nodup := by
    rw [List.take_append_drop]
    exact hlvnd
  have htdDisj : ∀ i ∈ (level.map Order.id).take k, i ∉ (level.map Order.id).drop k :=
    fun i hi hj => (List.nodup_append.1 hsplitnd).2.2 hi hj
  have htsRange := s.tsRange
  have hseqEq := s.seqEq
  refine { bidsKeysNodup := hu.keysNodup, asksKeysNodup := hinv.asksKeysNodup,
           bidsNonEmpty := ?_, asksNonEmpty := hinv.asksNonEmpty,
           bidsOrders := ?_, asksOrders := hinv.asksOrders,
           bidsFifo := ?_, asksFifo := hinv.asksFifo, noncross := ?_,
           bidHeapSorted := hinv.bidHeapSorted, askHeapSorted := hinv.askHeapSorted,
           bidHeapCover := ?_, askHeapCover := hinv.askHeapCover,
           idxKeysNodup := ?_, idxSound := ?_, idxCompleteBids := ?_,
           idxCompleteAsks := ?_, idsNodup := ?_, tsNodup := ?_, tsBound := ?_,
           tradesChrono := ?_ }
  · intro pq hpq
    rcases hu.memCases pq hpq with h | ⟨rfl, hne'⟩
    · exact hinv.bidsNonEmpty pq h.1
    · exact hne'
  · intro pq hpq o ho
    rcases hu.memCases pq hpq with h | ⟨heq, -⟩
    · exact hinv.bidsOrders pq h.1 o ho
    · subst heq
      obtain ⟨o0, ho0, hoeq, hle⟩ := s.survivors o ho
      have base := hinv.bidsOrders _ hmem o0 ho0
      refine ⟨?_, ?_, ?_, hposr.1 o ho, ?_, ?_⟩
      · rw [hoeq]; exact base.1
      · rw [hoeq]; exact base.2.1
      · rw [hoeq]; exact base.2.2.1
      · rw [hoeq]
        exact le_trans hle base.2.2.2.2.1
      · rw [hoeq]; exact base.2.2.2.2.2
  · intro pq hpq
    rcases hu.memCases pq hpq with h | ⟨heq, -⟩
    · exact hinv.bidsFifo pq h.1
    · subst heq
      exact strictFifo_of_ts_sublist (hinv.bidsFifo _ hmem) htss
  · intro pq hpq pq' hpq'
    rcases hu.memCases pq hpq with h | ⟨heq, -⟩
    · exact hinv.noncross pq h.1 pq' hpq'
    · subst heq
      exact hinv.noncross (best, level) hmem pq' hpq'
  · intro pq hpq
    have hk : pq.1 ∈ b.bids.map Prod.fst := hu.keysSub _ (List.mem_map.2 ⟨pq, hpq, rfl⟩)
    rcases List.mem_map.1 hk with ⟨pq0, hpq0, hkey⟩
    rw [← hkey]
    exact hinv.bidHeapCover pq0 hpq0
  · show ((r.index).map Prod.fst).Nodup
    rw [hidx]
    exact ((foldl_aerase_sublist _ _).map _).nodup hinv.idxKeysNodup
  · intro e he
    have he' : e ∈ b.id_index ∧ e.1 ∉ (level.map Order.id).take k := by
      rw [hidx] at he
      exact foldl_aerase_mem.1 he
    obtain ⟨q, hq, hiq⟩ := hinv.idxSound e he'.1
    cases hside : e.2.1 with
    | sell =>
      rw [hside] at hq
      exact ⟨q, hq, hiq⟩
    | buy =>
      rw [hside] at hq
      by_cases hb : e.2.2 = best
      · rw [hb] at hq
        have hqlv : q = level := Option.some.inj (hq.symm.trans hlook)
        have hiq' : e.1 ∈ level.map Order.id := by rw [← hqlv]; exact hiq
        have hdrop : e.1 ∈ (level.map Order.id).drop k := by
          have hsp : e.1 ∈ (level.map Order.id).take k ++ (level.map Order.id).drop k := by
            rw [List.take_append_drop]
            exact hiq'
          rcases List.mem_append.1 hsp with h | h
          · exact absurd h he'.2
          · exact h
        have hrl : e.1 ∈ r.level.map Order.id := by rw [s.idDrop]; exact hdrop
        have hrne : r.level ≠ [] := by
          intro hc
          rw [hc] at hrl
          simp at hrl
        refine ⟨r.level, ?_, hrl⟩
        show alookup (if r.level.isEmpty then aerase b.bids best
          else aset b.bids best r.level) e.2.2 = some r.level
        rw [hb]
        exact hu.lookBest hrne
      · refine ⟨q, ?_, hiq⟩
        show alookup (if r.level.isEmpty then aerase b.bids best
          else aset b.bids best r.level) e.2.2 = some q
        rw [hu.lookOther _ hb]
        exact hq
  · intro pq' hpq' o ho
    show (o.id, (Side.buy, pq'.1)) ∈ r.index
    rw [hidx]
    rcases hu.memCases pq' hpq' with hold | ⟨heq, -⟩
    · refine foldl_aerase_mem.2 ⟨hinv.idxCompleteBids pq' hold.1 o ho, ?_⟩
      intro hc
      exact levels_disjoint hndBidIds pq' hold.1 (best, level) hmem hold.2 o.id
        (List.mem_map.2 ⟨o, ho, rfl⟩) (hconsSub _ hc)
    · subst heq
      obtain ⟨o0, ho0, hoeq, -⟩ := s.survivors o ho
      have hid0 : o.id = o0.id := by rw [hoeq]
      refine foldl_aerase_mem.2 ⟨?_, ?_⟩
      · rw [hid0]
        exact hinv.idxCompleteBids (best, level) hmem o0 ho0
      · intro hc
        have : o.id ∈ (level.map Order.id).drop k := by
          rw [← s.idDrop]
          exact List.mem_map.2 ⟨o, ho, rfl⟩
        exact htdDisj o.id hc this
  · intro pq hpq o ho
    show (o.id, (Side.sell, pq.1)) ∈ r.index
    rw [hidx]
    refine foldl_aerase_mem.2 ⟨hinv.idxCompleteAsks pq hpq o ho, ?_⟩
    intro hc
    exact hdisjBA o.id (hconsBid o.id hc)
      (List.mem_map.2 ⟨o, mem_levelsOrders.2 ⟨pq, hpq, ho⟩, rfl⟩)
  · rw [restingIds_eq]
    have hsub := List.Sublist.append hu.idsSub
      (List.Sublist.refl ((levelsOrders b.asks).map Order.id))
    exact hsub.nodup (by rw [← restingIds_eq]; exact hinv.idsNodup)
  · rw [assignedTs_eq]
    show (((levelsOrders (if r.level.isEmpty then aerase b.bids best
              else aset b.bids best r.level)).map Order.ts
        ++ (levelsOrders b.asks).map Order.ts)
      ++ (b.trades ++ r.trs).map Trade.ts).Nodup
    rw [List.map_append, ← List.append_assoc]
    have holdSub : (((levelsOrders (if r.level.isEmpty then aerase b.bids best
              else aset b.bids best r.level)).map Order.ts
        ++ (levelsOrders b.asks).map Order.ts)
      ++ b.trades.map Trade.ts).Sublist (assignedTs b) := by
      rw [assignedTs_eq]
      exact List.Sublist.append
        (List.Sublist.append hu.tssSub (List.Sublist.refl _)) (List.Sublist.refl _)
    rw [List.nodup_append]
    refine ⟨holdSub.nodup hinv.tsNodup, ?_, ?_⟩
    · rw [htsRange]
      exact nodup_range' _ _
    · intro x hx hxn
      have hxb : x ≤ b.seq := hinv.tsBound x (holdSub.subset hx)
      have : b.seq + 1 ≤ x := by
        rw [htsRange] at hxn
        exact (List.mem_range'_1.1 hxn).1
      omega
  · intro t ht
    rw [assignedTs_eq] at ht
    show t ≤ r.seq
    rcases List.mem_append.1 ht with h | h
    · rcases List.mem_append.1 h with h1 | h1
      · have : t ∈ assignedTs b := by
          rw [assignedTs_eq]
          exact List.mem_append_left _
            (List.mem_append_left _ (hu.tssSub.subset h1))
        have := hinv.tsBound t this
        omega
      · have : t ∈ assignedTs b := by
          rw [assignedTs_eq]
          exact List.mem_append_left _ (List.mem_append_right _ h1)
        have := hinv.tsBound t this
        omega
    · rw [List.map_append] at h
      rcases List.mem_append.1 h with h1 | h1
      · have : t ∈ assignedTs b := by
          rw [assignedTs_eq]
          exact List.mem_append_right _ h1
        have := hinv.tsBound t this
        omega
      · rw [htsRange] at h1
        have := (List.mem_range'_1.1 h1).2
        omega
  · show List.Chain' (· < ·) ((b.trades ++ r.trs).map Trade.ts)
    rw [List.map_append, List.chain'_append]
    refine ⟨hinv.tradesChrono, ?_, ?_⟩
    · rw [htsRange]
      exact range'_chain _ _
    · intro x hx y hy
      have hxm : x ∈ b.trades.map Trade.ts := by
        obtain ⟨hne, hxe⟩ := List.mem_getLast?_eq_getLast hx
        rw [hxe]
        exact List.getLast_mem hne
      have hxb : x ≤ b.seq := hinv.tsBound x (by
        rw [assignedTs_eq]
        exact List.mem_append_right _ hxm)
      have hym : y ∈ r.trs.map Trade.ts := List.mem_of_mem_head? hy
      rw [htsRange] at hym
      have := (List.mem_range'_1.1 hym).1
      omega

/-- Mirror of `AskWalk` for `_take_from_bids`. -/
structure BidWalk (takerId : Int) (lp : Option Int) (rem : Int) (b : Book)
    (w : WalkRes) : Prop where
  inv : Inv w.book
  asksEq : w.book.asks = b.asks
  askHeapEq : w.book.ask_heap = b.ask_heap
  seqEq : w.book.seq = b.seq + w.trs.length
  tradesEq : w.book.trades = b.trades ++ w.trs
  remEq : w.rem = rem - sumQty w.trs
  remNonneg : 0 ≤ rem → 0 ≤ w.rem
  remLe : w.rem ≤ rem
  tsRange : w.trs.map Trade.ts = List.range' (b.seq + 1) w.trs.length
  keysSub : ∀ p ∈ w.book.bids.map Prod.fst, p ∈ b.bids.map Prod.fst
  survivors : ∀ o' ∈ levelsOrders w.book.bids, ∃ o ∈ levelsOrders b.bids,
    o' = { o with remaining := o'.remaining } ∧ o'.remaining ≤ o.remaining
  tradeFacts : ∀ t ∈ w.trs, t.taker_id = takerId ∧ 0 < t.qty ∧
    t.price ∈ b.bids.map Prod.fst ∧ (∀ l, lp = some l → l ≤ t.price) ∧
    ∃ o ∈ levelsOrders b.bids, o.id = t.maker_id ∧ o.price = some t.price
  conserve : depthWithinBids lp w.book.bids = depthWithinBids lp b.bids - sumQty w.trs
  idxSub : ∀ e ∈ w.book.id_index, e ∈ b.id_index
  stop : 0 < w.rem → ∀ pq ∈ w.book.bids, ∀ l, lp = some l → pq.1 < l
  stopNone : 0 < w.rem → lp = none → w.book.bids = []

theorem bidWalk_terminal {takerId : Int} {lp : Option Int} {rem : Int} {b : Book}
    (hinv : Inv b)
    (hstop : 0 < rem → (∀ pq ∈ b.bids, ∀ l, lp = some l → pq.1 < l)
      ∧ (lp = none → b.bids = [])) :
    BidWalk takerId lp rem b ⟨rem, b, []⟩ := by
  constructor
  · exact hinv
  · rfl
  · rfl
  · simp
  · simp
  · simp [sumQty]
  · exact fun h => h
  · exact le_refl _
  · rfl
  · exact fun p hp => hp
  · exact fun o' ho' => ⟨o', ho', rfl, le_refl _⟩
  · simp
  · simp [sumQty]
  · exact fun e he => he
  · exact fun h0 => (hstop h0).1
  · exact fun h0 => (hstop h0).2

theorem takeFromBidsGo_nonpos {takerId : Int} {lp : Option Int} {fuel : Nat}
    {rem : Int} {b : Book} (h : rem ≤ 0) :
    takeFromBidsGo takerId lp fuel rem b = ⟨rem, b, []⟩ := by
  cases fuel with
  | zero => rfl
  | succ fuel =>
    rw [takeFromBidsGo, if_pos h]

theorem bidWalk_terminal_clean {takerId : Int} {lp : Option Int} {rem : Int} {b : Book}
    (hinv : Inv b)
    (hstop : 0 < rem → (∀ pq ∈ b.bids, ∀ l, lp = some l → pq.1 < l)
      ∧ (lp = none → b.bids = [])) :
    BidWalk takerId lp rem b
      ⟨rem, { b with bid_heap := cleanBidHeap b.bids b.bid_heap }, []⟩ := by
  constructor
  · exact inv_cleanBidHeap hinv
  · rfl
  · rfl
  · simp
  · simp
  · simp [sumQty]
  · exact fun h => h
  · exact le_refl _
  · rfl
  · exact fun p hp => hp
  · exact fun o' ho' => ⟨o', ho', rfl, le_refl _⟩
  · simp
  · simp [sumQty]
  · exact fun e he => he
  · exact fun h0 => (hstop h0).1
  · exact fun h0 => (hstop h0).2

theorem takeFromBidsGo_succ_none {takerId : Int} {lp : Option Int} {fuel : Nat}
    {rem : Int} {b : Book} (h1 : ¬ rem ≤ 0)
    (hh : (cleanBidHeap b.bids b.bid_heap).head? = none) :
    takeFromBidsGo takerId lp (fuel + 1) rem b
      = ⟨rem, { b with bid_heap := cleanBidHeap b.bids b.bid_heap }, []⟩ := by
  rw [takeFromBidsGo]
  simp only [if_neg h1, hh]

theorem takeFromBidsGo_succ_stop {takerId : Int} {lp : Option Int} {fuel : Nat}
    {rem : Int} {b : Book} {np : Int} (h1 : ¬ rem ≤ 0)
    (hh : (cleanBidHeap b.bids b.bid_heap).head? = some np)
    (hstop : bidLimitStop lp (-np) = true) :
    takeFromBidsGo takerId lp (fuel + 1) rem b
      = ⟨rem, { b with bid_heap := cleanBidHeap b.bids b.bid_heap }, []⟩ := by
  rw [takeFromBidsGo]
  simp only [if_neg h1, hh, hstop, if_true]

theorem takeFromBidsGo_succ_level {takerId : Int} {lp : Option Int} {fuel : Nat}
    {rem : Int} {b : Book} {np : Int} {level : List Order} (h1 : ¬ rem ≤ 0)
    (hh : (cleanBidHeap b.bids b.bid_heap).head? = some np)
    (hstop : bidLimitStop lp (-np) = false)
    (hlook : alookup b.bids (-np) = some level)
    (hne : level.isEmpty = false) :
    takeFromBidsGo takerId lp (fuel + 1) rem b =
      (let r := takeLevel takerId (-np) rem b.seq level b.id_index
       let b2 : Book :=
         { b with
           bid_heap := cleanBidHeap b.bids b.bid_heap,
           bids := if r.level.isEmpty then aerase b.bids (-np) else aset b.bids (-np) r.level,
           seq := r.seq, id_index := r.index, trades := b.trades ++ r.trs }
       let w := takeFromBidsGo takerId lp fuel r.rem b2
       ⟨w.rem, w.book, r.trs ++ w.trs⟩) := by
  rw [takeFromBidsGo]
  simp only [if_neg h1, hh, hstop, Bool.false_eq_true, if_false, hlook, hne]

theorem bidWalk_level {takerId : Int} {lp : Option Int} {fuel : Nat} {rem : Int}
    {b : Book} {best : Int} {level : List Order}
    (hinv : Inv b) (h1 : ¬ rem ≤ 0)
    (hh : (cleanBidHeap b.bids b.bid_heap).head? = some (-best))
    (hstop : bidLimitStop lp best = false)
    (hlook : alookup b.bids best = some level)
    (hfuel : b.bids.length < fuel + 1)
    (ih : ∀ {rem : Int} {b : Book} {w : WalkRes}, Inv b → b.bids.length < fuel →
      takeFromBidsGo takerId lp fuel rem b = w → BidWalk takerId lp rem b w)
    {r : LevelTake} {B2 : Book}
    (hr : takeLevel takerId best rem b.seq level b.id_index = r)
    (hB2 : B2 =
      { b with
        bid_heap := cleanBidHeap b.bids b.bid_heap,
        bids := if r.level.isEmpty then aerase b.bids best else aset b.bids best r.level,
        seq := r.seq, id_index := r.index, trades := b.trades ++ r.trs }) :
    BidWalk takerId lp rem b
      ⟨(takeFromBidsGo takerId lp fuel r.rem B2).rem,
       (takeFromBidsGo takerId lp fuel r.rem B2).book,
       r.trs ++ (takeFromBidsGo takerId lp fuel r.rem B2).trs⟩ := by
  obtain ⟨k, s⟩ := takeLevel_spec hr
  have hmem : (best, level) ∈ b.bids := alookup_mem hlook
  have hposlv : ∀ o ∈ level, 0 < o.remaining :=
    fun o ho => (hinv.bidsOrders _ hmem o ho).2.2.2.1
  have hposr := takeLevel_pos hposlv hr
  have hids : (r.level.map Order.id).Sublist (level.map Order.id) := by
    rw [s.idDrop]; exact List.drop_sublist _ _
  have htss : (r.level.map Order.ts).Sublist (level.map Order.ts) := by
    rw [s.tsDrop]; exact List.drop_sublist _ _
  have hu := levelsUpd_spec hinv.bidsKeysNodup hmem hids htss
  have hinv1 : Inv { b with bid_heap := cleanBidHeap b.bids b.bid_heap } :=
    inv_cleanBidHeap hinv
  have hinv2 : Inv B2 := by
    rw [hB2]
    exact bidStepInv hinv1 hlook hr
  have hwithin : bidWithin lp best = true := by
    cases lp with
    | none => rfl
    | some l =>
      simp only [bidLimitStop, decide_eq_false_iff_not, not_lt] at hstop
      simpa [bidWithin] using hstop
  have hB2bids : B2.bids
      = (if r.level.isEmpty then aerase b.bids best else aset b.bids best r.level) := by
    rw [hB2]
  have hB2seq : B2.seq = r.seq := by rw [hB2]
  have hB2idx : B2.id_index = r.index := by rw [hB2]
  have hB2asks : B2.asks = b.asks := by rw [hB2]
  have hB2ah : B2.ask_heap = b.ask_heap := by rw [hB2]
  have hB2tr : B2.trades = b.trades ++ r.trs := by rw [hB2]
  have hw' : BidWalk takerId lp r.rem B2 (takeFromBidsGo takerId lp fuel r.rem B2) := by
    cases hemp : r.level.isEmpty with
    | true =>
      apply ih hinv2 ?_ rfl
      rw [hB2bids, hemp, if_pos rfl]
      have := aerase_length_lt hmem
      omega
    | false =>
      have hrne : r.level ≠ [] := by
        intro hc
        rw [hc] at hemp
        simp at hemp
      have hrem0 : r.rem ≤ 0 := by
        rcases hposr.2 with h | h
        · exact h
        · exact absurd h hrne
      rw [takeFromBidsGo_nonpos hrem0]
      exact bidWalk_terminal hinv2 (fun h0 => absurd hrem0 (not_le.2 h0))
  set w' := takeFromBidsGo takerId lp fuel r.rem B2 with hwdef
  constructor
  · exact hw'.inv
  · rw [hw'.asksEq, hB2asks]
  · rw [hw'.askHeapEq, hB2ah]
  · show w'.book.seq = b.seq + (r.trs ++ w'.trs).length
    rw [hw'.seqEq, hB2seq, s.seqEq]
    simp only [List.length_append]
    omega
  · show w'.book.trades = b.trades ++ (r.trs ++ w'.trs)
    rw [hw'.tradesEq, hB2tr]
    simp [List.append_assoc]
  · show w'.rem = rem - sumQty (r.trs ++ w'.trs)
    rw [hw'.remEq, s.remEq, sumQty_append]
    omega
  · intro h0
    exact hw'.remNonneg (s.remNonneg h0)
  · exact le_trans hw'.remLe s.remLe
  · show (r.trs ++ w'.trs).map Trade.ts = List.range' (b.seq + 1) (r.trs ++ w'.trs).length
    rw [List.map_append, s.tsRange, hw'.tsRange, hB2seq, s.seqEq]
    simp only [List.length_append]
    have hs : (b.seq + r.trs.length) + 1 = (b.seq + 1) + r.trs.length := by omega
    rw [hs, range'_consec]
  · intro p hp
    apply hu.keysSub
    have := hw'.keysSub p hp
    rw [hB2bids] at this
    exact this
  · intro o'' ho''
    obtain ⟨o', ho', ho''eq, hle''⟩ := hw'.survivors o'' ho''
    rw [hB2bids] at ho'
    rcases hu.ordersCases o' ho' with hins | hino
    · obtain ⟨o, ho, hoeq, hle⟩ := s.survivors o' hins
      refine ⟨o, mem_levelsOrders.2 ⟨(best, level), hmem, ho⟩, ?_, ?_⟩
      · rw [ho''eq, hoeq]
      · have h2 : o'.remaining ≤ o.remaining := hle
        omega
    · exact ⟨o', hino, ho''eq, hle''⟩
  · intro t ht
    rcases List.mem_append.1 ht with htr | htw
    · obtain ⟨hp, htk, hq, o, ho, hid, hqle⟩ := s.tradeFacts t htr
      refine ⟨htk, hq, ?_, ?_, o, mem_levelsOrders.2 ⟨(best, level), hmem, ho⟩, hid, ?_⟩
      · rw [hp]
        exact List.mem_map.2 ⟨(best, level), hmem, rfl⟩
      · intro l hl
        rw [hp]
        rw [hl] at hstop
        simp only [bidLimitStop, decide_eq_false_iff_not, not_lt] at hstop
        exact hstop
      · rw [hp]
        exact (hinv.bidsOrders _ hmem o ho).2.1
    · obtain ⟨htk, hq, hkey, hbound, o', ho', hid, hpr⟩ := hw'.tradeFacts t htw
      rw [hB2bids] at hkey ho'
      refine ⟨htk, hq, hu.keysSub _ hkey, hbound, ?_⟩
      rcases hu.ordersCases o' ho' with hins | hino
      · obtain ⟨o, ho, hoeq, -⟩ := s.survivors o' hins
        refine ⟨o, mem_levelsOrders.2 ⟨(best, level), hmem, ho⟩, ?_, ?_⟩
        · rw [← hid, hoeq]
        · rw [← hpr, hoeq]
      · exact ⟨o', hino, hid, hpr⟩
  · show depthWithinBids lp w'.book.bids
      = depthWithinBids lp b.bids - sumQty (r.trs ++ w'.trs)
    have h0 := hw'.conserve
    rw [hB2bids] at h0
    have hd := hu.depth (bidWithin lp) hwithin
    have hc := s.conserve
    rw [sumQty_append]
    show depthWithinP (bidWithin lp) w'.book.bids
      = depthWithinP (bidWithin lp) b.bids - (sumQty r.trs + sumQty w'.trs)
    have h0' : depthWithinP (bidWithin lp) w'.book.bids
        = depthWithinP (bidWithin lp)
            (if r.level.isEmpty then aerase b.bids best else aset b.bids best r.level)
          - sumQty w'.trs := h0
    rw [h0', hd]
    omega
  · intro e he
    have h2 := hw'.idxSub e he
    rw [hB2idx, s.idx] at h2
    exact (foldl_aerase_mem.1 h2).1
  · exact hw'.stop
  · exact hw'.stopNone

theorem takeFromBidsGo_spec {takerId : Int} {lp : Option Int} :
    ∀ {fuel : Nat} {rem : Int} {b : Book} {w : WalkRes},
    Inv b → b.bids.length < fuel →
    takeFromBidsGo takerId lp fuel rem b = w →
    BidWalk takerId lp rem b w := by
  intro fuel
  induction fuel with
  | zero =>
    intro rem b w _ hfuel _
    exact absurd hfuel (Nat.not_lt_zero _)
  | succ fuel ih =>
    intro rem b w hinv hfuel hw
    by_cases h1 : rem ≤ 0
    · rw [takeFromBidsGo_nonpos h1] at hw
      subst hw
      exact bidWalk_terminal hinv (fun h0 => absurd h1 (not_le.2 h0))
    · cases hh : (cleanBidHeap b.bids b.bid_heap).head? with
      | none =>
        rw [takeFromBidsGo_succ_none h1 hh] at hw
        subst hw
        refine bidWalk_terminal_clean hinv (fun _ => ⟨?_, ?_⟩)
        · intro pq hpq l hl
          exfalso
          rw [List.head?_eq_none_iff] at hh
          have hlive : liveLevel b.bids pq.1 = true := (liveLevel_of_mem hinv).2 hpq
          have hcov : -pq.1 ∈ b.bid_heap := hinv.bidHeapCover pq hpq
          have := cleanBidHeap_nil_no_live hh (-pq.1) hcov
          rw [neg_neg, hlive] at this
          cases this
        · intro _
          cases hc : b.bids with
          | nil => rfl
          | cons e rest =>
            exfalso
            rw [List.head?_eq_none_iff] at hh
            have hlive : liveLevel b.bids e.1 = true :=
              (liveLevel_of_mem hinv).2 (hc ▸ List.mem_cons_self _ _)
            have hcov : -e.1 ∈ b.bid_heap := hinv.bidHeapCover e (hc ▸ List.mem_cons_self _ _)
            have := cleanBidHeap_nil_no_live hh (-e.1) hcov
            rw [neg_neg, hlive] at this
            cases this
      | some np =>
        have hbb : best_bid b = some (-np) := by
          unfold best_bid
          rw [hh]
          rfl
        have hbmax : ∀ pq ∈ b.bids, pq.1 ≤ -np := best_bid_max hinv hbb
        cases hstop : bidLimitStop lp (-np) with
        | true =>
          rw [takeFromBidsGo_succ_stop h1 hh hstop] at hw
          subst hw
          refine bidWalk_terminal_clean hinv (fun _ => ⟨?_, ?_⟩)
          · intro pq hpq l hl
            have hd : decide ((-np) < l) = true := by
              rw [hl] at hstop
              exact hstop
            have hlb : -np < l := of_decide_eq_true hd
            exact lt_of_le_of_lt (hbmax pq hpq) hlb
          · intro hnone
            rw [hnone] at hstop
            simp [bidLimitStop] at hstop
        | false =>
          have hlive := cleanBidHeap_head_live hh
          rcases liveLevel_iff.1 hlive with ⟨level, hlook, hlneq⟩
          have hne : level.isEmpty = false := by
            cases hc : level.isEmpty with
            | false => rfl
            | true => exact absurd (List.isEmpty_iff.1 hc) hlneq
          rw [takeFromBidsGo_succ_level h1 hh hstop hlook hne] at hw
          simp only at hw
          subst hw
          have hh' : (cleanBidHeap b.bids b.bid_heap).head? = some (-(-np)) := by
            rw [hh, neg_neg]
          exact bidWalk_level hinv h1 hh' hstop hlook hfuel (fun h a c => ih h a c) rfl rfl

/-! ### Resting a limit order -/

theorem aset_not_mem_eq {β : Type} {m : List (Int × β)} {k : Int} (v : β)
    (h : alookup m k = none) : aset m k v = m ++ [(k, v)] := by
  induction m with
  | nil => rfl
  | cons e rest ih =>
    rw [alookup] at h
    by_cases he : e.1 = k
    · rw [if_pos he] at h
      cases h
    · rw [if_neg he] at h
      rw [aset, if_neg he, List.cons_append, ih h]

theorem levelsOrders_append (m1 m2 : List (Int × List Order)) :
    levelsOrders (m1 ++ m2) = levelsOrders m1 ++ levelsOrders m2 := by
  induction m1 with
  | nil => simp [levelsOrders]
  | cons e rest ih =>
    rw [List.cons_append, levelsOrders_cons, levelsOrders_cons, ih, List.append_assoc]

theorem levelsOrders_aset_perm {m : List (Int × List Order)} {p : Int}
    {q : List Order} (o : Order) (hnd : (m.map Prod.fst).Nodup)
    (hmem : (p, q) ∈ m) :
    (levelsOrders (aset m p (q ++ [o]))).Perm (o :: levelsOrders m) := by
  induction m with
  | nil => simp at hmem
  | cons e rest ih =>
    simp only [List.map_cons, List.nodup_cons] at hnd
    by_cases he : e.1 = p
    · have heq : e = (p, q) := by
        rcases List.mem_cons.1 hmem with h | h
        · exact h.symm
        · exact absurd (he ▸ List.mem_map.2 ⟨(p, q), h, rfl⟩) hnd.1
      rw [aset, if_pos he, heq, levelsOrders_cons, levelsOrders_cons, List.append_assoc]
      exact List.perm_middle
    · have hmem' : (p, q) ∈ rest := by
        rcases List.mem_cons.1 hmem with h | h
        · exact absurd (by rw [← h]) he
        · exact h
      rw [aset, if_neg he, levelsOrders_cons, levelsOrders_cons]
      exact (List.Perm.append_left e.2 (ih hnd.2 hmem')).trans List.perm_middle

theorem inv_seq_mono {b : Book} {s : Nat} (hinv : Inv b) (hs : b.seq ≤ s) :
    Inv { b with seq := s } := by
  refine { hinv with idxSound := ?_, tsBound := ?_ }
  · intro e he
    obtain ⟨q, hq, hiq⟩ := hinv.idxSound e he
    refine ⟨q, ?_, hiq⟩
    rw [sideBook_congr rfl rfl]
    exact hq
  · intro t ht
    have := hinv.tsBound t ht
    show t ≤ s
    omega

theorem askWalk_restingIds_sub {takerId : Int} {lp : Option Int} {rem : Int}
    {b : Book} {w : WalkRes} (hw : AskWalk takerId lp rem b w) :
    ∀ i ∈ restingIds w.book, i ∈ restingIds b := by
  intro i hi
  rw [restingIds_eq] at hi ⊢
  rcases List.mem_append.1 hi with h | h
  · rw [hw.bidsEq] at h
    exact List.mem_append_left _ h
  · rcases List.mem_map.1 h with ⟨o', ho', rfl⟩
    obtain ⟨o, ho, hoeq, -⟩ := hw.survivors o' ho'
    have : o'.id = o.id := by rw [hoeq]
    rw [this]
    exact List.mem_append_right _ (List.mem_map.2 ⟨o, ho, rfl⟩)

theorem bidWalk_restingIds_sub {takerId : Int} {lp : Option Int} {rem : Int}
    {b : Book} {w : WalkRes} (hw : BidWalk takerId lp rem b w) :
    ∀ i ∈ restingIds w.book, i ∈ restingIds b := by
  intro i hi
  rw [restingIds_eq] at hi ⊢
  rcases List.mem_append.1 hi with h | h
  · rcases List.mem_map.1 h with ⟨o', ho', rfl⟩
    obtain ⟨o, ho, hoeq, -⟩ := hw.survivors o' ho'
    have : o'.id = o.id := by rw [hoeq]
    rw [this]
    exact List.mem_append_left _ (List.mem_map.2 ⟨o, ho, rfl⟩)
  · rw [hw.asksEq] at h
    exact List.mem_append_right _ h

theorem askWalk_restingTs_sub {takerId : Int} {lp : Option Int} {rem : Int}
    {b : Book} {w : WalkRes} (hw : AskWalk takerId lp rem b w) :
    ∀ t ∈ (restingOrders w.book).map Order.ts, t ∈ (restingOrders b).map Order.ts := by
  intro t ht
  simp only [restingOrders, List.map_append] at ht ⊢
  rcases List.mem_append.1 ht with h | h
  · rw [hw.bidsEq] at h
    exact List.mem_append_left _ h
  · rcases List.mem_map.1 h with ⟨o', ho', rfl⟩
    obtain ⟨o, ho, hoeq, -⟩ := hw.survivors o' ho'
    have : o'.ts = o.ts := by rw [hoeq]
    rw [this]
    exact List.mem_append_right _ (List.mem_map.2 ⟨o, ho, rfl⟩)

theorem bidWalk_restingTs_sub {takerId : Int} {lp : Option Int} {rem : Int}
    {b : Book} {w : WalkRes} (hw : BidWalk takerId lp rem b w) :
    ∀ t ∈ (restingOrders w.book).map Order.ts, t ∈ (restingOrders b).map Order.ts := by
  intro t ht
  simp only [restingOrders, List.map_append] at ht ⊢
  rcases List.mem_append.1 ht with h | h
  · rcases List.mem_map.1 h with ⟨o', ho', rfl⟩
    obtain ⟨o, ho, hoeq, -⟩ := hw.survivors o' ho'
    have : o'.ts = o.ts := by rw [hoeq]
    rw [this]
    exact List.mem_append_left _ (List.mem_map.2 ⟨o, ho, rfl⟩)
  · rw [hw.asksEq] at h
    exact List.mem_append_right _ h

theorem rest_limit_buy_eq {b : Book} {o : Order} {p : Int}
    (hside : o.side = Side.buy) (hprice : o.price = some p) :
    rest_limit b o = { b with
      bids := aset b.bids p (((alookup b.bids p).getD []) ++ [o]),
      bid_heap := if liveLevel b.bids p then b.bid_heap else hpush b.bid_heap (-p),
      id_index := aset b.id_index o.id (Side.buy, p) } := by
  unfold rest_limit
  rw [hprice, hside]
  rfl

theorem rest_limit_sell_eq {b : Book} {o : Order} {p : Int}
    (hside : o.side = Side.sell) (hprice : o.price = some p) :
    rest_limit b o = { b with
      asks := aset b.asks p (((alookup b.asks p).getD []) ++ [o]),
      ask_heap := if liveLevel b.asks p then b.ask_heap else hpush b.ask_heap p,
      id_index := aset b.id_index o.id (Side.sell, p) } := by
  unfold rest_limit
  rw [hprice, hside]
  rfl

theorem rest_limit_inv_buy {b : Book} {o : Order} {p : Int}
    (hinv : Inv b)
    (hside : o.side = Side.buy) (hprice : o.price = some p)
    (htype : o.order_type = OrderType.limit)
    (hrem : 0 < o.remaining) (hrq : o.remaining ≤ o.qty) (hq0 : 0 < o.qty)
    (hts1 : ∀ t ∈ (restingOrders b).map Order.ts, t < o.ts)
    (hts2 : o.ts ∉ b.trades.map Trade.ts)
    (hts3 : o.ts ≤ b.seq)
    (hid : o.id ∉ restingIds b)
    (hlt : ∀ pq ∈ b.asks, p < pq.1) :
    Inv (rest_limit b o) := by
  rw [rest_limit_buy_eq hside hprice]
  have hidix : o.id ∉ b.id_index.map Prod.fst := by
    intro hc
    rcases List.mem_map.1 hc with ⟨e, he, hkey⟩
    obtain ⟨q', hq', hiq'⟩ := hinv.idxSound e he
    apply hid
    rw [restingIds_eq, ← hkey]
    cases hs : e.2.1 with
    | buy =>
      rw [hs] at hq'
      exact List.mem_append_left _
        ((block_map_sublist Order.id (alookup_mem hq')).subset hiq')
    | sell =>
      rw [hs] at hq'
      exact List.mem_append_right _
        ((block_map_sublist Order.id (alookup_mem hq')).subset hiq')
  have hF9 : ∀ q', alookup b.bids p = some q' → (alookup b.bids p).getD [] = q' := by
    intro q' h
    rw [h]
    rfl
  have hF1 : ∀ pq' ∈ aset b.bids p (((alookup b.bids p).getD []) ++ [o]),
      (pq' ∈ b.bids ∧ pq'.1 ≠ p) ∨ pq' = (p, ((alookup b.bids p).getD []) ++ [o]) := by
    intro pq' hpq'
    by_cases hk : pq'.1 = p
    · exact Or.inr (mem_aset_eq_of_nodup hinv.bidsKeysNodup hpq' hk)
    · exact Or.inl ⟨(mem_aset_of_ne hk).1 hpq', hk⟩
  have hF2 : ((aset b.bids p (((alookup b.bids p).getD []) ++ [o])).map Prod.fst).Nodup :=
    aset_keys_nodup _ hinv.bidsKeysNodup
  have hF4 : ∀ o2 ∈ (alookup b.bids p).getD [], o2 ∈ levelsOrders b.bids ∧
      (o2.side = Side.buy ∧ o2.price = some p ∧ o2.order_type = OrderType.limit ∧
        0 < o2.remaining ∧ o2.remaining ≤ o2.qty ∧ 0 < o2.qty) ∧
      (o2.id, (Side.buy, p)) ∈ b.id_index := by
    intro o2 ho2
    cases hcase : alookup b.bids p with
    | none =>
      rw [hcase] at ho2
      simp at ho2
    | some q =>
      rw [hcase] at ho2
      have hm : (p, q) ∈ b.bids := alookup_mem hcase
      exact ⟨mem_levelsOrders.2 ⟨(p, q), hm, ho2⟩, hinv.bidsOrders _ hm o2 ho2,
        hinv.idxCompleteBids _ hm o2 ho2⟩
  have hF5 : strictFifoLevel ((alookup b.bids p).getD []) := by
    cases hcase : alookup b.bids p with
    | none => exact List.chain'_nil
    | some q => exact hinv.bidsFifo _ (alookup_mem hcase)
  have hF3 : (levelsOrders (aset b.bids p (((alookup b.bids p).getD []) ++ [o]))).Perm
      (o :: levelsOrders b.bids) := by
    cases hcase : alookup b.bids p with
    | none =>
      simp only [Option.getD_none, List.nil_append]
      rw [show aset b.bids p [o] = b.bids ++ [(p, [o])] from aset_not_mem_eq _ hcase]
      rw [levelsOrders_append]
      have h2 : levelsOrders [(p, [o])] = [o] := rfl
      rw [h2]
      have h3 := @List.perm_middle _ o (levelsOrders b.bids) ([] : List Order)
      simpa using h3
    | some q =>
      simp only [Option.getD_some]
      exact levelsOrders_aset_perm o hinv.bidsKeysNodup (alookup_mem hcase)
  have hpermIds : ((levelsOrders (aset b.bids p (((alookup b.bids p).getD []) ++ [o]))).map
      Order.id).Perm (o.id :: (levelsOrders b.bids).map Order.id) := hF3.map Order.id
  have hpermTs : ((levelsOrders (aset b.bids p (((alookup b.bids p).getD []) ++ [o]))).map
      Order.ts).Perm (o.ts :: (levelsOrders b.bids).map Order.ts) := hF3.map Order.ts
  have hlive_some : ∀ q', alookup b.bids p = some q' → liveLevel b.bids p = true := by
    intro q' h
    refine liveLevel_iff.2 ⟨q', h, ?_⟩
    exact hinv.bidsNonEmpty (p, q') (alookup_mem h)
  have hF7 : ∀ pq' ∈ aset b.bids p (((alookup b.bids p).getD []) ++ [o]),
      -pq'.1 ∈ (if liveLevel b.bids p then b.bid_heap else hpush b.bid_heap (-p)) := by
    intro pq' hpq'
    by_cases hl : liveLevel b.bids p
    · rw [if_pos hl]
      rcases hF1 pq' hpq' with ⟨hm, -⟩ | heq
      · exact hinv.bidHeapCover pq' hm
      · rcases liveLevel_iff.1 hl with ⟨q', hq', -⟩
        have : pq'.1 = p := by rw [heq]
        rw [this]
        exact hinv.bidHeapCover (p, q') (alookup_mem hq')
    · rw [if_neg hl]
      rcases hF1 pq' hpq' with ⟨hm, -⟩ | heq
      · exact mem_hpush.2 (Or.inr (hinv.bidHeapCover pq' hm))
      · have : pq'.1 = p := by rw [heq]
        rw [this]
        exact mem_hpush.2 (Or.inl rfl)
  have hF8 : List.Sorted (· ≤ ·)
      (if liveLevel b.bids p then b.bid_heap else hpush b.bid_heap (-p)) := by
    by_cases hl : liveLevel b.bids p
    · rw [if_pos hl]; exact hinv.bidHeapSorted
    · rw [if_neg hl]; exact sorted_hpush hinv.bidHeapSorted
  refine { bidsKeysNodup := hF2, asksKeysNodup := hinv.asksKeysNodup,
           bidsNonEmpty := ?_, asksNonEmpty := hinv.asksNonEmpty,
           bidsOrders := ?_, asksOrders := hinv.asksOrders,
           bidsFifo := ?_, asksFifo := hinv.asksFifo, noncross := ?_,
           bidHeapSorted := hF8, askHeapSorted := hinv.askHeapSorted,
           bidHeapCover := hF7, askHeapCover := hinv.askHeapCover,
           idxKeysNodup := aset_keys_nodup _ hinv.idxKeysNodup,
           idxSound := ?_, idxCompleteBids := ?_, idxCompleteAsks := ?_,
           idsNodup := ?_, tsNodup := ?_, tsBound := ?_,
           tradesChrono := hinv.tradesChrono }
  · intro pq hpq
    rcases hF1 pq hpq with ⟨hm, -⟩ | heq
    · exact hinv.bidsNonEmpty pq hm
    · rw [heq]
      simp
  · intro pq hpq o2 ho2
    rcases hF1 pq hpq with ⟨hm, -⟩ | heq
    · exact hinv.bidsOrders pq hm o2 ho2
    · have hkey : pq.1 = p := by rw [heq]
      have hq2 : pq.2 = ((alookup b.bids p).getD []) ++ [o] := by rw [heq]
      rw [hq2] at ho2
      rw [hkey]
      rcases List.mem_append.1 ho2 with h | h
      · exact (hF4 o2 h).2.1
      · rcases List.mem_singleton.1 h with rfl
        exact ⟨hside, hprice, htype, hrem, hrq, hq0⟩
  · intro pq hpq
    rcases hF1 pq hpq with ⟨hm, -⟩ | heq
    · exact hinv.bidsFifo pq hm
    · have hq2 : pq.2 = ((alookup b.bids p).getD []) ++ [o] := by rw [heq]
      rw [hq2]
      rw [strictFifoLevel, List.chain'_append]
      refine ⟨hF5, List.chain'_singleton o, ?_⟩
      intro x hx y hy
      rcases List.mem_singleton.1 (List.mem_of_mem_head? hy) with rfl
      obtain ⟨hne, hxe⟩ := List.mem_getLast?_eq_getLast hx
      have hxm : x ∈ (alookup b.bids p).getD [] := by
        rw [hxe]
        exact List.getLast_mem hne
      apply hts1
      rcases hF4 x hxm with ⟨hxl, -, -⟩
      exact List.mem_map.2 ⟨x, List.mem_append_left _ hxl, rfl⟩
  · intro pq hpq pq' hpq'
    rcases hF1 pq hpq with ⟨hm, -⟩ | heq
    · exact hinv.noncross pq hm pq' hpq'
    · have hkey : pq.1 = p := by rw [heq]
      rw [hkey]
      exact hlt pq' hpq'
  · intro e he
    by_cases hk : e.1 = o.id
    · have heq : e = (o.id, (Side.buy, p)) :=
        mem_aset_eq_of_nodup hinv.idxKeysNodup he hk
      rw [heq]
      refine ⟨((alookup b.bids p).getD []) ++ [o], ?_, ?_⟩
      · show alookup (aset b.bids p (((alookup b.bids p).getD []) ++ [o])) p = _
        exact alookup_aset_self _ _ _
      · exact List.mem_map.2 ⟨o, List.mem_append_right _ (List.mem_singleton.2 rfl), rfl⟩
    · have he' : e ∈ b.id_index := (mem_aset_of_ne hk).1 he
      obtain ⟨q', hq', hiq'⟩ := hinv.idxSound e he'
      cases hs : e.2.1 with
      | sell =>
        rw [hs] at hq'
        exact ⟨q', hq', hiq'⟩
      | buy =>
        rw [hs] at hq'
        by_cases hpp : e.2.2 = p
        · rw [hpp] at hq'
          have hg : (alookup b.bids p).getD [] = q' := hF9 q' hq'
          refine ⟨((alookup b.bids p).getD []) ++ [o], ?_, ?_⟩
          · show alookup (aset b.bids p (((alookup b.bids p).getD []) ++ [o])) e.2.2 = _
            rw [hpp]
            exact alookup_aset_self _ _ _
          · rw [hg]
            rcases List.mem_map.1 hiq' with ⟨o2, ho2, hid2⟩
            exact List.mem_map.2 ⟨o2, List.mem_append_left _ ho2, hid2⟩
        · refine ⟨q', ?_, hiq'⟩
          show alookup (aset b.bids p (((alookup b.bids p).getD []) ++ [o])) e.2.2 = _
          rw [alookup_aset_ne _ _ _ _ hpp]
          exact hq'
  · intro pq hpq o2 ho2
    show (o2.id, (Side.buy, pq.1)) ∈ aset b.id_index o.id (Side.buy, p)
    rcases hF1 pq hpq with ⟨hm, -⟩ | heq
    · have hbase := hinv.idxCompleteBids pq hm o2 ho2
      have hne : o2.id ≠ o.id := by
        intro hc
        apply hid
        rw [← hc, restingIds_eq]
        exact List.mem_append_left _
          (List.mem_map.2 ⟨o2, mem_levelsOrders.2 ⟨pq, hm, ho2⟩, rfl⟩)
      exact (mem_aset_of_ne (by simpa using hne)).2 hbase
    · have hkey : pq.1 = p := by rw [heq]
      have hq2 : pq.2 = ((alookup b.bids p).getD []) ++ [o] := by rw [heq]
      rw [hq2] at ho2
      rw [hkey]
      rcases List.mem_append.1 ho2 with h | h
      · have hbase := (hF4 o2 h).2.2
        have hne : o2.id ≠ o.id := by
          intro hc
          apply hid
          rw [← hc, restingIds_eq]
          exact List.mem_append_left _ (List.mem_map.2 ⟨o2, (hF4 o2 h).1, rfl⟩)
        exact (mem_aset_of_ne (by simpa using hne)).2 hbase
      · have ho2e : o2 = o := List.mem_singleton.1 h
        rw [ho2e]
        exact alookup_mem (alookup_aset_self b.id_index o.id (Side.buy, p))
  · intro pq hpq o2 ho2
    show (o2.id, (Side.sell, pq.1)) ∈ aset b.id_index o.id (Side.buy, p)
    have hbase := hinv.idxCompleteAsks pq hpq o2 ho2
    have hne : o2.id ≠ o.id := by
      intro hc
      apply hid
      rw [← hc, restingIds_eq]
      exact List.mem_append_right _
        (List.mem_map.2 ⟨o2, mem_levelsOrders.2 ⟨pq, hpq, ho2⟩, rfl⟩)
    exact (mem_aset_of_ne (by simpa using hne)).2 hbase
  · rw [restingIds_eq]
    have hperm : ((levelsOrders (aset b.bids p (((alookup b.bids p).getD []) ++ [o]))).map
        Order.id ++ (levelsOrders b.asks).map Order.id).Perm
        (o.id :: ((levelsOrders b.bids).map Order.id ++ (levelsOrders b.asks).map Order.id)) := by
      have := hpermIds.append_right ((levelsOrders b.asks).map Order.id)
      simpa using this
    refine hperm.nodup_iff.2 ?_
    rw [List.nodup_cons]
    refine ⟨?_, by rw [← restingIds_eq]; exact hinv.idsNodup⟩
    rw [← restingIds_eq]
    exact hid
  · rw [assignedTs_eq]
    have hperm : (((levelsOrders (aset b.bids p (((alookup b.bids p).getD []) ++ [o]))).map
        Order.ts ++ (levelsOrders b.asks).map Order.ts) ++ b.trades.map Trade.ts).Perm
        (o.ts :: assignedTs b) := by
      rw [assignedTs_eq]
      have h1 := (hpermTs.append_right ((levelsOrders b.asks).map Order.ts)).append_right
        (b.trades.map Trade.ts)
      simpa using h1
    refine hperm.nodup_iff.2 ?_
    rw [List.nodup_cons]
    refine ⟨?_, hinv.tsNodup⟩
    intro hc
    rw [assignedTs] at hc
    rcases List.mem_append.1 hc with h | h
    · exact absurd rfl (Nat.ne_of_gt (hts1 o.ts h))
    · exact hts2 h
  · intro t ht
    show t ≤ b.seq
    rw [assignedTs_eq] at ht
    have hperm : (((levelsOrders (aset b.bids p (((alookup b.bids p).getD []) ++ [o]))).map
        Order.ts ++ (levelsOrders b.asks).map Order.ts) ++ b.trades.map Trade.ts).Perm
        (o.ts :: assignedTs b) := by
      rw [assignedTs_eq]
      have h1 := (hpermTs.append_right ((levelsOrders b.asks).map Order.ts)).append_right
        (b.trades.map Trade.ts)
      simpa using h1
    have := hperm.subset ht
    rcases List.mem_cons.1 this with rfl | h
    · exact hts3
    · exact hinv.tsBound t h

theorem rest_limit_inv_sell {b : Book} {o : Order} {p : Int}
    (hinv : Inv b)
    (hside : o.side = Side.sell) (hprice : o.price = some p)
    (htype : o.order_type = OrderType.limit)
    (hrem : 0 < o.remaining) (hrq : o.remaining ≤ o.qty) (hq0 : 0 < o.qty)
    (hts1 : ∀ t ∈ (restingOrders b).map Order.ts, t < o.ts)
    (hts2 : o.ts ∉ b.trades.map Trade.ts)
    (hts3 : o.ts ≤ b.seq)
    (hid : o.id ∉ restingIds b)
    (hlt : ∀ pq ∈ b.bids, pq.1 < p) :
    Inv (rest_limit b o) := by
  rw [rest_limit_sell_eq hside hprice]
  have hF9 : ∀ q', alookup b.asks p = some q' → (alookup b.asks p).getD [] = q' := by
    intro q' h
    rw [h]
    rfl
  have hF1 : ∀ pq' ∈ aset b.asks p (((alookup b.asks p).getD []) ++ [o]),
      (pq' ∈ b.asks ∧ pq'.1 ≠ p) ∨ pq' = (p, ((alookup b.asks p).getD []) ++ [o]) := by
    intro pq' hpq'
    by_cases hk : pq'.1 = p
    · exact Or.inr (mem_aset_eq_of_nodup hinv.asksKeysNodup hpq' hk)
    · exact Or.inl ⟨(mem_aset_of_ne hk).1 hpq', hk⟩
  have hF2 : ((aset b.asks p (((alookup b.asks p).getD []) ++ [o])).map Prod.fst).Nodup :=
    aset_keys_nodup _ hinv.asksKeysNodup
  have hF4 : ∀ o2 ∈ (alookup b.asks p).getD [], o2 ∈ levelsOrders b.asks ∧
      (o2.side = Side.sell ∧ o2.price = some p ∧ o2.order_type = OrderType.limit ∧
        0 < o2.remaining ∧ o2.remaining ≤ o2.qty ∧ 0 < o2.qty) ∧
      (o2.id, (Side.sell, p)) ∈ b.id_index := by
    intro o2 ho2
    cases hcase : alookup b.asks p with
    | none =>
      rw [hcase] at ho2
      simp at ho2
    | some q =>
      rw [hcase] at ho2
      have hm : (p, q) ∈ b.asks := alookup_mem hcase
      exact ⟨mem_levelsOrders.2 ⟨(p, q), hm, ho2⟩, hinv.asksOrders _ hm o2 ho2,
        hinv.idxCompleteAsks _ hm o2 ho2⟩
  have hF5 : strictFifoLevel ((alookup b.asks p).getD []) := by
    cases hcase : alookup b.asks p with
    | none => exact List.chain'_nil
    | some q => exact hinv.asksFifo _ (alookup_mem hcase)
  have hF3 : (levelsOrders (aset b.asks p (((alookup b.asks p).getD []) ++ [o]))).Perm
      (o :: levelsOrders b.asks) := by
    cases hcase : alookup b.asks p with
    | none =>
      simp only [Option.getD_none, List.nil_append]
      rw [show aset b.asks p [o] = b.asks ++ [(p, [o])] from aset_not_mem_eq _ hcase]
      rw [levelsOrders_append]
      have h2 : levelsOrders [(p, [o])] = [o] := rfl
      rw [h2]
      have h3 := @List.perm_middle _ o (levelsOrders b.asks) ([] : List Order)
      simpa using h3
    | some q =>
      simp only [Option.getD_some]
      exact levelsOrders_aset_perm o hinv.asksKeysNodup (alookup_mem hcase)
  have hpermIds : ((levelsOrders (aset b.asks p (((alookup b.asks p).getD []) ++ [o]))).map
      Order.id).Perm (o.id :: (levelsOrders b.asks).map Order.id) := hF3.map Order.id
  have hpermTs : ((levelsOrders (aset b.asks p (((alookup b.asks p).getD []) ++ [o]))).map
      Order.ts).Perm (o.ts :: (levelsOrders b.asks).map Order.ts) := hF3.map Order.ts
  have hF7 : ∀ pq' ∈ aset b.asks p (((alookup b.asks p).getD []) ++ [o]),
      pq'.1 ∈ (if liveLevel b.asks p then b.ask_heap else hpush b.ask_heap p) := by
    intro pq' hpq'
    by_cases hl : liveLevel b.asks p
    · rw [if_pos hl]
      rcases hF1 pq' hpq' with ⟨hm, -⟩ | heq
      · exact hinv.askHeapCover pq' hm
      · rcases liveLevel_iff.1 hl with ⟨q', hq', -⟩
        have : pq'.1 = p := by rw [heq]
        rw [this]
        exact hinv.askHeapCover (p, q') (alookup_mem hq')
    · rw [if_neg hl]
      rcases hF1 pq' hpq' with ⟨hm, -⟩ | heq
      · exact mem_hpush.2 (Or.inr (hinv.askHeapCover pq' hm))
      · have : pq'.1 = p := by rw [heq]
        rw [this]
        exact mem_hpush.2 (Or.inl rfl)
  have hF8 : List.Sorted (· ≤ ·)
      (if liveLevel b.asks p then b.ask_heap else hpush b.ask_heap p) := by
    by_cases hl : liveLevel b.asks p
    · rw [if_pos hl]; exact hinv.askHeapSorted
    · rw [if_neg hl]; exact sorted_hpush hinv.askHeapSorted
  refine { bidsKeysNodup := hinv.bidsKeysNodup, asksKeysNodup := hF2,
           bidsNonEmpty := hinv.bidsNonEmpty, asksNonEmpty := ?_,
           bidsOrders := hinv.bidsOrders, asksOrders := ?_,
           bidsFifo := hinv.bidsFifo, asksFifo := ?_, noncross := ?_,
           bidHeapSorted := hinv.bidHeapSorted, askHeapSorted := hF8,
           bidHeapCover := hinv.bidHeapCover, askHeapCover := hF7,
           idxKeysNodup := aset_keys_nodup _ hinv.idxKeysNodup,
           idxSound := ?_, idxCompleteBids := ?_, idxCompleteAsks := ?_,
           idsNodup := ?_, tsNodup := ?_, tsBound := ?_,
           tradesChrono := hinv.tradesChrono }
  · intro pq hpq
    rcases hF1 pq hpq with ⟨hm, -⟩ | heq
    · exact hinv.asksNonEmpty pq hm
    · rw [heq]
      simp
  · intro pq hpq o2 ho2
    rcases hF1 pq hpq with ⟨hm, -⟩ | heq
    · exact hinv.asksOrders pq hm o2 ho2
    · have hkey : pq.1 = p := by rw [heq]
      have hq2 : pq.2 = ((alookup b.asks p).getD []) ++ [o] := by rw [heq]
      rw [hq2] at ho2
      rw [hkey]
      rcases List.mem_append.1 ho2 with h | h
      · exact (hF4 o2 h).2.1
      · have ho2e : o2 = o := List.mem_singleton.1 h
        rw [ho2e]
        exact ⟨hside, hprice, htype, hrem, hrq, hq0⟩
  · intro pq hpq
    rcases hF1 pq hpq with ⟨hm, -⟩ | heq
    · exact hinv.asksFifo pq hm
    · have hq2 : pq.2 = ((alookup b.asks p).getD []) ++ [o] := by rw [heq]
      rw [hq2]
      rw [strictFifoLevel, List.chain'_append]
      refine ⟨hF5, List.chain'_singleton o, ?_⟩
      intro x hx y hy
      have hye : y = o := List.mem_singleton.1 (List.mem_of_mem_head? hy)
      rw [hye]
      obtain ⟨hne, hxe⟩ := List.mem_getLast?_eq_getLast hx
      have hxm : x ∈ (alookup b.asks p).getD [] := by
        rw [hxe]
        exact List.getLast_mem hne
      apply hts1
      rcases hF4 x hxm with ⟨hxl, -, -⟩
      exact List.mem_map.2 ⟨x, List.mem_append_right _ hxl, rfl⟩
  · intro pq hpq pq' hpq'
    rcases hF1 pq' hpq' with ⟨hm, -⟩ | heq
    · exact hinv.noncross pq hpq pq' hm
    · have hkey : pq'.1 = p := by rw [heq]
      rw [hkey]
      exact hlt pq hpq
  · intro e he
    by_cases hk : e.1 = o.id
    · have heq : e = (o.id, (Side.sell, p)) :=
        mem_aset_eq_of_nodup hinv.idxKeysNodup he hk
      rw [heq]
      refine ⟨((alookup b.asks p).getD []) ++ [o], ?_, ?_⟩
      · show alookup (aset b.asks p (((alookup b.asks p).getD []) ++ [o])) p = _
        exact alookup_aset_self _ _ _
      · exact List.mem_map.2 ⟨o, List.mem_append_right _ (List.mem_singleton.2 rfl), rfl⟩
    · have he' : e ∈ b.id_index := (mem_aset_of_ne hk).1 he
      obtain ⟨q', hq', hiq'⟩ := hinv.idxSound e he'
      cases hs : e.2.1 with
      | buy =>
        rw [hs] at hq'
        exact ⟨q', hq', hiq'⟩
      | sell =>
        rw [hs] at hq'
        by_cases hpp : e.2.2 = p
        · rw [hpp] at hq'
          have hg : (alookup b.asks p).getD [] = q' := hF9 q' hq'
          refine ⟨((alookup b.asks p).getD []) ++ [o], ?_, ?_⟩
          · show alookup (aset b.asks p (((alookup b.asks p).getD []) ++ [o])) e.2.2 = _
            rw [hpp]
            exact alookup_aset_self _ _ _
          · rw [hg]
            rcases List.mem_map.1 hiq' with ⟨o2, ho2, hid2⟩
            exact List.mem_map.2 ⟨o2, List.mem_append_left _ ho2, hid2⟩
        · refine ⟨q', ?_, hiq'⟩
          show alookup (aset b.asks p (((alookup b.asks p).getD []) ++ [o])) e.2.2 = _
          rw [alookup_aset_ne _ _ _ _ hpp]
          exact hq'
  · intro pq hpq o2 ho2
    show (o2.id, (Side.buy, pq.1)) ∈ aset b.id_index o.id (Side.sell, p)
    have hbase := hinv.idxCompleteBids pq hpq o2 ho2
    have hne : o2.id ≠ o.id := by
      intro hc
      apply hid
      rw [← hc, restingIds_eq]
      exact List.mem_append_left _
        (List.mem_map.2 ⟨o2, mem_levelsOrders.2 ⟨pq, hpq, ho2⟩, rfl⟩)
    exact (mem_aset_of_ne (by simpa using hne)).2 hbase
  · intro pq hpq o2 ho2
    show (o2.id, (Side.sell, pq.1)) ∈ aset b.id_index o.id (Side.sell, p)
    rcases hF1 pq hpq with ⟨hm, -⟩ | heq
    · have hbase := hinv.idxCompleteAsks pq hm o2 ho2
      have hne : o2.id ≠ o.id := by
        intro hc
        apply hid
        rw [← hc, restingIds_eq]
        exact List.mem_append_right _
          (List.mem_map.2 ⟨o2, mem_levelsOrders.2 ⟨pq, hm, ho2⟩, rfl⟩)
      exact (mem_aset_of_ne (by simpa using hne)).2 hbase
    · have hkey : pq.1 = p := by rw [heq]
      have hq2 : pq.2 = ((alookup b.asks p).getD []) ++ [o] := by rw [heq]
      rw [hq2] at ho2
      rw [hkey]
      rcases List.mem_append.1 ho2 with h | h
      · have hbase := (hF4 o2 h).2.2
        have hne : o2.id ≠ o.id := by
          intro hc
          apply hid
          rw [← hc, restingIds_eq]
          exact List.mem_append_right _ (List.mem_map.2 ⟨o2, (hF4 o2 h).1, rfl⟩)
        exact (mem_aset_of_ne (by simpa using hne)).2 hbase
      · have ho2e : o2 = o := List.mem_singleton.1 h
        rw [ho2e]
        exact alookup_mem (alookup_aset_self b.id_index o.id (Side.sell, p))
  · rw [restingIds_eq]
    have hperm : ((levelsOrders b.bids).map Order.id
        ++ (levelsOrders (aset b.asks p (((alookup b.asks p).getD []) ++ [o]))).map
          Order.id).Perm
        (o.id :: ((levelsOrders b.bids).map Order.id ++ (levelsOrders b.asks).map Order.id)) :=
      (List.Perm.append_left _ hpermIds).trans List.perm_middle
    refine hperm.nodup_iff.2 ?_
    rw [List.nodup_cons]
    refine ⟨?_, by rw [← restingIds_eq]; exact hinv.idsNodup⟩
    rw [← restingIds_eq]
    exact hid
  · rw [assignedTs_eq]
    have hperm : (((levelsOrders b.bids).map Order.ts
        ++ (levelsOrders (aset b.asks p (((alookup b.asks p).getD []) ++ [o]))).map Order.ts)
        ++ b.trades.map Trade.ts).Perm (o.ts :: assignedTs b) := by
      rw [assignedTs_eq]
      have h1 : ((levelsOrders b.bids).map Order.ts
          ++ (levelsOrders (aset b.asks p (((alookup b.asks p).getD []) ++ [o]))).map
            Order.ts).Perm
          (o.ts :: ((levelsOrders b.bids).map Order.ts ++ (levelsOrders b.asks).map Order.ts)) :=
        (List.Perm.append_left _ hpermTs).trans List.perm_middle
      have h2 := h1.append_right (b.trades.map Trade.ts)
      simpa using h2
    refine hperm.nodup_iff.2 ?_
    rw [List.nodup_cons]
    refine ⟨?_, hinv.tsNodup⟩
    intro hc
    rw [assignedTs] at hc
    rcases List.mem_append.1 hc with h | h
    · exact absurd rfl (Nat.ne_of_gt (hts1 o.ts h))
    · exact hts2 h
  · intro t ht
    show t ≤ b.seq
    rw [assignedTs_eq] at ht
    have hperm : (((levelsOrders b.bids).map Order.ts
        ++ (levelsOrders (aset b.asks p (((alookup b.asks p).getD []) ++ [o]))).map Order.ts)
        ++ b.trades.map Trade.ts).Perm (o.ts :: assignedTs b) := by
      rw [assignedTs_eq]
      have h1 : ((levelsOrders b.bids).map Order.ts
          ++ (levelsOrders (aset b.asks p (((alookup b.asks p).getD []) ++ [o]))).map
            Order.ts).Perm
          (o.ts :: ((levelsOrders b.bids).map Order.ts ++ (levelsOrders b.asks).map Order.ts)) :=
        (List.Perm.append_left _ hpermTs).trans List.perm_middle
      have h2 := h1.append_right (b.trades.map Trade.ts)
      simpa using h2
    have := hperm.subset ht
    rcases List.mem_cons.1 this with rfl | h
    · exact hts3
    · exact hinv.tsBound t h

/-! ### The FOK availability gate versus book depth -/

/-- Depth of the level stored under one key (0 when the key is absent). -/
def keyDepth (m : List (Int × List Order)) (p : Int) : Int :=
  levelRemSum ((alookup m p).getD [])

/-- Sum of `keyDepth` over the prefix of `keys` the limit allows. -/
def stopSum (m : List (Int × List Order)) (stop : Int → Bool) (keys : List Int) : Int :=
  ((keys.takeWhile (fun p => !stop p)).map (keyDepth m)).sum

theorem stopSum_nonneg {m : List (Int × List Order)} {stop : Int → Bool}
    {keys : List Int} (hpos : ∀ p, 0 ≤ keyDepth m p) :
    0 ≤ stopSum m stop keys := by
  apply List.sum_nonneg
  intro x hx
  rcases List.mem_map.1 hx with ⟨p, -, rfl⟩
  exact hpos p

theorem stopSum_cons_go {m : List (Int × List Order)} {stop : Int → Bool}
    {p : Int} {ps : List Int} (h : stop p = false) :
    stopSum m stop (p :: ps) = keyDepth m p + stopSum m stop ps := by
  simp [stopSum, List.takeWhile_cons, h]

theorem stopSum_cons_stop {m : List (Int × List Order)} {stop : Int → Bool}
    {p : Int} {ps : List Int} (h : stop p = true) :
    stopSum m stop (p :: ps) = 0 := by
  simp [stopSum, List.takeWhile_cons, h]

theorem availLoop_spec {m : List (Int × List Order)} {stop : Int → Bool} {rem : Int}
    (hpos : ∀ p, 0 ≤ keyDepth m p) :
    ∀ (keys : List Int) (tot : Int),
      availLoop m stop rem keys tot ≤ tot + stopSum m stop keys ∧
      (availLoop m stop rem keys tot = tot + stopSum m stop keys
        ∨ rem ≤ availLoop m stop rem keys tot) := by
  intro keys
  induction keys with
  | nil =>
    intro tot
    constructor
    · simp [availLoop, stopSum]
    · left
      simp [availLoop, stopSum]
  | cons p ps ih =>
    intro tot
    cases hstop : stop p with
    | true =>
      rw [availLoop, if_pos hstop, stopSum_cons_stop hstop]
      exact ⟨by simp, Or.inl (by simp)⟩
    | false =>
      rw [availLoop, if_neg (by simp [hstop]), stopSum_cons_go hstop]
      by_cases hearly : rem ≤ tot + levelRemSum ((alookup m p).getD [])
      · rw [if_pos hearly]
        have h1 : (0:Int) ≤ stopSum m stop ps := stopSum_nonneg hpos
        have h2 : keyDepth m p = levelRemSum ((alookup m p).getD []) := rfl
        constructor
        · omega
        · right
          exact hearly
      · rw [if_neg hearly]
        obtain ⟨hle, hd⟩ := ih (tot + levelRemSum ((alookup m p).getD []))
        have h2 : keyDepth m p = levelRemSum ((alookup m p).getD []) := rfl
        constructor
        · omega
        · rcases hd with h | h
          · left
            omega
          · right
            exact h

theorem takeWhile_eq_filter_of_pairwise {P : Int → Bool} {R : Int → Int → Prop}
    {keys : List Int} (hp : List.Pairwise R keys)
    (hdc : ∀ a b, R a b → P b = true → P a = true) :
    keys.takeWhile P = keys.filter P := by
  induction keys with
  | nil => rfl
  | cons k ks ih =>
    rw [List.pairwise_cons] at hp
    cases hk : P k with
    | true =>
      rw [List.takeWhile_cons, List.filter_cons, hk, if_pos rfl, if_pos rfl, ih hp.2]
    | false =>
      have hne : ¬ (false = true) := by simp
      rw [List.takeWhile_cons, List.filter_cons, hk, if_neg hne, if_neg hne]
      have : ks.filter P = [] := by
        apply List.filter_eq_nil.2
        intro a ha hPa
        have := hdc k a (hp.1 a ha) hPa
        rw [hk] at this
        cases this
      rw [this]

theorem filter_keys_sum {P : Int → Bool} {m : List (Int × List Order)}
    (hnd : (m.map Prod.fst).Nodup) :
    ((((m.map Prod.fst).filter P).map (keyDepth m)).sum) = depthWithinP P m := by
  induction m with
  | nil => simp [depthWithinP]
  | cons e rest ih =>
    simp only [List.map_cons, List.nodup_cons] at hnd
    rw [depthWithinP_cons]
    simp only [List.map_cons, List.filter_cons]
    have hdepth_e : keyDepth (e :: rest) e.1 = levelRemSum e.2 := by
      simp [keyDepth, alookup]
    have hmap_eq : ((rest.map Prod.fst).filter P).map (keyDepth (e :: rest))
        = ((rest.map Prod.fst).filter P).map (keyDepth rest) := by
      apply List.map_congr_left
      intro p hpmem
      have hp : p ∈ rest.map Prod.fst := List.mem_of_mem_filter hpmem
      have hne : e.1 ≠ p := fun hc => hnd.1 (hc ▸ hp)
      simp [keyDepth, alookup, hne]
    cases hP : P e.1 with
    | true =>
      rw [if_pos rfl, if_pos rfl]
      simp only [List.map_cons, List.sum_cons]
      rw [hdepth_e, hmap_eq, ih hnd.2]
    | false =>
      have hne : ¬ (false = true) := by simp
      rw [if_neg hne, if_neg hne, hmap_eq, ih hnd.2]
      omega

theorem stopSum_perm {m : List (Int × List Order)} {stop : Int → Bool}
    {keys1 keys2 : List Int} (hperm : keys1.Perm keys2) (P : Int → Bool)
    (hPs : keys1.takeWhile (fun p => !stop p) = keys1.filter P)
    (hnd : (m.map Prod.fst).Nodup) (hk2 : keys2 = m.map Prod.fst) :
    stopSum m stop keys1 = depthWithinP P m := by
  rw [stopSum, hPs]
  have h1 : (keys1.filter P).Perm ((m.map Prod.fst).filter P) := by
    rw [← hk2]
    exact hperm.filter P
  have h2 := (h1.map (keyDepth m)).sum_eq
  rw [h2]
  exact filter_keys_sum hnd

theorem executable_available_buy_iff {b : Book} {o : Order} {l : Int}
    (hinv : Inv b) (hside : o.side = Side.buy)
    (htype : o.order_type = OrderType.limit) (hprice : o.price = some l) :
    executable_available b o < o.remaining
      ↔ depthWithinAsks (some l) b.asks < o.remaining := by
  have hpos : ∀ p, 0 ≤ keyDepth b.asks p := by
    intro p
    rw [keyDepth]
    cases hc : alookup b.asks p with
    | none => simp [levelRemSum]
    | some q =>
      simp only [Option.getD_some]
      apply List.sum_nonneg
      intro x hx
      rcases List.mem_map.1 hx with ⟨o2, ho2, rfl⟩
      exact le_of_lt (hinv.asksOrders _ (alookup_mem hc) o2 ho2).2.2.2.1
  have havail : executable_available b o
      = availLoop b.asks (fun p => decide (l < p)) o.remaining
          ((b.asks.map Prod.fst).insertionSort (· ≤ ·)) 0 := by
    unfold executable_available
    rw [hside, htype, hprice]
    rfl
  obtain ⟨hle, hd⟩ := @availLoop_spec b.asks (fun p => decide (l < p))
    o.remaining hpos ((b.asks.map Prod.fst).insertionSort (· ≤ ·)) 0
  have hsorted : List.Pairwise (· ≤ ·) ((b.asks.map Prod.fst).insertionSort (· ≤ ·)) :=
    List.sorted_insertionSort _ _
  have htf : ((b.asks.map Prod.fst).insertionSort (· ≤ ·)).takeWhile
        (fun p => !(decide (l < p)))
      = ((b.asks.map Prod.fst).insertionSort (· ≤ ·)).filter (fun p => decide (p ≤ l)) := by
    have hfun : (fun p : Int => !(decide (l < p))) = (fun p : Int => decide (p ≤ l)) := by
      funext p
      rcases lt_or_le l p with h | h
      · rw [decide_eq_true h, decide_eq_false (by omega : ¬ p ≤ l)]
        rfl
      · rw [decide_eq_false (by omega : ¬ l < p), decide_eq_true h]
        rfl
    rw [hfun]
    exact takeWhile_eq_filter_of_pairwise hsorted
      (fun a c hac hcl => by
        simp only [decide_eq_true_eq] at *
        omega)
  have hsum : stopSum b.asks (fun p => decide (l < p))
        ((b.asks.map Prod.fst).insertionSort (· ≤ ·))
      = depthWithinP (fun p => decide (p ≤ l)) b.asks :=
    stopSum_perm (List.perm_insertionSort _ _) _ htf hinv.asksKeysNodup rfl
  have hdw : depthWithinAsks (some l) b.asks = depthWithinP (fun p => decide (p ≤ l)) b.asks := by
    rfl
  rw [havail, hdw, ← hsum]
  constructor
  · intro h
    rcases hd with he | he <;> omega
  · intro h
    omega

theorem executable_available_sell_iff {b : Book} {o : Order} {l : Int}
    (hinv : Inv b) (hside : o.side = Side.sell)
    (htype : o.order_type = OrderType.limit) (hprice : o.price = some l) :
    executable_available b o < o.remaining
      ↔ depthWithinBids (some l) b.bids < o.remaining := by
  have hpos : ∀ p, 0 ≤ keyDepth b.bids p := by
    intro p
    rw [keyDepth]
    cases hc : alookup b.bids p with
    | none => simp [levelRemSum]
    | some q =>
      simp only [Option.getD_some]
      apply List.sum_nonneg
      intro x hx
      rcases List.mem_map.1 hx with ⟨o2, ho2, rfl⟩
      exact le_of_lt (hinv.bidsOrders _ (alookup_mem hc) o2 ho2).2.2.2.1
  have havail : executable_available b o
      = availLoop b.bids (fun p => decide (p < l)) o.remaining
          (((b.bids.map Prod.fst).insertionSort (· ≤ ·)).reverse) 0 := by
    unfold executable_available
    rw [hside, htype, hprice]
    rfl
  obtain ⟨hle, hd⟩ := @availLoop_spec b.bids (fun p => decide (p < l))
    o.remaining hpos (((b.bids.map Prod.fst).insertionSort (· ≤ ·)).reverse) 0
  have hsorted : List.Pairwise (fun a c : Int => c ≤ a)
      (((b.bids.map Prod.fst).insertionSort (· ≤ ·)).reverse) := by
    rw [List.pairwise_reverse]
    exact List.sorted_insertionSort _ _
  have htf : (((b.bids.map Prod.fst).insertionSort (· ≤ ·)).reverse).takeWhile
        (fun p => !(decide (p < l)))
      = (((b.bids.map Prod.fst).insertionSort (· ≤ ·)).reverse).filter
          (fun p => decide (l ≤ p)) := by
    have hfun : (fun p : Int => !(decide (p < l))) = (fun p : Int => decide (l ≤ p)) := by
      funext p
      rcases lt_or_le p l with h | h
      · rw [decide_eq_true h, decide_eq_false (by omega : ¬ l ≤ p)]
        rfl
      · rw [decide_eq_false (by omega : ¬ p < l), decide_eq_true h]
        rfl
    rw [hfun]
    exact takeWhile_eq_filter_of_pairwise hsorted
      (fun a c hac hcl => by
        simp only [decide_eq_true_eq] at *
        omega)
  have hperm : (((b.bids.map Prod.fst).insertionSort (· ≤ ·)).reverse).Perm
      (b.bids.map Prod.fst) :=
    (List.reverse_perm _).trans (List.perm_insertionSort _ _)
  have hsum : stopSum b.bids (fun p => decide (p < l))
        (((b.bids.map Prod.fst).insertionSort (· ≤ ·)).reverse)
      = depthWithinP (fun p => decide (l ≤ p)) b.bids :=
    stopSum_perm hperm _ htf hinv.bidsKeysNodup rfl
  have hdw : depthWithinBids (some l) b.bids = depthWithinP (fun p => decide (l ≤ p)) b.bids := by
    rfl
  rw [havail, hdw, ← hsum]
  constructor
  · intro h
    rcases hd with he | he <;> omega
  · intro h
    omega

/-! ### Unfolding lemmas and walk wrappers for `add` -/

theorem take_from_asks_spec {b : Book} {o : Order} {lp : Option Int} {tif : TimeInForce}
    (hinv : Inv b) :
    ∃ w : WalkRes, AskWalk o.id lp o.remaining b w ∧
      take_from_asks b o lp tif
        = ({ o with remaining := if tif = TimeInForce.ioc then 0 else w.rem },
           w.book, w.trs) := by
  refine ⟨takeFromAsksGo o.id lp (b.asks.length + b.ask_heap.length + 1) o.remaining b,
    ?_, rfl⟩
  exact takeFromAsksGo_spec hinv (by omega) rfl

theorem take_from_bids_spec {b : Book} {o : Order} {lp : Option Int} {tif : TimeInForce}
    (hinv : Inv b) :
    ∃ w : WalkRes, BidWalk o.id lp o.remaining b w ∧
      take_from_bids b o lp tif
        = ({ o with remaining := if tif = TimeInForce.ioc then 0 else w.rem },
           w.book, w.trs) := by
  refine ⟨takeFromBidsGo o.id lp (b.bids.length + b.bid_heap.length + 1) o.remaining b,
    ?_, rfl⟩
  exact takeFromBidsGo_spec hinv (by omega) rfl

theorem add_market_eq {b : Book} {o : Order} (h : o.order_type = OrderType.market) :
    add b o = execute_market { b with seq := b.seq + 1 } { o with ts := b.seq + 1 } := by
  simp only [add]
  rw [if_pos h]

theorem add_limit_eq {b : Book} {o : Order} (h : o.order_type = OrderType.limit) :
    add b o =
      (let r := execute_limit_against_opposite { b with seq := b.seq + 1 }
         { o with ts := b.seq + 1 }
       if 0 < r.1.remaining ∧ r.1.tif ≠ TimeInForce.ioc ∧ r.1.tif ≠ TimeInForce.fok then
         (r.1, rest_limit r.2.1 r.1, r.2.2)
       else if r.1.tif = TimeInForce.fok ∧ 0 < r.1.remaining then
         ({ r.1 with remaining := 0 }, r.2.1, r.2.2)
       else (r.1, r.2.1, r.2.2)) := by
  simp only [add]
  rw [if_neg (by rw [h]; intro hc; cases hc)]

theorem execute_market_buy_eq {b : Book} {o : Order} (h : o.side = Side.buy) :
    execute_market b o = take_from_asks b o none o.tif := by
  unfold execute_market
  rw [h]

theorem execute_market_sell_eq {b : Book} {o : Order} (h : o.side = Side.sell) :
    execute_market b o = take_from_bids b o none o.tif := by
  unfold execute_market
  rw [h]

theorem execute_limit_kill_eq {b : Book} {o : Order}
    (hf : o.tif = TimeInForce.fok) (hlt : executable_available b o < o.remaining) :
    execute_limit_against_opposite b o = ({ o with remaining := 0 }, b, []) := by
  unfold execute_limit_against_opposite
  rw [if_pos ⟨hf, hlt⟩]

theorem execute_limit_buy_eq {b : Book} {o : Order}
    (hn : ¬ (o.tif = TimeInForce.fok ∧ executable_available b o < o.remaining))
    (hs : o.side = Side.buy) :
    execute_limit_against_opposite b o
      = take_from_asks b o (some (o.price.getD 0)) o.tif := by
  unfold execute_limit_against_opposite
  rw [if_neg hn, hs]

theorem execute_limit_sell_eq {b : Book} {o : Order}
    (hn : ¬ (o.tif = TimeInForce.fok ∧ executable_available b o < o.remaining))
    (hs : o.side = Side.sell) :
    execute_limit_against_opposite b o
      = take_from_bids b o (some (o.price.getD 0)) o.tif := by
  unfold execute_limit_against_opposite
  rw [if_neg hn, hs]

theorem rest_limit_seq (b : Book) (o : Order) : (rest_limit b o).seq = b.seq := by
  unfold rest_limit
  cases o.side <;> rfl

theorem rest_limit_trades (b : Book) (o : Order) : (rest_limit b o).trades = b.trades := by
  unfold rest_limit
  cases o.side <;> rfl

theorem seqBump_inv {b : Book} (hinv : Inv b) : Inv { b with seq := b.seq + 1 } :=
  inv_seq_mono hinv (by omega)

/-! ### One-shot descriptions of each outcome of `add` -/

theorem add_market_buy_run {b : Book} {o : Order} (hinv : Inv b)
    (htype : o.order_type = OrderType.market) (hside : o.side = Side.buy) :
    ∃ w : WalkRes, AskWalk o.id none o.remaining { b with seq := b.seq + 1 } w ∧
      add b o =
        ({ o with
             ts := b.seq + 1,
             remaining := if o.tif = TimeInForce.ioc then 0 else w.rem },
         w.book, w.trs) := by
  obtain ⟨w, hw, heq⟩ :=
    @take_from_asks_spec { b with seq := b.seq + 1 } { o with ts := b.seq + 1 }
      none (({ o with ts := b.seq + 1 } : Order).tif) (seqBump_inv hinv)
  refine ⟨w, hw, ?_⟩
  rw [add_market_eq htype,
    execute_market_buy_eq (show ({ o with ts := b.seq + 1 } : Order).side = Side.buy from hside),
    heq]

theorem add_market_sell_run {b : Book} {o : Order} (hinv : Inv b)
    (htype : o.order_type = OrderType.market) (hside : o.side = Side.sell) :
    ∃ w : WalkRes, BidWalk o.id none o.remaining { b with seq := b.seq + 1 } w ∧
      add b o =
        ({ o with
             ts := b.seq + 1,
             remaining := if o.tif = TimeInForce.ioc then 0 else w.rem },
         w.book, w.trs) := by
  obtain ⟨w, hw, heq⟩ :=
    @take_from_bids_spec { b with seq := b.seq + 1 } { o with ts := b.seq + 1 }
      none (({ o with ts := b.seq + 1 } : Order).tif) (seqBump_inv hinv)
  refine ⟨w, hw, ?_⟩
  rw [add_market_eq htype,
    execute_market_sell_eq (show ({ o with ts := b.seq + 1 } : Order).side = Side.sell from hside),
    heq]

theorem add_limit_kill_run {b : Book} {o : Order}
    (htype : o.order_type = OrderType.limit) (hf : o.tif = TimeInForce.fok)
    (hkill : executable_available b o < o.remaining) :
    add b o = ({ o with ts := b.seq + 1, remaining := 0 },
      { b with seq := b.seq + 1 }, []) := by
  rw [add_limit_eq htype,
    execute_limit_kill_eq
      (show ({ o with ts := b.seq + 1 } : Order).tif = TimeInForce.fok from hf)
      (show executable_available { b with seq := b.seq + 1 } { o with ts := b.seq + 1 }
        < ({ o with ts := b.seq + 1 } : Order).remaining from hkill)]
  simp [hf]

theorem add_limit_buy_gtc_run {b : Book} {o : Order} (hinv : Inv b)
    (htype : o.order_type = OrderType.limit) (hside : o.side = Side.buy)
    (htif : o.tif = TimeInForce.gtc) :
    ∃ w : WalkRes,
      AskWalk o.id (some (o.price.getD 0)) o.remaining { b with seq := b.seq + 1 } w ∧
      add b o =
        (if 0 < w.rem then
           ({ o with ts := b.seq + 1, remaining := w.rem },
            rest_limit w.book { o with ts := b.seq + 1, remaining := w.rem }, w.trs)
         else ({ o with ts := b.seq + 1, remaining := w.rem }, w.book, w.trs)) := by
  obtain ⟨w, hw, heq⟩ :=
    @take_from_asks_spec { b with seq := b.seq + 1 } { o with ts := b.seq + 1 }
      (some (({ o with ts := b.seq + 1 } : Order).price.getD 0))
      (({ o with ts := b.seq + 1 } : Order).tif) (seqBump_inv hinv)
  refine ⟨w, hw, ?_⟩
  rw [add_limit_eq htype,
    execute_limit_buy_eq
      (fun hc => by
        have h1 : o.tif = TimeInForce.fok := hc.1
        rw [htif] at h1
        exact absurd h1 (by decide))
      (show ({ o with ts := b.seq + 1 } : Order).side = Side.buy from hside),
    heq]
  simp [htif]

theorem add_limit_buy_ioc_run {b : Book} {o : Order} (hinv : Inv b)
    (htype : o.order_type = OrderType.limit) (hside : o.side = Side.buy)
    (htif : o.tif = TimeInForce.ioc) :
    ∃ w : WalkRes,
      AskWalk o.id (some (o.price.getD 0)) o.remaining { b with seq := b.seq + 1 } w ∧
      add b o = ({ o with ts := b.seq + 1, remaining := 0 }, w.book, w.trs) := by
  obtain ⟨w, hw, heq⟩ :=
    @take_from_asks_spec { b with seq := b.seq + 1 } { o with ts := b.seq + 1 }
      (some (({ o with ts := b.seq + 1 } : Order).price.getD 0))
      (({ o with ts := b.seq + 1 } : Order).tif) (seqBump_inv hinv)
  refine ⟨w, hw, ?_⟩
  rw [add_limit_eq htype,
    execute_limit_buy_eq
      (fun hc => by
        have h1 : o.tif = TimeInForce.fok := hc.1
        rw [htif] at h1
        exact absurd h1 (by decide))
      (show ({ o with ts := b.seq + 1 } : Order).side = Side.buy from hside),
    heq]
  simp [htif]

theorem add_limit_buy_fok_run {b : Book} {o : Order} (hinv : Inv b)
    (htype : o.order_type = OrderType.limit) (hside : o.side = Side.buy)
    (htif : o.tif = TimeInForce.fok)
    (hnk : ¬ executable_available b o < o.remaining) :
    ∃ w : WalkRes,
      AskWalk o.id (some (o.price.getD 0)) o.remaining { b with seq := b.seq + 1 } w ∧
      add b o =
        (if 0 < w.rem then ({ o with ts := b.seq + 1, remaining := 0 }, w.book, w.trs)
         else ({ o with ts := b.seq + 1, remaining := w.rem }, w.book, w.trs)) := by
  obtain ⟨w, hw, heq⟩ :=
    @take_from_asks_spec { b with seq := b.seq + 1 } { o with ts := b.seq + 1 }
      (some (({ o with ts := b.seq + 1 } : Order).price.getD 0))
      (({ o with ts := b.seq + 1 } : Order).tif) (seqBump_inv hinv)
  refine ⟨w, hw, ?_⟩
  rw [add_limit_eq htype,
    execute_limit_buy_eq
      (show ¬ (({ o with ts := b.seq + 1 } : Order).tif = TimeInForce.fok ∧
          executable_available { b with seq := b.seq + 1 } { o with ts := b.seq + 1 }
            < ({ o with ts := b.seq + 1 } : Order).remaining) from fun hc => hnk hc.2)
      (show ({ o with ts := b.seq + 1 } : Order).side = Side.buy from hside),
    heq]
  simp [htif]

theorem add_limit_sell_gtc_run {b : Book} {o : Order} (hinv : Inv b)
    (htype : o.order_type = OrderType.limit) (hside : o.side = Side.sell)
    (htif : o.tif = TimeInForce.gtc) :
    ∃ w : WalkRes,
      BidWalk o.id (some (o.price.getD 0)) o.remaining { b with seq := b.seq + 1 } w ∧
      add b o =
        (if 0 < w.rem then
           ({ o with ts := b.seq + 1, remaining := w.rem },
            rest_limit w.book { o with ts := b.seq + 1, remaining := w.rem }, w.trs)
         else ({ o with ts := b.seq + 1, remaining := w.rem }, w.book, w.trs)) := by
  obtain ⟨w, hw, heq⟩ :=
    @take_from_bids_spec { b with seq := b.seq + 1 } { o with ts := b.seq + 1 }
      (some (({ o with ts := b.seq + 1 } : Order).price.getD 0))
      (({ o with ts := b.seq + 1 } : Order).tif) (seqBump_inv hinv)
  refine ⟨w, hw, ?_⟩
  rw [add_limit_eq htype,
    execute_limit_sell_eq
      (fun hc => by
        have h1 : o.tif = TimeInForce.fok := hc.1
        rw [htif] at h1
        exact absurd h1 (by decide))
      (show ({ o with ts := b.seq + 1 } : Order).side = Side.sell from hside),
    heq]
  simp [htif]

theorem add_limit_sell_ioc_run {b : Book} {o : Order} (hinv : Inv b)
    (htype : o.order_type = OrderType.limit) (hside : o.side = Side.sell)
    (htif : o.tif = TimeInForce.ioc) :
    ∃ w : WalkRes,
      BidWalk o.id (some (o.price.getD 0)) o.remaining { b with seq := b.seq + 1 } w ∧
      add b o = ({ o with ts := b.seq + 1, remaining := 0 }, w.book, w.trs) := by
  obtain ⟨w, hw, heq⟩ :=
    @take_from_bids_spec { b with seq := b.seq + 1 } { o with ts := b.seq + 1 }
      (some (({ o with ts := b.seq + 1 } : Order).price.getD 0))
      (({ o with ts := b.seq + 1 } : Order).tif) (seqBump_inv hinv)
  refine ⟨w, hw, ?_⟩
  rw [add_limit_eq htype,
    execute_limit_sell_eq
      (fun hc => by
        have h1 : o.tif = TimeInForce.fok := hc.1
        rw [htif] at h1
        exact absurd h1 (by decide))
      (show ({ o with ts := b.seq + 1 } : Order).side = Side.sell from hside),
    heq]
  simp [htif]

theorem add_limit_sell_fok_run {b : Book} {o : Order} (hinv : Inv b)
    (htype : o.order_type = OrderType.limit) (hside : o.side = Side.sell)
    (htif : o.tif = TimeInForce.fok)
    (hnk : ¬ executable_available b o < o.remaining) :
    ∃ w : WalkRes,
      BidWalk o.id (some (o.price.getD 0)) o.remaining { b with seq := b.seq + 1 } w ∧
      add b o =
        (if 0 < w.rem then ({ o with ts := b.seq + 1, remaining := 0 }, w.book, w.trs)
         else ({ o with ts := b.seq + 1, remaining := w.rem }, w.book, w.trs)) := by
  obtain ⟨w, hw, heq⟩ :=
    @take_from_bids_spec { b with seq := b.seq + 1 } { o with ts := b.seq + 1 }
      (some (({ o with ts := b.seq + 1 } : Order).price.getD 0))
      (({ o with ts := b.seq + 1 } : Order).tif) (seqBump_inv hinv)
  refine ⟨w, hw, ?_⟩
  rw [add_limit_eq htype,
    execute_limit_sell_eq
      (show ¬ (({ o with ts := b.seq + 1 } : Order).tif = TimeInForce.fok ∧
          executable_available { b with seq := b.seq + 1 } { o with ts := b.seq + 1 }
            < ({ o with ts := b.seq + 1 } : Order).remaining) from fun hc => hnk hc.2)
      (show ({ o with ts := b.seq + 1 } : Order).side = Side.sell from hside),
    heq]
  simp [htif]

/-! ### `add` preserves the full invariant -/

theorem add_inv {b : Book} {o : Order} (hinv : Inv b)
    (hq0 : 0 < o.qty) (hrq : o.remaining ≤ o.qty)
    (hvt : o.order_type = OrderType.limit → o.price.isSome)
    (hid : o.id ∉ restingIds b) :
    Inv (add b o).2.1 := by
  cases htype : o.order_type with
  | market =>
    cases hside : o.side with
    | buy =>
      obtain ⟨w, hw, heq⟩ := add_market_buy_run hinv htype hside
      rw [heq]
      exact hw.inv
    | sell =>
      obtain ⟨w, hw, heq⟩ := add_market_sell_run hinv htype hside
      rw [heq]
      exact hw.inv
  | limit =>
    by_cases hkill : o.tif = TimeInForce.fok ∧ executable_available b o < o.remaining
    · rw [add_limit_kill_run htype hkill.1 hkill.2]
      exact seqBump_inv hinv
    · obtain ⟨l, hl⟩ := Option.isSome_iff_exists.1 (hvt htype)
      have hpl : o.price = some (o.price.getD 0) := by rw [hl]; rfl
      cases hside : o.side with
      | buy =>
        cases htif : o.tif with
        | ioc =>
          obtain ⟨w, hw, heq⟩ := add_limit_buy_ioc_run hinv htype hside htif
          rw [heq]
          exact hw.inv
        | fok =>
          obtain ⟨w, hw, heq⟩ :=
            add_limit_buy_fok_run hinv htype hside htif (fun hlt => hkill ⟨htif, hlt⟩)
          rw [heq]
          by_cases hpos : 0 < w.rem
          · rw [if_pos hpos]
            exact hw.inv
          · rw [if_neg hpos]
            exact hw.inv
        | gtc =>
          obtain ⟨w, hw, heq⟩ := add_limit_buy_gtc_run hinv htype hside htif
          rw [heq]
          by_cases hpos : 0 < w.rem
          · rw [if_pos hpos]
            show Inv (rest_limit w.book
              { o with ts := b.seq + 1, remaining := w.rem })
            refine rest_limit_inv_buy hw.inv hside hpl htype hpos
              (le_trans hw.remLe hrq) hq0 ?_ ?_ ?_ ?_ ?_
            · intro t ht
              have h2 : t ∈ (restingOrders b).map Order.ts :=
                askWalk_restingTs_sub hw t ht
              have h3 : t ∈ assignedTs b := List.mem_append_left _ h2
              have h4 := hinv.tsBound t h3
              show t < b.seq + 1
              omega
            · intro hmem
              rw [hw.tradesEq, List.map_append] at hmem
              rcases List.mem_append.1 hmem with h | h
              · have h3 : (b.seq + 1) ∈ assignedTs b := List.mem_append_right _ h
                have h4 := hinv.tsBound _ h3
                omega
              · rw [hw.tsRange] at h
                have h5 : b.seq + 1 + 1 ≤ b.seq + 1 := (List.mem_range'_1.1 h).1
                omega
            · exact le_trans (Nat.le_add_right (b.seq + 1) w.trs.length)
                (le_of_eq hw.seqEq.symm)
            · intro hmem
              exact hid (askWalk_restingIds_sub hw _ hmem)
            · intro pq hpq
              exact hw.stop hpos pq hpq _ rfl
          · rw [if_neg hpos]
            exact hw.inv
      | sell =>
        cases htif : o.tif with
        | ioc =>
          obtain ⟨w, hw, heq⟩ := add_limit_sell_ioc_run hinv htype hside htif
          rw [heq]
          exact hw.inv
        | fok =>
          obtain ⟨w, hw, heq⟩ :=
            add_limit_sell_fok_run hinv htype hside htif (fun hlt => hkill ⟨htif, hlt⟩)
          rw [heq]
          by_cases hpos : 0 < w.rem
          · rw [if_pos hpos]
            exact hw.inv
          · rw [if_neg hpos]
            exact hw.inv
        | gtc =>
          obtain ⟨w, hw, heq⟩ := add_limit_sell_gtc_run hinv htype hside htif
          rw [heq]
          by_cases hpos : 0 < w.rem
          · rw [if_pos hpos]
            show Inv (rest_limit w.book
              { o with ts := b.seq + 1, remaining := w.rem })
            refine rest_limit_inv_sell hw.inv hside hpl htype hpos
              (le_trans hw.remLe hrq) hq0 ?_ ?_ ?_ ?_ ?_
            · intro t ht
              have h2 : t ∈ (restingOrders b).map Order.ts :=
                bidWalk_restingTs_sub hw t ht
              have h3 : t ∈ assignedTs b := List.mem_append_left _ h2
              have h4 := hinv.tsBound t h3
              show t < b.seq + 1
              omega
            · intro hmem
              rw [hw.tradesEq, List.map_append] at hmem
              rcases List.mem_append.1 hmem with h | h
              · have h3 : (b.seq + 1) ∈ assignedTs b := List.mem_append_right _ h
                have h4 := hinv.tsBound _ h3
                omega
              · rw [hw.tsRange] at h
                have h5 : b.seq + 1 + 1 ≤ b.seq + 1 := (List.mem_range'_1.1 h).1
                omega
            · exact le_trans (Nat.le_add_right (b.seq + 1) w.trs.length)
                (le_of_eq hw.seqEq.symm)
            · intro hmem
              exact hid (bidWalk_restingIds_sub hw _ hmem)
            · intro pq hpq
              exact hw.stop hpos pq hpq _ rfl
          · rw [if_neg hpos]
            exact hw.inv

/-! ### The drain-and-rebuild loops of `cancel` and `_extract_order` -/

theorem cancelDrain_found (oid : Int) :
    ∀ (q : List Order) (c : Int) (acc : List Order),
      cancelDrain oid q true c acc = (c, acc ++ q) := by
  intro q
  induction q with
  | nil =>
    intro c acc
    simp [cancelDrain]
  | cons o rest ih =>
    intro c acc
    rw [cancelDrain, if_neg (by simp), ih]
    simp

theorem cancelDrain_not_mem (oid : Int) :
    ∀ (q : List Order) (c : Int) (acc : List Order),
      (∀ x ∈ q, x.id ≠ oid) →
      cancelDrain oid q false c acc = (c, acc ++ q) := by
  intro q
  induction q with
  | nil =>
    intro c acc _
    simp [cancelDrain]
  | cons o rest ih =>
    intro c acc h
    rw [cancelDrain, if_neg (fun hc => h o (by simp) hc.1),
      ih c (acc ++ [o]) (fun x hx => h x (by simp [hx]))]
    simp

theorem cancelDrain_split (oid : Int) {c : Order} (hc : c.id = oid) :
    ∀ (q1 : List Order) (q2 : List Order) (cc : Int) (acc : List Order),
      (∀ x ∈ q1, x.id ≠ oid) →
      cancelDrain oid (q1 ++ c :: q2) false cc acc = (c.remaining, acc ++ (q1 ++ q2)) := by
  intro q1
  induction q1 with
  | nil =>
    intro q2 cc acc _
    rw [List.nil_append, cancelDrain, if_pos ⟨hc, by simp⟩, cancelDrain_found]
    simp
  | cons o rest ih =>
    intro q2 cc acc h
    rw [List.cons_append, cancelDrain, if_neg (fun hcon => h o (by simp) hcon.1),
      ih q2 cc (acc ++ [o]) (fun x hx => h x (by simp [hx]))]
    simp

theorem extractDrain_found (oid : Int) :
    ∀ (q : List Order) (t : Order) (acc : List Order),
      extractDrain oid q (some t) acc = (some t, acc ++ q) := by
  intro q
  induction q with
  | nil =>
    intro t acc
    simp [extractDrain]
  | cons o rest ih =>
    intro t acc
    rw [extractDrain, if_neg (by simp), ih]
    simp

theorem extractDrain_not_mem (oid : Int) :
    ∀ (q : List Order) (acc : List Order),
      (∀ x ∈ q, x.id ≠ oid) →
      extractDrain oid q none acc = (none, acc ++ q) := by
  intro q
  induction q with
  | nil =>
    intro acc _
    simp [extractDrain]
  | cons o rest ih =>
    intro acc h
    rw [extractDrain, if_neg (fun hc => h o (by simp) hc.1),
      ih (acc ++ [o]) (fun x hx => h x (by simp [hx]))]
    simp

theorem extractDrain_split (oid : Int) {c : Order} (hc : c.id = oid) :
    ∀ (q1 : List Order) (q2 : List Order) (acc : List Order),
      (∀ x ∈ q1, x.id ≠ oid) →
      extractDrain oid (q1 ++ c :: q2) none acc = (some c, acc ++ (q1 ++ q2)) := by
  intro q1
  induction q1 with
  | nil =>
    intro q2 acc _
    rw [List.nil_append, extractDrain, if_pos ⟨hc, rfl⟩, extractDrain_found]
    simp
  | cons o rest ih =>
    intro q2 acc h
    rw [List.cons_append, extractDrain, if_neg (fun hcon => h o (by simp) hcon.1),
      ih q2 (acc ++ [o]) (fun x hx => h x (by simp [hx]))]
    simp

/-- Locating a resting order from its index entry: under the invariant
the index points at a level that really holds the id, exactly once. -/
theorem idx_split {b : Book} (hinv : Inv b) {oid : Int} {side : Side} {price : Int}
    (hidx : alookup b.id_index oid = some (side, price)) :
    ∃ q1 c q2, alookup (sideBook b side) price = some (q1 ++ c :: q2) ∧ c.id = oid ∧
      (∀ x ∈ q1, x.id ≠ oid) ∧ (∀ x ∈ q2, x.id ≠ oid) := by
  have hmem := alookup_mem hidx
  obtain ⟨q, hq, hidq⟩ := hinv.idxSound (oid, (side, price)) hmem
  rcases List.mem_map.1 hidq with ⟨c, hcq, hcid0⟩
  have hcid : c.id = oid := hcid0
  obtain ⟨q1, q2, rfl⟩ := List.append_of_mem hcq
  have hq' : alookup (sideBook b side) price = some (q1 ++ c :: q2) := hq
  have hsidend : ((levelsOrders (sideBook b side)).map Order.id).Nodup := by
    have hall := hinv.idsNodup
    rw [restingIds_eq] at hall
    cases side with
    | buy => exact (List.nodup_append.1 hall).1
    | sell => exact (List.nodup_append.1 hall).2.1
  have hnd : (((q1 ++ c :: q2)).map Order.id).Nodup :=
    level_map_nodup hsidend (alookup_mem hq')
  rw [List.map_append, List.map_cons] at hnd
  have hparts := List.nodup_append.1 hnd
  refine ⟨q1, c, q2, hq', hcid, ?_, ?_⟩
  · intro x hx hxid
    exact hparts.2.2 (List.mem_map.2 ⟨x, hx, rfl⟩)
      (by rw [hxid, ← hcid]; exact List.mem_cons_self _ _)
  · intro x hx hxid
    exact (List.nodup_cons.1 hparts.2.1).1
      (List.mem_map.2 ⟨x, hx, by rw [hxid, ← hcid]⟩)

/-! ### Removing one resting order preserves the invariant -/

theorem remove_inv_buy {b : Book} {price : Int} {q1 q2 : List Order} {c : Order}
    (hinv : Inv b) (hlook : alookup b.bids price = some (q1 ++ c :: q2)) :
    Inv { b with
      bids := if (q1 ++ q2).isEmpty then aerase b.bids price
              else aset b.bids price (q1 ++ q2),
      id_index := aerase b.id_index c.id } := by
  have hmem : (price, q1 ++ c :: q2) ∈ b.bids := alookup_mem hlook
  have hids : ((q1 ++ q2).map Order.id).Sublist ((q1 ++ c :: q2).map Order.id) := by
    simp only [List.map_append, List.map_cons]
    exact (List.Sublist.refl _).append (List.sublist_cons_self _ _)
  have htss : ((q1 ++ q2).map Order.ts).Sublist ((q1 ++ c :: q2).map Order.ts) := by
    simp only [List.map_append, List.map_cons]
    exact (List.Sublist.refl _).append (List.sublist_cons_self _ _)
  have hu := levelsUpd_spec hinv.bidsKeysNodup hmem hids htss
  have hall := hinv.idsNodup
  rw [restingIds_eq] at hall
  have hbnd : ((levelsOrders b.bids).map Order.id).Nodup := (List.nodup_append.1 hall).1
  have hdisj : List.Disjoint ((levelsOrders b.bids).map Order.id)
      ((levelsOrders b.asks).map Order.id) := (List.nodup_append.1 hall).2.2
  have hcmem : c ∈ levelsOrders b.bids := mem_levelsOrders.2 ⟨_, hmem, by simp⟩
  have hlevnd : ((q1 ++ c :: q2).map Order.id).Nodup := level_map_nodup hbnd hmem
  have hmidne : ∀ x ∈ q1 ++ q2, x.id ≠ c.id := by
    rw [List.map_append, List.map_cons] at hlevnd
    have hparts := List.nodup_append.1 hlevnd
    intro x hx hxid
    rcases List.mem_append.1 hx with h | h
    · exact hparts.2.2 (List.mem_map.2 ⟨x, h, rfl⟩)
        (by rw [hxid]; exact List.mem_cons_self _ _)
    · exact (List.nodup_cons.1 hparts.2.1).1 (List.mem_map.2 ⟨x, h, hxid⟩)
  have hmidsub : ∀ x ∈ q1 ++ q2, x ∈ (q1 ++ c :: q2) := by
    intro x hx
    rcases List.mem_append.1 hx with h | h
    · exact List.mem_append_left _ h
    · exact List.mem_append_right _ (List.mem_cons_of_mem _ h)
  refine { bidsKeysNodup := hu.keysNodup, asksKeysNodup := hinv.asksKeysNodup,
           bidsNonEmpty := ?_, asksNonEmpty := hinv.asksNonEmpty,
           bidsOrders := ?_, asksOrders := hinv.asksOrders,
           bidsFifo := ?_, asksFifo := hinv.asksFifo,
           noncross := ?_, bidHeapSorted := hinv.bidHeapSorted,
           askHeapSorted := hinv.askHeapSorted,
           bidHeapCover := ?_, askHeapCover := hinv.askHeapCover,
           idxKeysNodup := aerase_keys_nodup hinv.idxKeysNodup,
           idxSound := ?_, idxCompleteBids := ?_, idxCompleteAsks := ?_,
           idsNodup := ?_, tsNodup := ?_, tsBound := ?_,
           tradesChrono := hinv.tradesChrono }
  · intro pq hpq
    rcases hu.memCases pq hpq with h | ⟨heq, hne⟩
    · exact hinv.bidsNonEmpty pq h.1
    · rw [heq]
      exact hne
  · intro pq hpq o ho
    rcases hu.memCases pq hpq with h | ⟨heq, hne⟩
    · exact hinv.bidsOrders pq h.1 o ho
    · have ho2 : o ∈ q1 ++ q2 := by rw [heq] at ho; exact ho
      have h3 := hinv.bidsOrders _ hmem o (hmidsub o ho2)
      rw [heq]
      exact h3
  · intro pq hpq
    rcases hu.memCases pq hpq with h | ⟨heq, hne⟩
    · exact hinv.bidsFifo pq h.1
    · rw [heq]
      exact strictFifo_of_ts_sublist (hinv.bidsFifo _ hmem) htss
  · intro pq hpq pq' hpq'
    rcases hu.memCases pq hpq with h | ⟨heq, hne⟩
    · exact hinv.noncross pq h.1 pq' hpq'
    · rw [heq]
      exact hinv.noncross _ hmem pq' hpq'
  · intro pq hpq
    have hk : pq.1 ∈ b.bids.map Prod.fst :=
      hu.keysSub pq.1 (List.mem_map.2 ⟨pq, hpq, rfl⟩)
    rcases List.mem_map.1 hk with ⟨pq0, hpq0, hk0⟩
    rw [← hk0]
    exact hinv.bidHeapCover pq0 hpq0
  · intro e he
    have he' := mem_aerase.1 he
    obtain ⟨q, hq, hiq⟩ := hinv.idxSound e he'.1
    cases hside : e.2.1 with
    | sell =>
      rw [hside] at hq
      exact ⟨q, hq, hiq⟩
    | buy =>
      rw [hside] at hq
      have hq2 : alookup b.bids e.2.2 = some q := hq
      by_cases hp : e.2.2 = price
      · rw [hp] at hq2
        have hql : q = q1 ++ c :: q2 := Option.some.inj (hq2.symm.trans hlook)
        have hmid : e.1 ∈ (q1 ++ q2).map Order.id := by
          rw [hql, List.map_append, List.map_cons] at hiq
          rcases List.mem_append.1 hiq with h | h
          · rw [List.map_append]
            exact List.mem_append_left _ h
          · rcases List.mem_cons.1 h with h | h
            · exact absurd h he'.2
            · rw [List.map_append]
              exact List.mem_append_right _ h
        have hmne : (q1 ++ q2) ≠ [] := by
          intro hnil
          rw [hnil] at hmid
          simp at hmid
        refine ⟨q1 ++ q2, ?_, hmid⟩
        rw [hp]
        exact hu.lookBest hmne
      · exact ⟨q, (hu.lookOther e.2.2 hp).trans hq2, hiq⟩
  · intro pq hpq o ho
    rcases hu.memCases pq hpq with h | ⟨heq, hne⟩
    · have hold := hinv.idxCompleteBids pq h.1 o ho
      have hone : o.id ≠ c.id := by
        intro hoc
        exact levels_disjoint hbnd pq h.1 (price, q1 ++ c :: q2) hmem h.2
          o.id (List.mem_map.2 ⟨o, ho, rfl⟩)
          (by rw [hoc]; exact List.mem_map.2 ⟨c, by simp, rfl⟩)
      exact mem_aerase.2 ⟨hold, hone⟩
    · have ho2 : o ∈ q1 ++ q2 := by rw [heq] at ho; exact ho
      have hold := hinv.idxCompleteBids _ hmem o (hmidsub o ho2)
      rw [heq]
      exact mem_aerase.2 ⟨hold, hmidne o ho2⟩
  · intro pq hpq o ho
    have hold := hinv.idxCompleteAsks pq hpq o ho
    have hone : o.id ≠ c.id := by
      intro hoc
      exact hdisj (List.mem_map.2 ⟨c, hcmem, rfl⟩)
        (by rw [← hoc]
            exact List.mem_map.2 ⟨o, mem_levelsOrders.2 ⟨pq, hpq, ho⟩, rfl⟩)
    exact mem_aerase.2 ⟨hold, hone⟩
  · rw [restingIds_eq]
    exact (hu.idsSub.append (List.Sublist.refl _)).nodup hall
  · rw [assignedTs_eq]
    have hallts := hinv.tsNodup
    rw [assignedTs_eq] at hallts
    exact ((hu.tssSub.append (List.Sublist.refl _)).append (List.Sublist.refl _)).nodup hallts
  · intro t ht
    rw [assignedTs_eq] at ht
    have ht2 : t ∈ assignedTs b := by
      rw [assignedTs_eq]
      rcases List.mem_append.1 ht with h | h
      · rcases List.mem_append.1 h with h1 | h1
        · exact List.mem_append_left _ (List.mem_append_left _ (hu.tssSub.subset h1))
        · exact List.mem_append_left _ (List.mem_append_right _ h1)
      · exact List.mem_append_right _ h
    exact hinv.tsBound t ht2

theorem remove_inv_sell {b : Book} {price : Int} {q1 q2 : List Order} {c : Order}
    (hinv : Inv b) (hlook : alookup b.asks price = some (q1 ++ c :: q2)) :
    Inv { b with
      asks := if (q1 ++ q2).isEmpty then aerase b.asks price
              else aset b.asks price (q1 ++ q2),
      id_index := aerase b.id_index c.id } := by
  have hmem : (price, q1 ++ c :: q2) ∈ b.asks := alookup_mem hlook
  have hids : ((q1 ++ q2).map Order.id).Sublist ((q1 ++ c :: q2).map Order.id) := by
    simp only [List.map_append, List.map_cons]
    exact (List.Sublist.refl _).append (List.sublist_cons_self _ _)
  have htss : ((q1 ++ q2).map Order.ts).Sublist ((q1 ++ c :: q2).map Order.ts) := by
    simp only [List.map_append, List.map_cons]
    exact (List.Sublist.refl _).append (List.sublist_cons_self _ _)
  have hu := levelsUpd_spec hinv.asksKeysNodup hmem hids htss
  have hall := hinv.idsNodup
  rw [restingIds_eq] at hall
  have hand : ((levelsOrders b.asks).map Order.id).Nodup := (List.nodup_append.1 hall).2.1
  have hdisj : List.Disjoint ((levelsOrders b.bids).map Order.id)
      ((levelsOrders b.asks).map Order.id) := (List.nodup_append.1 hall).2.2
  have hcmem : c ∈ levelsOrders b.asks := mem_levelsOrders.2 ⟨_, hmem, by simp⟩
  have hlevnd : ((q1 ++ c :: q2).map Order.id).Nodup := level_map_nodup hand hmem
  have hmidne : ∀ x ∈ q1 ++ q2, x.id ≠ c.id := by
    rw [List.map_append, List.map_cons] at hlevnd
    have hparts := List.nodup_append.1 hlevnd
    intro x hx hxid
    rcases List.mem_append.1 hx with h | h
    · exact hparts.2.2 (List.mem_map.2 ⟨x, h, rfl⟩)
        (by rw [hxid]; exact List.mem_cons_self _ _)
    · exact (List.nodup_cons.1 hparts.2.1).1 (List.mem_map.2 ⟨x, h, hxid⟩)
  have hmidsub : ∀ x ∈ q1 ++ q2, x ∈ (q1 ++ c :: q2) := by
    intro x hx
    rcases List.mem_append.1 hx with h | h
    · exact List.mem_append_left _ h
    · exact List.mem_append_right _ (List.mem_cons_of_mem _ h)
  refine { bidsKeysNodup := hinv.bidsKeysNodup, asksKeysNodup := hu.keysNodup,
           bidsNonEmpty := hinv.bidsNonEmpty, asksNonEmpty := ?_,
           bidsOrders := hinv.bidsOrders, asksOrders := ?_,
           bidsFifo := hinv.bidsFifo, asksFifo := ?_,
           noncross := ?_, bidHeapSorted := hinv.bidHeapSorted,
           askHeapSorted := hinv.askHeapSorted,
           bidHeapCover := hinv.bidHeapCover, askHeapCover := ?_,
           idxKeysNodup := aerase_keys_nodup hinv.idxKeysNodup,
           idxSound := ?_, idxCompleteBids := ?_, idxCompleteAsks := ?_,
           idsNodup := ?_, tsNodup := ?_, tsBound := ?_,
           tradesChrono := hinv.tradesChrono }
  · intro pq hpq
    rcases hu.memCases pq hpq with h | ⟨heq, hne⟩
    · exact hinv.asksNonEmpty pq h.1
    · rw [heq]
      exact hne
  · intro pq hpq o ho
    rcases hu.memCases pq hpq with h | ⟨heq, hne⟩
    · exact hinv.asksOrders pq h.1 o ho
    · have ho2 : o ∈ q1 ++ q2 := by rw [heq] at ho; exact ho
      have h3 := hinv.asksOrders _ hmem o (hmidsub o ho2)
      rw [heq]
      exact h3
  · intro pq hpq
    rcases hu.memCases pq hpq with h | ⟨heq, hne⟩
    · exact hinv.asksFifo pq h.1
    · rw [heq]
      exact strictFifo_of_ts_sublist (hinv.asksFifo _ hmem) htss
  · intro pq hpq pq' hpq'
    rcases hu.memCases pq' hpq' with h | ⟨heq, hne⟩
    · exact hinv.noncross pq hpq pq' h.1
    · rw [heq]
      exact hinv.noncross pq hpq (price, q1 ++ c :: q2) hmem
  · intro pq hpq
    have hk : pq.1 ∈ b.asks.map Prod.fst :=
      hu.keysSub pq.1 (List.mem_map.2 ⟨pq, hpq, rfl⟩)
    rcases List.mem_map.1 hk with ⟨pq0, hpq0, hk0⟩
    rw [← hk0]
    exact hinv.askHeapCover pq0 hpq0
  · intro e he
    have he' := mem_aerase.1 he
    obtain ⟨q, hq, hiq⟩ := hinv.idxSound e he'.1
    cases hside : e.2.1 with
    | buy =>
      rw [hside] at hq
      exact ⟨q, hq, hiq⟩
    | sell =>
      rw [hside] at hq
      have hq2 : alookup b.asks e.2.2 = some q := hq
      by_cases hp : e.2.2 = price
      · rw [hp] at hq2
        have hql : q = q1 ++ c :: q2 := Option.some.inj (hq2.symm.trans hlook)
        have hmid : e.1 ∈ (q1 ++ q2).map Order.id := by
          rw [hql, List.map_append, List.map_cons] at hiq
          rcases List.mem_append.1 hiq with h | h
          · rw [List.map_append]
            exact List.mem_append_left _ h
          · rcases List.mem_cons.1 h with h | h
            · exact absurd h he'.2
            · rw [List.map_append]
              exact List.mem_append_right _ h
        have hmne : (q1 ++ q2) ≠ [] := by
          intro hnil
          rw [hnil] at hmid
          simp at hmid
        refine ⟨q1 ++ q2, ?_, hmid⟩
        rw [hp]
        exact hu.lookBest hmne
      · exact ⟨q, (hu.lookOther e.2.2 hp).trans hq2, hiq⟩
  · intro pq hpq o ho
    have hold := hinv.idxCompleteBids pq hpq o ho
    have hone : o.id ≠ c.id := by
      intro hoc
      exact hdisj
        (by rw [← hoc]
            exact List.mem_map.2 ⟨o, mem_levelsOrders.2 ⟨pq, hpq, ho⟩, rfl⟩)
        (List.mem_map.2 ⟨c, hcmem, rfl⟩)
    exact mem_aerase.2 ⟨hold, hone⟩
  · intro pq hpq o ho
    rcases hu.memCases pq hpq with h | ⟨heq, hne⟩
    · have hold := hinv.idxCompleteAsks pq h.1 o ho
      have hone : o.id ≠ c.id := by
        intro hoc
        exact levels_disjoint hand pq h.1 (price, q1 ++ c :: q2) hmem h.2
          o.id (List.mem_map.2 ⟨o, ho, rfl⟩)
          (by rw [hoc]; exact List.mem_map.2 ⟨c, by simp, rfl⟩)
      exact mem_aerase.2 ⟨hold, hone⟩
    · have ho2 : o ∈ q1 ++ q2 := by rw [heq] at ho; exact ho
      have hold := hinv.idxCompleteAsks _ hmem o (hmidsub o ho2)
      rw [heq]
      exact mem_aerase.2 ⟨hold, hmidne o ho2⟩
  · rw [restingIds_eq]
    exact ((List.Sublist.refl _).append hu.idsSub).nodup hall
  · rw [assignedTs_eq]
    have hallts := hinv.tsNodup
    rw [assignedTs_eq] at hallts
    exact (((List.Sublist.refl _).append hu.tssSub).append (List.Sublist.refl _)).nodup hallts
  · intro t ht
    rw [assignedTs_eq] at ht
    have ht2 : t ∈ assignedTs b := by
      rw [assignedTs_eq]
      rcases List.mem_append.1 ht with h | h
      · rcases List.mem_append.1 h with h1 | h1
        · exact List.mem_append_left _ (List.mem_append_left _ h1)
        · exact List.mem_append_left _ (List.mem_append_right _ (hu.tssSub.subset h1))
      · exact List.mem_append_right _ h
    exact hinv.tsBound t ht2

/-! ### Equations for `cancel` and `_extract_order` -/

theorem cancel_none_eq {b : Book} {oid : Int}
    (h : alookup b.id_index oid = none) : cancel b oid = (0, b) := by
  simp [cancel, h]

theorem cancel_run_buy {b : Book} {oid price : Int} {q1 q2 : List Order} {c : Order}
    (hidx : alookup b.id_index oid = some (Side.buy, price))
    (hlook : alookup b.bids price = some (q1 ++ c :: q2))
    (hc : c.id = oid) (h1 : ∀ x ∈ q1, x.id ≠ oid) :
    cancel b oid = (c.remaining,
      { b with bids := if (q1 ++ q2).isEmpty then aerase b.bids price
                       else aset b.bids price (q1 ++ q2),
               id_index := aerase b.id_index oid }) := by
  have hq : alookup (sideBook b Side.buy) price = some (q1 ++ c :: q2) := hlook
  have hne : (q1 ++ c :: q2).isEmpty = false := by simp
  simp only [cancel, hidx, hq, hne, Bool.false_eq_true, if_false]
  rw [cancelDrain_split oid hc q1 q2 0 [] h1]
  simp [sideBook]

theorem cancel_run_sell {b : Book} {oid price : Int} {q1 q2 : List Order} {c : Order}
    (hidx : alookup b.id_index oid = some (Side.sell, price))
    (hlook : alookup b.asks price = some (q1 ++ c :: q2))
    (hc : c.id = oid) (h1 : ∀ x ∈ q1, x.id ≠ oid) :
    cancel b oid = (c.remaining,
      { b with asks := if (q1 ++ q2).isEmpty then aerase b.asks price
                       else aset b.asks price (q1 ++ q2),
               id_index := aerase b.id_index oid }) := by
  have hq : alookup (sideBook b Side.sell) price = some (q1 ++ c :: q2) := hlook
  have hne : (q1 ++ c :: q2).isEmpty = false := by simp
  simp only [cancel, hidx, hq, hne, Bool.false_eq_true, if_false]
  rw [cancelDrain_split oid hc q1 q2 0 [] h1]
  simp [sideBook]

theorem extract_none_eq {b : Book} {oid : Int}
    (h : alookup b.id_index oid = none) : extract_order b oid = (none, b) := by
  simp [extract_order, h]

theorem extract_run_buy {b : Book} {oid price : Int} {q1 q2 : List Order} {c : Order}
    (hidx : alookup b.id_index oid = some (Side.buy, price))
    (hlook : alookup b.bids price = some (q1 ++ c :: q2))
    (hc : c.id = oid) (h1 : ∀ x ∈ q1, x.id ≠ oid) :
    extract_order b oid = (some c,
      { b with bids := if (q1 ++ q2).isEmpty then aerase b.bids price
                       else aset b.bids price (q1 ++ q2),
               id_index := aerase b.id_index oid }) := by
  have hq : alookup (sideBook b Side.buy) price = some (q1 ++ c :: q2) := hlook
  have hne : (q1 ++ c :: q2).isEmpty = false := by simp
  simp only [extract_order, hidx, hq, hne, Bool.false_eq_true, if_false]
  rw [extractDrain_split oid hc q1 q2 [] h1]
  simp [sideBook]

theorem extract_run_sell {b : Book} {oid price : Int} {q1 q2 : List Order} {c : Order}
    (hidx : alookup b.id_index oid = some (Side.sell, price))
    (hlook : alookup b.asks price = some (q1 ++ c :: q2))
    (hc : c.id = oid) (h1 : ∀ x ∈ q1, x.id ≠ oid) :
    extract_order b oid = (some c,
      { b with asks := if (q1 ++ q2).isEmpty then aerase b.asks price
                       else aset b.asks price (q1 ++ q2),
               id_index := aerase b.id_index oid }) := by
  have hq : alookup (sideBook b Side.sell) price = some (q1 ++ c :: q2) := hlook
  have hne : (q1 ++ c :: q2).isEmpty = false := by simp
  simp only [extract_order, hidx, hq, hne, Bool.false_eq_true, if_false]
  rw [extractDrain_split oid hc q1 q2 [] h1]
  simp [sideBook]

theorem removed_id_not_in_upd {m : List (Int × List Order)} {price : Int}
    {q1 q2 : List Order} {c : Order}
    (hnd : (m.map Prod.fst).Nodup)
    (hidnd : ((levelsOrders m).map Order.id).Nodup)
    (hlook : alookup m price = some (q1 ++ c :: q2)) :
    c.id ∉ (levelsOrders (if (q1 ++ q2).isEmpty then aerase m price
      else aset m price (q1 ++ q2))).map Order.id := by
  have hmem := alookup_mem hlook
  have hids : ((q1 ++ q2).map Order.id).Sublist ((q1 ++ c :: q2).map Order.id) := by
    simp only [List.map_append, List.map_cons]
    exact (List.Sublist.refl _).append (List.sublist_cons_self _ _)
  have htss : ((q1 ++ q2).map Order.ts).Sublist ((q1 ++ c :: q2).map Order.ts) := by
    simp only [List.map_append, List.map_cons]
    exact (List.Sublist.refl _).append (List.sublist_cons_self _ _)
  have hu := levelsUpd_spec hnd hmem hids htss
  have hlevnd : ((q1 ++ c :: q2).map Order.id).Nodup := level_map_nodup hidnd hmem
  have hmidne : ∀ x ∈ q1 ++ q2, x.id ≠ c.id := by
    rw [List.map_append, List.map_cons] at hlevnd
    have hparts := List.nodup_append.1 hlevnd
    intro x hx hxid
    rcases List.mem_append.1 hx with h | h
    · exact hparts.2.2 (List.mem_map.2 ⟨x, h, rfl⟩)
        (by rw [hxid]; exact List.mem_cons_self _ _)
    · exact (List.nodup_cons.1 hparts.2.1).1 (List.mem_map.2 ⟨x, h, hxid⟩)
  intro hin
  rcases List.mem_map.1 hin with ⟨o', ho', hoid⟩
  rcases mem_levelsOrders.1 ho' with ⟨pq, hpq, ho2⟩
  rcases hu.memCases pq hpq with h | ⟨heq, hne⟩
  · exact levels_disjoint hidnd pq h.1 (price, q1 ++ c :: q2) hmem h.2
      c.id (by rw [← hoid]; exact List.mem_map.2 ⟨o', ho2, rfl⟩)
      (List.mem_map.2 ⟨c, by simp, rfl⟩)
  · have ho3 : o' ∈ q1 ++ q2 := by rw [heq] at ho2; exact ho2
    exact hmidne o' ho3 hoid

theorem cancel_inv {b : Book} (hinv : Inv b) (oid : Int) : Inv (cancel b oid).2 := by
  cases hidx : alookup b.id_index oid with
  | none =>
    rw [cancel_none_eq hidx]
    exact hinv
  | some sp =>
    obtain ⟨side, price⟩ := sp
    obtain ⟨q1, c, q2, hq, hc, h1, h2⟩ := idx_split hinv hidx
    cases side with
    | buy =>
      have hlook : alookup b.bids price = some (q1 ++ c :: q2) := hq
      rw [cancel_run_buy hidx hlook hc h1]
      have hres := remove_inv_buy hinv hlook
      rw [hc] at hres
      exact hres
    | sell =>
      have hlook : alookup b.asks price = some (q1 ++ c :: q2) := hq
      rw [cancel_run_sell hidx hlook hc h1]
      have hres := remove_inv_sell hinv hlook
      rw [hc] at hres
      exact hres

/-- Everything `replace` needs to know about a successful extraction. -/
theorem extract_spec {b : Book} (hinv : Inv b) {oid : Int} {side : Side} {price : Int}
    (hidx : alookup b.id_index oid = some (side, price)) :
    ∃ c : Order, (extract_order b oid).1 = some c ∧ c.id = oid ∧
      c.side = side ∧ c.price = some price ∧ c.order_type = OrderType.limit ∧
      0 < c.remaining ∧ c.remaining ≤ c.qty ∧ 0 < c.qty ∧
      Inv (extract_order b oid).2 ∧
      oid ∉ restingIds (extract_order b oid).2 ∧
      (extract_order b oid).2.seq = b.seq ∧
      (extract_order b oid).2.trades = b.trades := by
  obtain ⟨q1, c, q2, hq, hc, h1, h2⟩ := idx_split hinv hidx
  have hall := hinv.idsNodup
  rw [restingIds_eq] at hall
  have hbnd : ((levelsOrders b.bids).map Order.id).Nodup := (List.nodup_append.1 hall).1
  have hand : ((levelsOrders b.asks).map Order.id).Nodup := (List.nodup_append.1 hall).2.1
  have hdisj : List.Disjoint ((levelsOrders b.bids).map Order.id)
      ((levelsOrders b.asks).map Order.id) := (List.nodup_append.1 hall).2.2
  cases side with
  | buy =>
    have hlook : alookup b.bids price = some (q1 ++ c :: q2) := hq
    have hmem : (price, q1 ++ c :: q2) ∈ b.bids := alookup_mem hlook
    have hcfacts := hinv.bidsOrders _ hmem c (by simp)
    have hcmem : c ∈ levelsOrders b.bids := mem_levelsOrders.2 ⟨_, hmem, by simp⟩
    rw [extract_run_buy hidx hlook hc h1]
    have hres := remove_inv_buy hinv hlook
    rw [hc] at hres
    refine ⟨c, rfl, hc, hcfacts.1, hcfacts.2.1, hcfacts.2.2.1,
      hcfacts.2.2.2.1, hcfacts.2.2.2.2.1, hcfacts.2.2.2.2.2, hres, ?_, rfl, rfl⟩
    rw [restingIds_eq]
    intro hmem2
    rcases List.mem_append.1 hmem2 with h | h
    · have := removed_id_not_in_upd hinv.bidsKeysNodup hbnd hlook
      rw [hc] at this
      exact this h
    · exact hdisj (List.mem_map.2 ⟨c, hcmem, hc⟩) h
  | sell =>
    have hlook : alookup b.asks price = some (q1 ++ c :: q2) := hq
    have hmem : (price, q1 ++ c :: q2) ∈ b.asks := alookup_mem hlook
    have hcfacts := hinv.asksOrders _ hmem c (by simp)
    have hcmem : c ∈ levelsOrders b.asks := mem_levelsOrders.2 ⟨_, hmem, by simp⟩
    rw [extract_run_sell hidx hlook hc h1]
    have hres := remove_inv_sell hinv hlook
    rw [hc] at hres
    refine ⟨c, rfl, hc, hcfacts.1, hcfacts.2.1, hcfacts.2.2.1,
      hcfacts.2.2.2.1, hcfacts.2.2.2.2.1, hcfacts.2.2.2.2.2, hres, ?_, rfl, rfl⟩
    rw [restingIds_eq]
    intro hmem2
    rcases List.mem_append.1 hmem2 with h | h
    · exact hdisj h (List.mem_map.2 ⟨c, hcmem, hc⟩)
    · have := removed_id_not_in_upd hinv.asksKeysNodup hand hlook
      rw [hc] at this
      exact this h

theorem replaceFinish_inv {b : Book} (hinv : Inv b) {oid : Int} {side : Side}
    {price : Option Int} {qty remaining : Int} {tif : TimeInForce}
    (hq : 0 < qty) (hrq : remaining ≤ qty)
    (hid : oid ∉ restingIds b) :
    Inv (replaceFinish b oid side price qty remaining tif).2 := by
  have hvt : (match price with
      | some _ => OrderType.limit
      | none => OrderType.market) = OrderType.limit → price.isSome := by
    cases price with
    | some p => intro _; rfl
    | none => intro h; exact absurd h (by decide)
  exact add_inv hinv hq hrq hvt hid

theorem replace_inv {b : Book} (hinv : Inv b) (oid : Int) (np nq : Option Int)
    (nt : Option TimeInForce) : Inv (replace b oid np nq nt).2 := by
  cases hidx : alookup b.id_index oid with
  | none =>
    have heq : replace b oid np nq nt = ((false, []), b) := by
      simp [replace, hidx]
    rw [heq]
    exact hinv
  | some sp =>
    obtain ⟨side, price⟩ := sp
    obtain ⟨c, hc1, hcid, hcside, hcprice, hctype, hcrem, hcrq, hcq,
      hinv2, hnr, hseq, htr⟩ := extract_spec hinv hidx
    cases nq with
    | none =>
      simp only [replace, hidx, hc1]
      exact replaceFinish_inv hinv2 hcq hcrq hnr
    | some n =>
      by_cases hn : n ≤ 0
      · simp only [replace, hidx, hc1, if_pos hn]
        exact hinv2
      · simp only [replace, hidx, hc1, if_neg hn]
        refine replaceFinish_inv hinv2 (by omega) ?_ hnr
        dsimp only
        split <;> omega

/-! ### Reachable book states -/

/-- Book states reachable from a fresh `OrderBook()` through the public
API: `add` of orders passing the dataclass validation whose id is not
currently resting, and arbitrary `cancel` / `replace` calls. -/
inductive Reachable : Book → Prop where
  | empty : Reachable emptyBook
  | addStep {b : Book} {o : Order} : Reachable b → validNewOrder o →
      o.id ∉ restingIds b → Reachable (add b o).2.1
  | cancelStep {b : Book} (oid : Int) : Reachable b → Reachable (cancel b oid).2
  | replaceStep {b : Book} (oid : Int) (np nq : Option Int) (nt : Option TimeInForce) :
      Reachable b → Reachable (replace b oid np nq nt).2

theorem reachable_inv {b : Book} (h : Reachable b) : Inv b := by
  induction h with
  | empty => exact inv_emptyBook
  | addStep hr hv hid ih =>
    exact add_inv ih hv.1 (le_of_eq hv.2.2) (fun h' => hv.2.1.1 h') hid
  | cancelStep oid hr ih => exact cancel_inv ih oid
  | replaceStep oid np nq nt hr ih => exact replace_inv ih oid np nq nt

/-! ### Sequence-number accounting of one `add` event -/

theorem add_event_facts {b : Book} {o : Order} (hinv : Inv b) :
    (add b o).1.ts = b.seq + 1 ∧
    ((add b o).2.2).map Trade.ts = List.range' (b.seq + 1 + 1) ((add b o).2.2).length ∧
    (add b o).2.1.seq = b.seq + 1 + ((add b o).2.2).length ∧
    (add b o).2.1.trades = b.trades ++ (add b o).2.2 := by
  cases htype : o.order_type with
  | market =>
    cases hside : o.side with
    | buy =>
      obtain ⟨w, hw, heq⟩ := add_market_buy_run hinv htype hside
      rw [heq]
      exact ⟨rfl, hw.tsRange, hw.seqEq, hw.tradesEq⟩
    | sell =>
      obtain ⟨w, hw, heq⟩ := add_market_sell_run hinv htype hside
      rw [heq]
      exact ⟨rfl, hw.tsRange, hw.seqEq, hw.tradesEq⟩
  | limit =>
    by_cases hkill : o.tif = TimeInForce.fok ∧ executable_available b o < o.remaining
    · rw [add_limit_kill_run htype hkill.1 hkill.2]
      exact ⟨rfl, rfl, rfl, by simp⟩
    · cases hside : o.side with
      | buy =>
        cases htif : o.tif with
        | ioc =>
          obtain ⟨w, hw, heq⟩ := add_limit_buy_ioc_run hinv htype hside htif
          rw [heq]
          exact ⟨rfl, hw.tsRange, hw.seqEq, hw.tradesEq⟩
        | fok =>
          obtain ⟨w, hw, heq⟩ :=
            add_limit_buy_fok_run hinv htype hside htif (fun hlt => hkill ⟨htif, hlt⟩)
          rw [heq]
          by_cases hpos : 0 < w.rem
          · rw [if_pos hpos]
            exact ⟨rfl, hw.tsRange, hw.seqEq, hw.tradesEq⟩
          · rw [if_neg hpos]
            exact ⟨rfl, hw.tsRange, hw.seqEq, hw.tradesEq⟩
        | gtc =>
          obtain ⟨w, hw, heq⟩ := add_limit_buy_gtc_run hinv htype hside htif
          rw [heq]
          by_cases hpos : 0 < w.rem
          · rw [if_pos hpos]
            refine ⟨rfl, hw.tsRange, ?_, ?_⟩
            · rw [rest_limit_seq]
              exact hw.seqEq
            · rw [rest_limit_trades]
              exact hw.tradesEq
          · rw [if_neg hpos]
            exact ⟨rfl, hw.tsRange, hw.seqEq, hw.tradesEq⟩
      | sell =>
        cases htif : o.tif with
        | ioc =>
          obtain ⟨w, hw, heq⟩ := add_limit_sell_ioc_run hinv htype hside htif
          rw [heq]
          exact ⟨rfl, hw.tsRange, hw.seqEq, hw.tradesEq⟩
        | fok =>
          obtain ⟨w, hw, heq⟩ :=
            add_limit_sell_fok_run hinv htype hside htif (fun hlt => hkill ⟨htif, hlt⟩)
          rw [heq]
          by_cases hpos : 0 < w.rem
          · rw [if_pos hpos]
            exact ⟨rfl, hw.tsRange, hw.seqEq, hw.tradesEq⟩
          · rw [if_neg hpos]
            exact ⟨rfl, hw.tsRange, hw.seqEq, hw.tradesEq⟩
        | gtc =>
          obtain ⟨w, hw, heq⟩ := add_limit_sell_gtc_run hinv htype hside htif
          rw [heq]
          by_cases hpos : 0 < w.rem
          · rw [if_pos hpos]
            refine ⟨rfl, hw.tsRange, ?_, ?_⟩
            · rw [rest_limit_seq]
              exact hw.seqEq
            · rw [rest_limit_trades]
              exact hw.tradesEq
          · rw [if_neg hpos]
            exact ⟨rfl, hw.tsRange, hw.seqEq, hw.tradesEq⟩

/-! ### Index lookups of non-resting ids -/

theorem not_resting_idx_none {b : Book} (hinv : Inv b) {i : Int}
    (h : i ∉ restingIds b) : alookup b.id_index i = none := by
  rw [alookup_eq_none_iff]
  intro hk
  rcases List.mem_map.1 hk with ⟨e, he, hke⟩
  obtain ⟨q, hq, hiq⟩ := hinv.idxSound e he
  apply h
  rw [restingIds_eq]
  rcases List.mem_map.1 hiq with ⟨o', ho', hoid⟩
  have ho2 : o' ∈ levelsOrders (sideBook b e.2.1) :=
    mem_levelsOrders.2 ⟨_, alookup_mem hq, ho'⟩
  cases hs : e.2.1 with
  | buy =>
    rw [hs] at ho2
    exact List.mem_append_left _ (List.mem_map.2 ⟨o', ho2, by rw [hoid, hke]⟩)
  | sell =>
    rw [hs] at ho2
    exact List.mem_append_right _ (List.mem_map.2 ⟨o', ho2, by rw [hoid, hke]⟩)

theorem idx_none_of_entries_sub {m m' : List (Int × (Side × Int))} {i : Int}
    (hsub : ∀ e ∈ m', e ∈ m) (h : alookup m i = none) : alookup m' i = none := by
  rw [alookup_eq_none_iff] at h ⊢
  intro hk
  rcases List.mem_map.1 hk with ⟨e, he, hke⟩
  exact h (List.mem_map.2 ⟨e, hsub e he, hke⟩)

/-! ### What `assert_invariants` actually checks -/

theorem tsNonDecrFrom_of_strict : ∀ (q : List Order) (last : Int),
    strictFifoLevel q → (∀ o ∈ q.head?, last ≤ (o.ts : Int)) →
    tsNonDecrFrom last q = true := by
  intro q
  induction q with
  | nil =>
    intro last _ _
    rfl
  | cons o rest ih =>
    intro last hfifo hhead
    have hco := List.chain'_cons'.1 hfifo
    rw [tsNonDecrFrom, Bool.and_eq_true]
    refine ⟨decide_eq_true (hhead o rfl), ih (o.ts : Int) hco.2 ?_⟩
    intro o2 ho2
    have := hco.1 o2 ho2
    exact_mod_cast Nat.le_of_lt this

theorem assert_invariants_of_inv {b : Book} (hinv : Inv b) :
    assert_invariants b = true := by
  unfold assert_invariants
  rw [Bool.and_eq_true, Bool.and_eq_true, List.all_eq_true, List.all_eq_true]
  refine ⟨⟨?_, ?_⟩, ?_⟩
  · cases hbb : best_bid b with
    | none => rfl
    | some bb =>
      cases hba : best_ask b with
      | none => rfl
      | some ba =>
        obtain ⟨qb, hqb, -⟩ := best_bid_key hbb
        obtain ⟨qa, hqa, -⟩ := best_ask_key hba
        exact decide_eq_true (hinv.noncross (bb, qb) hqb (ba, qa) hqa)
  · intro pq hpq
    exact tsNonDecrFrom_of_strict pq.2 (-1) (hinv.bidsFifo pq hpq)
      (fun o _ => by omega)
  · intro pq hpq
    exact tsNonDecrFrom_of_strict pq.2 (-1) (hinv.asksFifo pq hpq)
      (fun o _ => by omega)

/-! ### Reachability of the concrete fixtures -/

theorem reachable_c4book : Reachable c4book :=
  Reachable.addStep
    (Reachable.addStep
      (Reachable.addStep Reachable.empty (by decide) (by decide))
      (by decide) (by decide))
    (by decide) (by decide)

theorem reachable_c7book : Reachable c7book :=
  Reachable.addStep Reachable.empty (by decide) (by decide)

/-! ### Trade-level conclusions of one matching walk -/

theorem trade_facts_ask {b : Book} {taker : Int} {lp : Option Int} {rem : Int}
    {w : WalkRes} (hinv : Inv b)
    (hw : AskWalk taker lp rem { b with seq := b.seq + 1 } w) :
    ∀ t ∈ w.trs,
      (∃ m ∈ restingOrders b, m.id = t.maker_id ∧ m.price = some t.price) ∧
      (∀ ba, best_ask b = some ba → ba ≤ t.price) ∧
      (∀ l, lp = some l → t.price ≤ l) ∧
      t.taker_id = taker ∧ 0 < t.qty := by
  intro t ht
  have hf := hw.tradeFacts t ht
  have hkey : t.price ∈ b.asks.map Prod.fst := hf.2.2.1
  refine ⟨?_, ?_, hf.2.2.2.1, hf.1, hf.2.1⟩
  · obtain ⟨m, hm, hmid, hmp⟩ := hf.2.2.2.2
    have hm2 : m ∈ levelsOrders b.asks := hm
    exact ⟨m, List.mem_append_right _ hm2, hmid, hmp⟩
  · intro ba hba
    rcases List.mem_map.1 hkey with ⟨pq, hpq, hk⟩
    rw [← hk]
    exact best_ask_min hinv hba pq hpq

theorem trade_facts_bid {b : Book} {taker : Int} {lp : Option Int} {rem : Int}
    {w : WalkRes} (hinv : Inv b)
    (hw : BidWalk taker lp rem { b with seq := b.seq + 1 } w) :
    ∀ t ∈ w.trs,
      (∃ m ∈ restingOrders b, m.id = t.maker_id ∧ m.price = some t.price) ∧
      (∀ bb, best_bid b = some bb → t.price ≤ bb) ∧
      (∀ l, lp = some l → l ≤ t.price) ∧
      t.taker_id = taker ∧ 0 < t.qty := by
  intro t ht
  have hf := hw.tradeFacts t ht
  have hkey : t.price ∈ b.bids.map Prod.fst := hf.2.2.1
  refine ⟨?_, ?_, hf.2.2.2.1, hf.1, hf.2.1⟩
  · obtain ⟨m, hm, hmid, hmp⟩ := hf.2.2.2.2
    have hm2 : m ∈ levelsOrders b.bids := hm
    exact ⟨m, List.mem_append_left _ hm2, hmid, hmp⟩
  · intro bb hbb
    rcases List.mem_map.1 hkey with ⟨pq, hpq, hk⟩
    rw [← hk]
    exact best_bid_max hinv hbb pq hpq

/-! ### Per-branch trade bounds feeding the trade-pricing claim -/

theorem limit_buy_trade_bounds {b : Book} {o : Order} {w : WalkRes} (hinv : Inv b)
    (hw : AskWalk o.id (some (o.price.getD 0)) o.remaining { b with seq := b.seq + 1 } w)
    (hside : o.side = Side.buy) :
    ∀ t ∈ w.trs,
      (∃ m ∈ restingOrders b, m.id = t.maker_id ∧ m.price = some t.price) ∧
      (o.side = Side.buy → (∀ ba, best_ask b = some ba → ba ≤ t.price) ∧
        (∀ l, o.price = some l → t.price ≤ l)) ∧
      (o.side = Side.sell → (∀ bb, best_bid b = some bb → t.price ≤ bb) ∧
        (∀ l, o.price = some l → l ≤ t.price)) ∧
      t.taker_id = o.id ∧ 0 < t.qty := by
  intro t ht
  have hf := trade_facts_ask hinv hw t ht
  refine ⟨hf.1, ?_, ?_, hf.2.2.2.1, hf.2.2.2.2⟩
  · intro _
    refine ⟨hf.2.1, ?_⟩
    intro l hl
    have h2 := hf.2.2.1 (o.price.getD 0) rfl
    rw [hl] at h2
    exact h2
  · intro hsell
    rw [hside] at hsell
    cases hsell

theorem limit_sell_trade_bounds {b : Book} {o : Order} {w : WalkRes} (hinv : Inv b)
    (hw : BidWalk o.id (some (o.price.getD 0)) o.remaining { b with seq := b.seq + 1 } w)
    (hside : o.side = Side.sell) :
    ∀ t ∈ w.trs,
      (∃ m ∈ restingOrders b, m.id = t.maker_id ∧ m.price = some t.price) ∧
      (o.side = Side.buy → (∀ ba, best_ask b = some ba → ba ≤ t.price) ∧
        (∀ l, o.price = some l → t.price ≤ l)) ∧
      (o.side = Side.sell → (∀ bb, best_bid b = some bb → t.price ≤ bb) ∧
        (∀ l, o.price = some l → l ≤ t.price)) ∧
      t.taker_id = o.id ∧ 0 < t.qty := by
  intro t ht
  have hf := trade_facts_bid hinv hw t ht
  refine ⟨hf.1, ?_, ?_, hf.2.2.2.1, hf.2.2.2.2⟩
  · intro hbuy
    rw [hside] at hbuy
    cases hbuy
  · intro _
    refine ⟨hf.2.1, ?_⟩
    intro l hl
    have h2 := hf.2.2.1 (o.price.getD 0) rfl
    rw [hl] at h2
    exact h2

theorem market_buy_trade_bounds {b : Book} {o : Order} {w : WalkRes} (hinv : Inv b)
    (hw : AskWalk o.id none o.remaining { b with seq := b.seq + 1 } w)
    (hside : o.side = Side.buy) (hpn : o.price = none) :
    ∀ t ∈ w.trs,
      (∃ m ∈ restingOrders b, m.id = t.maker_id ∧ m.price = some t.price) ∧
      (o.side = Side.buy → (∀ ba, best_ask b = some ba → ba ≤ t.price) ∧
        (∀ l, o.price = some l → t.price ≤ l)) ∧
      (o.side = Side.sell → (∀ bb, best_bid b = some bb → t.price ≤ bb) ∧
        (∀ l, o.price = some l → l ≤ t.price)) ∧
      t.taker_id = o.id ∧ 0 < t.qty := by
  intro t ht
  have hf := trade_facts_ask hinv hw t ht
  refine ⟨hf.1, ?_, ?_, hf.2.2.2.1, hf.2.2.2.2⟩
  · intro _
    refine ⟨hf.2.1, ?_⟩
    intro l hl
    rw [hpn] at hl
    cases hl
  · intro hsell
    rw [hside] at hsell
    cases hsell

theorem market_sell_trade_bounds {b : Book} {o : Order} {w : WalkRes} (hinv : Inv b)
    (hw : BidWalk o.id none o.remaining { b with seq := b.seq + 1 } w)
    (hside : o.side = Side.sell) (hpn : o.price = none) :
    ∀ t ∈ w.trs,
      (∃ m ∈ restingOrders b, m.id = t.maker_id ∧ m.price = some t.price) ∧
      (o.side = Side.buy → (∀ ba, best_ask b = some ba → ba ≤ t.price) ∧
        (∀ l, o.price = some l → t.price ≤ l)) ∧
      (o.side = Side.sell → (∀ bb, best_bid b = some bb → t.price ≤ bb) ∧
        (∀ l, o.price = some l → l ≤ t.price)) ∧
      t.taker_id = o.id ∧ 0 < t.qty := by
  intro t ht
  have hf := trade_facts_bid hinv hw t ht
  refine ⟨hf.1, ?_, ?_, hf.2.2.2.1, hf.2.2.2.2⟩
  · intro hbuy
    rw [hside] at hbuy
    cases hbuy
  · intro _
    refine ⟨hf.2.1, ?_⟩
    intro l hl
    rw [hpn] at hl
    cases hl

/-! ## The claims -/

/-- C1: adding a LIMIT FOK order under the book invariant: when the
executable available within the limit is strictly less than the order's
remaining, `add` returns no trades, zeroes the remaining and leaves
every book component untouched except the incremented sequence counter;
otherwise the returned trades' quantities sum exactly to the remaining
at entry and the remaining ends at 0.  In both cases the order never
rests: its id is on no level and not in the id index. -/
theorem claim_C1_fok {b : Book} {o : Order} (hinv : Inv b)
    (hv : validNewOrder o) (htype : o.order_type = OrderType.limit)
    (htif : o.tif = TimeInForce.fok) (hid : o.id ∉ restingIds b) :
    (executable_available b o < o.remaining →
      add b o = ({ o with ts := b.seq + 1, remaining := 0 },
        { b with seq := b.seq + 1 }, [])) ∧
    (¬ executable_available b o < o.remaining →
      sumQty ((add b o).2.2) = o.remaining ∧ (add b o).1.remaining = 0) ∧
    o.id ∉ restingIds (add b o).2.1 ∧
    alookup ((add b o).2.1).id_index o.id = none := by
  by_cases hkill : executable_available b o < o.remaining
  · have heq := add_limit_kill_run htype htif hkill
    refine ⟨fun _ => heq, fun hn => absurd hkill hn, ?_, ?_⟩
    · rw [heq]
      exact hid
    · rw [heq]
      exact not_resting_idx_none hinv hid
  · have hvq : 0 < o.qty := hv.1
    have hre : o.remaining = o.qty := hv.2.2
    obtain ⟨l, hl⟩ := Option.isSome_iff_exists.1 (hv.2.1.1 htype)
    have hpl : o.price = some (o.price.getD 0) := by rw [hl]; rfl
    cases hside : o.side with
    | buy =>
      obtain ⟨w, hw, heq⟩ := add_limit_buy_fok_run hinv htype hside htif hkill
      have hiff := executable_available_buy_iff hinv hside htype hpl
      have hcons : depthWithinAsks (some (o.price.getD 0)) w.book.asks
          = depthWithinAsks (some (o.price.getD 0)) b.asks - sumQty w.trs := hw.conserve
      have hrem : w.rem = o.remaining - sumQty w.trs := hw.remEq
      have hnn : 0 ≤ w.rem := hw.remNonneg (by omega)
      have hdge : ¬ depthWithinAsks (some (o.price.getD 0)) b.asks < o.remaining :=
        fun hcon => hkill (hiff.2 hcon)
      have hnotpos : ¬ 0 < w.rem := by
        intro hpos
        have hz : depthWithinAsks (some (o.price.getD 0)) w.book.asks = 0 := by
          apply depthWithinP_zero
          intro pq hpq
          exact decide_eq_false (not_le.2 (hw.stop hpos pq hpq _ rfl))
        omega
      rw [heq, if_neg hnotpos]
      refine ⟨fun hcon => absurd hcon hkill,
        fun _ => ⟨by show sumQty w.trs = o.remaining; omega,
          by show w.rem = 0; omega⟩, ?_, ?_⟩
      · intro hmem
        exact hid (askWalk_restingIds_sub hw _ hmem)
      · exact idx_none_of_entries_sub hw.idxSub (not_resting_idx_none hinv hid)
    | sell =>
      obtain ⟨w, hw, heq⟩ := add_limit_sell_fok_run hinv htype hside htif hkill
      have hiff := executable_available_sell_iff hinv hside htype hpl
      have hcons : depthWithinBids (some (o.price.getD 0)) w.book.bids
          = depthWithinBids (some (o.price.getD 0)) b.bids - sumQty w.trs := hw.conserve
      have hrem : w.rem = o.remaining - sumQty w.trs := hw.remEq
      have hnn : 0 ≤ w.rem := hw.remNonneg (by omega)
      have hdge : ¬ depthWithinBids (some (o.price.getD 0)) b.bids < o.remaining :=
        fun hcon => hkill (hiff.2 hcon)
      have hnotpos : ¬ 0 < w.rem := by
        intro hpos
        have hz : depthWithinBids (some (o.price.getD 0)) w.book.bids = 0 := by
          apply depthWithinP_zero
          intro pq hpq
          exact decide_eq_false (not_le.2 (hw.stop hpos pq hpq _ rfl))
        omega
      rw [heq, if_neg hnotpos]
      refine ⟨fun hcon => absurd hcon hkill,
        fun _ => ⟨by show sumQty w.trs = o.remaining; omega,
          by show w.rem = 0; omega⟩, ?_, ?_⟩
      · intro hmem
        exact hid (bidWalk_restingIds_sub hw _ hmem)
      · exact idx_none_of_entries_sub hw.idxSub (not_resting_idx_none hinv hid)

/-- C1 witness: a FOK buy for 5 against 10 resting at 1000 fully fills
and leaves no trace of its id in the index. -/
theorem claim_C1_fok_witness :
    alookup ((add c4book (mkLimit 9 Side.buy 5 1000 TimeInForce.fok)).2.1).id_index 9
      = none :=
  (claim_C1_fok (reachable_inv reachable_c4book) (by decide) rfl rfl (by decide)).2.2.2

/-- C2 counterexample: a valid MARKET order with the default tif = GTC
against an empty opposite side keeps its full remaining after `add`,
contradicting the claim that every MARKET order ends with remaining 0.
Only the take loops zero the remaining, and only when tif = IOC. -/
theorem claim_C2_counterexample :
    validNewOrder (mkMarket 1 Side.buy 5 TimeInForce.gtc) ∧
    (mkMarket 1 Side.buy 5 TimeInForce.gtc).order_type = OrderType.market ∧
    (add emptyBook (mkMarket 1 Side.buy 5 TimeInForce.gtc)).1.remaining = 5 := by
  refine ⟨by decide, rfl, by decide⟩

/-- C2 amended: a MARKET order whose tif is IOC (as every MARKET order
constructed in this repository is) ends `add` with remaining = 0, also
when the opposite side is empty and no trade is produced. -/
theorem claim_C2_market_ioc {b : Book} {o : Order} (hinv : Inv b)
    (htype : o.order_type = OrderType.market) (htif : o.tif = TimeInForce.ioc) :
    (add b o).1.remaining = 0 := by
  cases hside : o.side with
  | buy =>
    obtain ⟨w, hw, heq⟩ := add_market_buy_run hinv htype hside
    rw [heq]
    show (if o.tif = TimeInForce.ioc then 0 else w.rem) = 0
    rw [if_pos htif]
  | sell =>
    obtain ⟨w, hw, heq⟩ := add_market_sell_run hinv htype hside
    rw [heq]
    show (if o.tif = TimeInForce.ioc then 0 else w.rem) = 0
    rw [if_pos htif]

/-- C2 witness: a MARKET IOC buy on the empty book is discarded with
remaining 0. -/
theorem claim_C2_market_ioc_witness :
    (add emptyBook (mkMarket 1 Side.buy 5 TimeInForce.ioc)).1.remaining = 0 :=
  claim_C2_market_ioc inv_emptyBook rfl rfl

/-- C3: in every book state reachable from the empty book by `add`,
`cancel` and `replace` on validated orders with fresh ids, if `best_bid`
and `best_ask` are both present then `best_bid < best_ask`. -/
theorem claim_C3_noncrossed {b : Book} (hr : Reachable b) {bb ba : Int}
    (hbb : best_bid b = some bb) (hba : best_ask b = some ba) : bb < ba := by
  have hinv := reachable_inv hr
  obtain ⟨qb, hqb, -⟩ := best_bid_key hbb
  obtain ⟨qa, hqa, -⟩ := best_ask_key hba
  exact hinv.noncross (bb, qb) hqb (ba, qa) hqa

/-- C3 witness: the three-order fixture book has best bid 990, best ask
1000, and 990 < 1000. -/
theorem claim_C3_noncrossed_witness :
    best_bid c4book = some 990 ∧ best_ask c4book = some 1000 ∧ (990 : Int) < 1000 :=
  ⟨by decide, by decide, claim_C3_noncrossed reachable_c4book (by decide) (by decide)⟩

/-- C5: every `add` assigns the order `ts = seq + 1`, strictly above
every previously assigned sequence number; each produced trade's `ts` is
strictly above the order's, the trades' `ts` increase strictly, and all
old and new sequence numbers together stay pairwise distinct. -/
theorem claim_C5_seq {b : Book} (hr : Reachable b) (o : Order) :
    (add b o).1.ts = b.seq + 1 ∧
    (∀ t ∈ assignedTs b, t < (add b o).1.ts) ∧
    (∀ tr ∈ (add b o).2.2, (add b o).1.ts < tr.ts) ∧
    List.Chain' (· < ·) (((add b o).2.2).map Trade.ts) ∧
    (assignedTs b ++ (add b o).1.ts :: ((add b o).2.2).map Trade.ts).Nodup := by
  have hinv := reachable_inv hr
  obtain ⟨h1, h2, h3, h4⟩ := @add_event_facts b o hinv
  refine ⟨h1, ?_, ?_, ?_, ?_⟩
  · intro t ht
    have := hinv.tsBound t ht
    rw [h1]
    omega
  · intro tr htr
    have hmem : tr.ts ∈ ((add b o).2.2).map Trade.ts := List.mem_map.2 ⟨tr, htr, rfl⟩
    rw [h2] at hmem
    have h5 := (List.mem_range'_1.1 hmem).1
    rw [h1]
    omega
  · rw [h2]
    exact range'_chain _ _
  · rw [h1, h2, List.nodup_append]
    refine ⟨hinv.tsNodup, ?_, ?_⟩
    · rw [List.nodup_cons]
      constructor
      · intro hmem
        have := (List.mem_range'_1.1 hmem).1
        omega
      · exact nodup_range' _ _
    · intro a ha hmem
      have h6 := hinv.tsBound a ha
      rcases List.mem_cons.1 hmem with h | h
      · omega
      · have := (List.mem_range'_1.1 h).1
        omega

/-- C5 witness: adding the sweeping taker to the fixture book stamps it
with the next sequence number. -/
theorem claim_C5_seq_witness : (add c4book c4taker).1.ts = c4book.seq + 1 :=
  (claim_C5_seq reachable_c4book c4taker).1

/-- C6: cancel of an unknown id returns 0 and changes nothing; cancel of
a resting id returns its remaining, removes exactly that order from its
level (dropping the price key when the level empties) and from the
index, and a second cancel of the same id returns 0 on the unchanged
book. -/
theorem claim_C6_cancel {b : Book} (hinv : Inv b) (oid : Int) :
    (alookup b.id_index oid = none → cancel b oid = (0, b)) ∧
    (∀ side price, alookup b.id_index oid = some (side, price) →
      ∃ q1 c q2, alookup (sideBook b side) price = some (q1 ++ c :: q2) ∧
        c.id = oid ∧
        (cancel b oid).1 = c.remaining ∧
        alookup (sideBook (cancel b oid).2 side) price
          = (if (q1 ++ q2).isEmpty then none else some (q1 ++ q2)) ∧
        alookup ((cancel b oid).2).id_index oid = none ∧
        cancel ((cancel b oid).2) oid = (0, (cancel b oid).2)) := by
  refine ⟨fun h => cancel_none_eq h, ?_⟩
  intro side price hidx
  obtain ⟨q1, c, q2, hq, hc, h1, h2⟩ := idx_split hinv hidx
  cases side with
  | buy =>
    have hlook : alookup b.bids price = some (q1 ++ c :: q2) := hq
    have hrun := cancel_run_buy hidx hlook hc h1
    refine ⟨q1, c, q2, hq, hc, ?_, ?_, ?_, ?_⟩
    · rw [hrun]
    · rw [hrun]
      show alookup (if (q1 ++ q2).isEmpty then aerase b.bids price
        else aset b.bids price (q1 ++ q2)) price = _
      by_cases hme : (q1 ++ q2).isEmpty
      · rw [if_pos hme, if_pos hme]
        exact alookup_aerase_self _ _
      · rw [if_neg hme, if_neg hme]
        exact alookup_aset_self _ _ _
    · rw [hrun]
      show alookup (aerase b.id_index oid) oid = none
      exact alookup_aerase_self _ _
    · rw [hrun]
      exact cancel_none_eq (by
        show alookup (aerase b.id_index oid) oid = none
        exact alookup_aerase_self _ _)
  | sell =>
    have hlook : alookup b.asks price = some (q1 ++ c :: q2) := hq
    have hrun := cancel_run_sell hidx hlook hc h1
    refine ⟨q1, c, q2, hq, hc, ?_, ?_, ?_, ?_⟩
    · rw [hrun]
    · rw [hrun]
      show alookup (if (q1 ++ q2).isEmpty then aerase b.asks price
        else aset b.asks price (q1 ++ q2)) price = _
      by_cases hme : (q1 ++ q2).isEmpty
      · rw [if_pos hme, if_pos hme]
        exact alookup_aerase_self _ _
      · rw [if_neg hme, if_neg hme]
        exact alookup_aset_self _ _ _
    · rw [hrun]
      show alookup (aerase b.id_index oid) oid = none
      exact alookup_aerase_self _ _
    · rw [hrun]
      exact cancel_none_eq (by
        show alookup (aerase b.id_index oid) oid = none
        exact alookup_aerase_self _ _)

/-- C6 witness: the second cancel of id 3 on the fixture book is a
no-op returning 0. -/
theorem claim_C6_cancel_witness :
    cancel (cancel c4book 3).2 3 = (0, (cancel c4book 3).2) := by
  obtain ⟨q1, c, q2, h⟩ :=
    (claim_C6_cancel (reachable_inv reachable_c4book) 3).2 Side.buy 990 (by decide)
  exact h.2.2.2.2.2

/-- C7 evaluation: `replace` with `new_qty = 0` on the resting order id 1
returns `(false, [])` — the claimed rejection — but the book is NOT
unchanged: the order is gone from its level and from the index, because
`_extract_order` runs before the `new_qty <= 0` validation. -/
theorem claim_C7_replace_bug_eval :
    alookup c7book.id_index 1 = some (Side.buy, 995) ∧
    depth_at_price c7book Side.buy 995 = 50 ∧
    replace c7book 1 none (some 0) none
      = ((false, []),
         { bids := [], asks := [], bid_heap := [-995], ask_heap := [],
           id_index := [], seq := 1, trades := [] }) := by
  refine ⟨by decide, by decide, by decide⟩

/-- C8: in every reachable book state, within every price level on
either side the resting orders' `ts` strictly increase front to back. -/
theorem claim_C8_fifo {b : Book} (hr : Reachable b) :
    (∀ pq ∈ b.bids, strictFifoLevel pq.2) ∧ (∀ pq ∈ b.asks, strictFifoLevel pq.2) :=
  ⟨(reachable_inv hr).bidsFifo, (reachable_inv hr).asksFifo⟩

/-- C8 witness: the single resting level of the one-order fixture book
is strictly FIFO. -/
theorem claim_C8_fifo_witness : strictFifoLevel [c7order] :=
  (claim_C8_fifo reachable_c7book).1 (995, [c7order]) (by decide)

/-- C9 counterexample: a state with two equal-`ts` orders in one bid
level, an empty ask level under a live key and an empty id index —
violating strict FIFO, level non-emptiness and index consistency — on
which `assert_invariants` still passes.  The routine checks only the
crossed-book condition and a NON-strict per-level `ts` scan. -/
theorem claim_C9_counterexample :
    assert_invariants c9book = true ∧
    (1000, ([] : List Order)) ∈ c9book.asks ∧
    (1 ∈ restingIds c9book ∧ 1 ∉ c9book.id_index.map Prod.fst) ∧
    ¬ strictFifoLevel [c9o1, c9o2] ∧
    alookup c9book.bids 100 = some [c9o1, c9o2] := by
  refine ⟨by decide, by decide, ⟨by decide, by decide⟩, ?_, by decide⟩
  intro h
  exact absurd (List.chain'_cons.1 h).1 (by decide)

/-- C9 amended: `assert_invariants` passes exactly when the lazily
cleaned best prices are not crossed and every level's `ts` sequence is
non-decreasing (the only two conditions the code checks); any state
satisfying the full invariant — in particular every reachable state —
passes it. -/
theorem claim_C9_amended (b : Book) :
    (assert_invariants b = true ↔
      ((∀ bb ba, best_bid b = some bb → best_ask b = some ba → bb < ba)
        ∧ (∀ pq ∈ b.bids, tsNonDecrFrom (-1) pq.2 = true)
        ∧ (∀ pq ∈ b.asks, tsNonDecrFrom (-1) pq.2 = true)))
    ∧ (Inv b → assert_invariants b = true) := by
  constructor
  · unfold assert_invariants
    rw [Bool.and_eq_true, Bool.and_eq_true, List.all_eq_true, List.all_eq_true]
    constructor
    · rintro ⟨⟨hx, h2⟩, h3⟩
      refine ⟨?_, fun pq hpq => h2 pq hpq, fun pq hpq => h3 pq hpq⟩
      intro bb ba hbb hba
      rw [hbb, hba] at hx
      exact of_decide_eq_true hx
    · rintro ⟨hx, h2, h3⟩
      refine ⟨⟨?_, fun pq hpq => h2 pq hpq⟩, fun pq hpq => h3 pq hpq⟩
      cases hbb : best_bid b with
      | none => rfl
      | some bb =>
        cases hba : best_ask b with
        | none => rfl
        | some ba => exact decide_eq_true (hx bb ba hbb hba)
  · exact assert_invariants_of_inv

/-- C9 amended witness: the empty book satisfies the invariant and
passes `assert_invariants`. -/
theorem claim_C9_amended_witness : assert_invariants emptyBook = true :=
  (claim_C9_amended emptyBook).2 inv_emptyBook

/-- C10: frame property of cancel — the canceled order's level keeps
the surviving orders unchanged and in their original relative order,
every other level of both sides is untouched, and every index entry
other than the canceled id's is untouched (as are trades and seq).  The
witness below instantiates it on the fixture book. -/
theorem claim_C10_cancel_frame {b : Book} (hinv : Inv b) {oid : Int} {side : Side}
    {price : Int} (hidx : alookup b.id_index oid = some (side, price)) :
    ∃ q1 c q2,
      alookup (sideBook b side) price = some (q1 ++ c :: q2) ∧ c.id = oid ∧
      (∀ x ∈ q1 ++ q2, x.id ≠ oid) ∧
      alookup (sideBook (cancel b oid).2 side) price
        = (if (q1 ++ q2).isEmpty then none else some (q1 ++ q2)) ∧
      (∀ p, p ≠ price → alookup (sideBook (cancel b oid).2 side) p
        = alookup (sideBook b side) p) ∧
      (∀ s, s ≠ side → sideBook (cancel b oid).2 s = sideBook b s) ∧
      (∀ i, i ≠ oid → alookup ((cancel b oid).2).id_index i = alookup b.id_index i) ∧
      (cancel b oid).2.trades = b.trades ∧ (cancel b oid).2.seq = b.seq := by
  obtain ⟨q1, c, q2, hq, hc, h1, h2⟩ := idx_split hinv hidx
  have hmids : ∀ x ∈ q1 ++ q2, x.id ≠ oid := by
    intro x hx
    rcases List.mem_append.1 hx with hh | hh
    · exact h1 x hh
    · exact h2 x hh
  cases side with
  | buy =>
    have hlook : alookup b.bids price = some (q1 ++ c :: q2) := hq
    have hrun := cancel_run_buy hidx hlook hc h1
    have hmem := alookup_mem hlook
    have hids : ((q1 ++ q2).map Order.id).Sublist ((q1 ++ c :: q2).map Order.id) := by
      simp only [List.map_append, List.map_cons]
      exact (List.Sublist.refl _).append (List.sublist_cons_self _ _)
    have htss : ((q1 ++ q2).map Order.ts).Sublist ((q1 ++ c :: q2).map Order.ts) := by
      simp only [List.map_append, List.map_cons]
      exact (List.Sublist.refl _).append (List.sublist_cons_self _ _)
    have hu := levelsUpd_spec hinv.bidsKeysNodup hmem hids htss
    refine ⟨q1, c, q2, hq, hc, hmids, ?_, ?_, ?_, ?_, ?_, ?_⟩
    · rw [hrun]
      show alookup (if (q1 ++ q2).isEmpty then aerase b.bids price
        else aset b.bids price (q1 ++ q2)) price = _
      by_cases hme : (q1 ++ q2).isEmpty
      · rw [if_pos hme, if_pos hme]
        exact alookup_aerase_self _ _
      · rw [if_neg hme, if_neg hme]
        exact alookup_aset_self _ _ _
    · intro p hp
      rw [hrun]
      show alookup (if (q1 ++ q2).isEmpty then aerase b.bids price
        else aset b.bids price (q1 ++ q2)) p = _
      exact hu.lookOther p hp
    · intro s hs
      rw [hrun]
      cases s with
      | buy => exact absurd rfl hs
      | sell => rfl
    · intro i hi
      rw [hrun]
      show alookup (aerase b.id_index oid) i = alookup b.id_index i
      exact alookup_aerase_ne _ oid i hi
    · rw [hrun]
    · rw [hrun]
  | sell =>
    have hlook : alookup b.asks price = some (q1 ++ c :: q2) := hq
    have hrun := cancel_run_sell hidx hlook hc h1
    have hmem := alookup_mem hlook
    have hids : ((q1 ++ q2).map Order.id).Sublist ((q1 ++ c :: q2).map Order.id) := by
      simp only [List.map_append, List.map_cons]
      exact (List.Sublist.refl _).append (List.sublist_cons_self _ _)
    have htss : ((q1 ++ q2).map Order.ts).Sublist ((q1 ++ c :: q2).map Order.ts) := by
      simp only [List.map_append, List.map_cons]
      exact (List.Sublist.refl _).append (List.sublist_cons_self _ _)
    have hu := levelsUpd_spec hinv.asksKeysNodup hmem hids htss
    refine ⟨q1, c, q2, hq, hc, hmids, ?_, ?_, ?_, ?_, ?_, ?_⟩
    · rw [hrun]
      show alookup (if (q1 ++ q2).isEmpty then aerase b.asks price
        else aset b.asks price (q1 ++ q2)) price = _
      by_cases hme : (q1 ++ q2).isEmpty
      · rw [if_pos hme, if_pos hme]
        exact alookup_aerase_self _ _
      · rw [if_neg hme, if_neg hme]
        exact alookup_aset_self _ _ _
    · intro p hp
      rw [hrun]
      show alookup (if (q1 ++ q2).isEmpty then aerase b.asks price
        else aset b.asks price (q1 ++ q2)) p = _
      exact hu.lookOther p hp
    · intro s hs
      rw [hrun]
      cases s with
      | buy => rfl
      | sell => exact absurd rfl hs
    · intro i hi
      rw [hrun]
      show alookup (aerase b.id_index oid) i = alookup b.id_index i
      exact alookup_aerase_ne _ oid i hi
    · rw [hrun]
    · rw [hrun]

/-- C10 witness: canceling id 3 on the fixture book leaves id 1's index
entry unchanged. -/
theorem claim_C10_cancel_frame_witness :
    alookup ((cancel c4book 3).2).id_index 1 = alookup c4book.id_index 1 := by
  obtain ⟨q1, c, q2, h⟩ :=
    claim_C10_cancel_frame (reachable_inv reachable_c4book)
      (show alookup c4book.id_index 3 = some (Side.buy, 990) by decide)
  exact h.2.2.2.2.2.2.1 1 (by decide)

/-- C4 counterexample: on a book with best bid 990 and best ask 1000, a
valid deep buy limit at 1100 produces a second trade at price 1100,
outside the inclusive pre-event band [990, 1000]; the claim that every
trade's price lies between `best_bid` and `best_ask` just before the
event is false for multi-level sweeps. -/
theorem claim_C4_counterexample :
    validNewOrder c4taker ∧
    best_bid c4book = some 990 ∧ best_ask c4book = some 1000 ∧
    ((add c4book c4taker).2.2).map Trade.price = [1000, 1100] ∧
    ¬ ((1100 : Int) ≤ 1000) := by
  refine ⟨by decide, by decide, by decide, by decide, by decide⟩

/-- Trade facts of one `add` for any order whose price and type are
consistent (a price present exactly on a LIMIT).  This hypothesis holds
both for orders passing the dataclass validation and for the successor
order `replace` builds, whose `remaining` may be below `qty`. -/
theorem add_trades_spec {b : Book} {o : Order} (hinv : Inv b)
    (hvt : o.price.isSome → o.order_type = OrderType.limit) :
    ∀ t ∈ (add b o).2.2,
      (∃ m ∈ restingOrders b, m.id = t.maker_id ∧ m.price = some t.price) ∧
      (o.side = Side.buy → (∀ ba, best_ask b = some ba → ba ≤ t.price) ∧
        (∀ l, o.price = some l → t.price ≤ l)) ∧
      (o.side = Side.sell → (∀ bb, best_bid b = some bb → t.price ≤ bb) ∧
        (∀ l, o.price = some l → l ≤ t.price)) ∧
      t.taker_id = o.id ∧ 0 < t.qty := by
  cases htype : o.order_type with
  | market =>
    have hpn : o.price = none := by
      cases hp : o.price with
      | none => rfl
      | some x =>
        have hlim : o.order_type = OrderType.limit := hvt (by rw [hp]; rfl)
        rw [htype] at hlim
        cases hlim
    cases hside : o.side with
    | buy =>
      obtain ⟨w, hw, heq⟩ := add_market_buy_run hinv htype hside
      rw [heq]
      have key := market_buy_trade_bounds hinv hw hside hpn
      rw [hside] at key
      exact key
    | sell =>
      obtain ⟨w, hw, heq⟩ := add_market_sell_run hinv htype hside
      rw [heq]
      have key := market_sell_trade_bounds hinv hw hside hpn
      rw [hside] at key
      exact key
  | limit =>
    by_cases hkill : o.tif = TimeInForce.fok ∧ executable_available b o < o.remaining
    · rw [add_limit_kill_run htype hkill.1 hkill.2]
      intro t ht
      exact absurd ht (List.not_mem_nil t)
    · cases hside : o.side with
      | buy =>
        cases htif : o.tif with
        | ioc =>
          obtain ⟨w, hw, heq⟩ := add_limit_buy_ioc_run hinv htype hside htif
          rw [heq]
          have key := limit_buy_trade_bounds hinv hw hside
          rw [hside] at key
          exact key
        | fok =>
          obtain ⟨w, hw, heq⟩ :=
            add_limit_buy_fok_run hinv htype hside htif (fun hlt => hkill ⟨htif, hlt⟩)
          rw [heq]
          by_cases hpos : 0 < w.rem
          · rw [if_pos hpos]
            have key := limit_buy_trade_bounds hinv hw hside
            rw [hside] at key
            exact key
          · rw [if_neg hpos]
            have key := limit_buy_trade_bounds hinv hw hside
            rw [hside] at key
            exact key
        | gtc =>
          obtain ⟨w, hw, heq⟩ := add_limit_buy_gtc_run hinv htype hside htif
          rw [heq]
          by_cases hpos : 0 < w.rem
          · rw [if_pos hpos]
            have key := limit_buy_trade_bounds hinv hw hside
            rw [hside] at key
            exact key
          · rw [if_neg hpos]
            have key := limit_buy_trade_bounds hinv hw hside
            rw [hside] at key
            exact key
      | sell =>
        cases htif : o.tif with
        | ioc =>
          obtain ⟨w, hw, heq⟩ := add_limit_sell_ioc_run hinv htype hside htif
          rw [heq]
          have key := limit_sell_trade_bounds hinv hw hside
          rw [hside] at key
          exact key
        | fok =>
          obtain ⟨w, hw, heq⟩ :=
            add_limit_sell_fok_run hinv htype hside htif (fun hlt => hkill ⟨htif, hlt⟩)
          rw [heq]
          by_cases hpos : 0 < w.rem
          · rw [if_pos hpos]
            have key := limit_sell_trade_bounds hinv hw hside
            rw [hside] at key
            exact key
          · rw [if_neg hpos]
            have key := limit_sell_trade_bounds hinv hw hside
            rw [hside] at key
            exact key
        | gtc =>
          obtain ⟨w, hw, heq⟩ := add_limit_sell_gtc_run hinv htype hside htif
          rw [heq]
          by_cases hpos : 0 < w.rem
          · rw [if_pos hpos]
            have key := limit_sell_trade_bounds hinv hw hside
            rw [hside] at key
            exact key
          · rw [if_neg hpos]
            have key := limit_sell_trade_bounds hinv hw hside
            rw [hside] at key
            exact key

/-- Levels after dropping one order keep only orders of the old side
book. -/
theorem upd_levelsOrders_sub {m : List (Int × List Order)} {price : Int}
    {q1 q2 : List Order} {c : Order} (hnd : (m.map Prod.fst).Nodup)
    (hlook : alookup m price = some (q1 ++ c :: q2)) :
    ∀ o' ∈ levelsOrders (if (q1 ++ q2).isEmpty then aerase m price
      else aset m price (q1 ++ q2)), o' ∈ levelsOrders m := by
  have hmem := alookup_mem hlook
  have hids : ((q1 ++ q2).map Order.id).Sublist ((q1 ++ c :: q2).map Order.id) := by
    simp only [List.map_append, List.map_cons]
    exact (List.Sublist.refl _).append (List.sublist_cons_self _ _)
  have htss : ((q1 ++ q2).map Order.ts).Sublist ((q1 ++ c :: q2).map Order.ts) := by
    simp only [List.map_append, List.map_cons]
    exact (List.Sublist.refl _).append (List.sublist_cons_self _ _)
  have hu := levelsUpd_spec hnd hmem hids htss
  intro o' ho'
  rcases hu.ordersCases o' ho' with h | h
  · refine mem_levelsOrders.2 ⟨_, hmem, ?_⟩
    rcases List.mem_append.1 h with hh | hh
    · exact List.mem_append_left _ hh
    · exact List.mem_append_right _ (List.mem_cons_of_mem _ hh)
  · exact h

/-- Every order resting after `_extract_order` was resting before. -/
theorem extract_resting_sub {b : Book} (hinv : Inv b) (oid : Int) :
    ∀ o' ∈ restingOrders (extract_order b oid).2, o' ∈ restingOrders b := by
  cases hidx : alookup b.id_index oid with
  | none =>
    rw [extract_none_eq hidx]
    exact fun o' h => h
  | some sp =>
    obtain ⟨side, price⟩ := sp
    obtain ⟨q1, c, q2, hq, hc, h1, h2⟩ := idx_split hinv hidx
    cases side with
    | buy =>
      have hlook : alookup b.bids price = some (q1 ++ c :: q2) := hq
      rw [extract_run_buy hidx hlook hc h1]
      intro o' ho'
      have ho2 : o' ∈ levelsOrders (if (q1 ++ q2).isEmpty then aerase b.bids price
          else aset b.bids price (q1 ++ q2)) ++ levelsOrders b.asks := ho'
      show o' ∈ levelsOrders b.bids ++ levelsOrders b.asks
      rcases List.mem_append.1 ho2 with h | h
      · exact List.mem_append_left _ (upd_levelsOrders_sub hinv.bidsKeysNodup hlook o' h)
      · exact List.mem_append_right _ h
    | sell =>
      have hlook : alookup b.asks price = some (q1 ++ c :: q2) := hq
      rw [extract_run_sell hidx hlook hc h1]
      intro o' ho'
      have ho2 : o' ∈ levelsOrders b.bids ++ levelsOrders
          (if (q1 ++ q2).isEmpty then aerase b.asks price
            else aset b.asks price (q1 ++ q2)) := ho'
      show o' ∈ levelsOrders b.bids ++ levelsOrders b.asks
      rcases List.mem_append.1 ho2 with h | h
      · exact List.mem_append_left _ h
      · exact List.mem_append_right _ (upd_levelsOrders_sub hinv.asksKeysNodup hlook o' h)

/-- The trades of `replace`'s tail all carry a maker resting in the
book the successor order is matched against, with the replaced id as
taker. -/
theorem replaceFinish_trades {b : Book} (hinv : Inv b) {oid : Int} {side : Side}
    {price : Option Int} {qty remaining : Int} {tif : TimeInForce} :
    ∀ t ∈ (replaceFinish b oid side price qty remaining tif).1.2,
      (∃ m ∈ restingOrders b, m.id = t.maker_id ∧ m.price = some t.price) ∧
      t.taker_id = oid ∧ 0 < t.qty := by
  intro t ht
  cases price with
  | some p =>
    have ht2 : t ∈ (add b
        { id := oid, side := side, qty := qty, price := some p,
          order_type := OrderType.limit, tif := tif, ts := 0,
          remaining := remaining }).2.2 := ht
    have hf := add_trades_spec hinv (fun _ => rfl) t ht2
    exact ⟨hf.1, hf.2.2.2.1, hf.2.2.2.2⟩
  | none =>
    have ht2 : t ∈ (add b
        { id := oid, side := side, qty := qty, price := none,
          order_type := OrderType.market, tif := tif, ts := 0,
          remaining := remaining }).2.2 := ht
    have hf := add_trades_spec hinv
      (fun h => absurd (h : (none : Option Int).isSome = true) (by decide)) t ht2
    exact ⟨hf.1, hf.2.2.2.1, hf.2.2.2.2⟩

theorem reachable_c4rbook : Reachable c4rbook :=
  Reachable.addStep
    (Reachable.addStep
      (Reachable.addStep Reachable.empty (by decide) (by decide))
      (by decide) (by decide))
    (by decide) (by decide)

/-- C4 amended: every trade emitted by an `add` of a price/type
consistent order (price present iff LIMIT, which both the dataclass
validation and the successor order built inside `replace` guarantee)
carries the price of a maker resting just before the event; for a BUY
taker the price is at least the pre-event best ask and at most the
taker's limit (when it has one), symmetrically for a SELL.  The band
only holds one-sided: a sweep can trade beyond the opposite best, as
the counterexample shows.  Every trade emitted by the `add` inside a
`replace` likewise carries the price of an order that was resting just
before the replace, with the replaced id as taker. -/
theorem claim_C4_amended {b : Book} (hinv : Inv b) :
    (∀ o : Order, (o.price.isSome → o.order_type = OrderType.limit) →
      ∀ t ∈ (add b o).2.2,
        (∃ m ∈ restingOrders b, m.id = t.maker_id ∧ m.price = some t.price) ∧
        (o.side = Side.buy → (∀ ba, best_ask b = some ba → ba ≤ t.price) ∧
          (∀ l, o.price = some l → t.price ≤ l)) ∧
        (o.side = Side.sell → (∀ bb, best_bid b = some bb → t.price ≤ bb) ∧
          (∀ l, o.price = some l → l ≤ t.price)) ∧
        t.taker_id = o.id ∧ 0 < t.qty) ∧
    (∀ (oid : Int) (np nq : Option Int) (nt : Option TimeInForce),
      ∀ t ∈ (replace b oid np nq nt).1.2,
        (∃ m ∈ restingOrders b, m.id = t.maker_id ∧ m.price = some t.price) ∧
        t.taker_id = oid ∧ 0 < t.qty) := by
  constructor
  · intro o hvt
    exact add_trades_spec hinv hvt
  · intro oid np nq nt t ht
    cases hidx : alookup b.id_index oid with
    | none =>
      have heq : replace b oid np nq nt = ((false, []), b) := by
        simp [replace, hidx]
      rw [heq] at ht
      exact absurd ht (List.not_mem_nil t)
    | some sp =>
      obtain ⟨side, price⟩ := sp
      obtain ⟨c, hc1, hcid, hcside, hcprice, hctype, hcrem, hcrq, hcq,
        hinv2, hnr, hseq, htr⟩ := extract_spec hinv hidx
      have hsub := extract_resting_sub hinv oid
      cases nq with
      | none =>
        simp only [replace, hidx, hc1] at ht
        obtain ⟨⟨m, hm, hmf⟩, htid, hqty⟩ := replaceFinish_trades hinv2 t ht
        exact ⟨⟨m, hsub m hm, hmf⟩, htid, hqty⟩
      | some n =>
        by_cases hn : n ≤ 0
        · simp only [replace, hidx, hc1, if_pos hn] at ht
          exact absurd ht (List.not_mem_nil t)
        · simp only [replace, hidx, hc1, if_neg hn] at ht
          obtain ⟨⟨m, hm, hmf⟩, htid, hqty⟩ := replaceFinish_trades hinv2 t ht
          exact ⟨⟨m, hsub m hm, hmf⟩, htid, hqty⟩

/-- C4 amended witness: the direct-add conjunct at the sweeping taker's
first trade, and the replace conjunct at the trade emitted by replacing
the partially filled bid id 1 to the crossing price 1100. -/
theorem claim_C4_amended_witness :
    (({ maker_id := 1, taker_id := 4, price := 1000, qty := 10, ts := 5 } : Trade).taker_id
      = c4taker.id) ∧
    (({ maker_id := 3, taker_id := 1, price := 1100, qty := 5, ts := 6 } : Trade).taker_id
      = 1) :=
  ⟨((claim_C4_amended (reachable_inv reachable_c4book)).1 c4taker (by decide)
      { maker_id := 1, taker_id := 4, price := 1000, qty := 10, ts := 5 }
      (by decide)).2.2.2.1,
   ((claim_C4_amended (reachable_inv reachable_c4rbook)).2 1 (some 1100) none none
      { maker_id := 3, taker_id := 1, price := 1100, qty := 5, ts := 6 }
      (by decide)).2.1⟩

end OrderBookSpec
